import Mathlib

/-!
# B+ tree index (`BPlusTree.h`): embedding and verification

The C++ class `BPlusTree<K, V>` is a pointer structure: nodes are allocated with
`new`, carry a raw `parent` back pointer, leaves carry a raw `next` pointer, and the
split cascade climbs from a leaf to the root through the `parent` pointers.

The embedding keeps that shape.  The free store is a list of nodes, an address is an
index into it, `new` appends a node (nothing is ever freed before the destructor), and
a null pointer is `none`.  Every operation runs in `Option`: `none` stands for what is
undefined behaviour in C++ (dereferencing a null or dangling pointer, a cast to the
wrong node class, an out-of-range index or iterator) and for an exhausted iteration
budget of a loop or of the recursion `insertIntoParent` / `splitInternal`.

The verification goes through a representation invariant, `Inv`: the root is the root of
a subtree that is well formed (`WF`) at some height, in an unbounded key window, and the
leaves are linked from left to right.  `cascade` follows one insertion from the leaf it
reaches up to the node where the splits stop, `insert_inv` concludes that `insert` never
fails on a tree that satisfies `Inv`, keeps `Inv`, and acts on the pairs of the leaf
level (`toList`) as the insertion into a sorted association list (`insertEntry`), and
`search_spec` that `search` is the lookup in that list.  The statements about trees built
by `insert` follow from these.
-/

namespace BPlusTree

/-- Constant `ORDER`: maximum number of children per node. -/
def ORDER : Nat := 4

/-- Constant `MAX_KEYS = ORDER - 1`. -/
def MAX_KEYS : Nat := ORDER - 1

/-- Constant `MIN_KEYS = (ORDER + 1) / 2 - 1`. -/
def MIN_KEYS : Nat := (ORDER + 1) / 2 - 1

/-- A raw pointer to a node: `none` is `nullptr`, `some a` is the address `a`. -/
abbrev Ptr := Option Nat

/-- Class `Node` with its two subclasses.  `isLeaf` is the constructor tag; the fields
`keys` and `parent` of the base class are carried by both constructors. -/
inductive Node (K : Type) (V : Type) where
  | leaf (keys : List K) (parent : Ptr) (values : List V) (next : Ptr) : Node K V
  | internal (keys : List K) (parent : Ptr) (children : List Nat) : Node K V
deriving DecidableEq

namespace Node

variable {K V : Type}

/-- Member `keys`. -/
def keys : Node K V → List K
  | leaf ks _ _ _ => ks
  | internal ks _ _ => ks

/-- Member `isLeaf`. -/
def isLeaf : Node K V → Bool
  | leaf _ _ _ _ => true
  | internal _ _ _ => false

/-- Member `parent`. -/
def parent : Node K V → Ptr
  | leaf _ p _ _ => p
  | internal _ p _ => p

/-- Assignment `node->parent = p`. -/
def setParent (p : Ptr) : Node K V → Node K V
  | leaf ks _ vs nx => leaf ks p vs nx
  | internal ks _ cs => internal ks p cs

/-- Member `next` of a leaf (no such member on an internal node). -/
def next : Node K V → Option Ptr
  | leaf _ _ _ nx => some nx
  | internal _ _ _ => none

end Node

end BPlusTree

/-- Class `BPlusTree`: the member `root` together with the free store its nodes live in. -/
structure BPlusTree (K : Type) (V : Type) where
  root : BPlusTree.Ptr
  heap : List (BPlusTree.Node K V)
deriving DecidableEq

namespace BPlusTree

variable {K V : Type}

/-- Effect of `std::vector::insert(begin() + i, x)`: `x` ends up at index `i`. -/
def insertAt {α : Type} (l : List α) (i : Nat) (x : α) : List α :=
  l.take i ++ x :: l.drop i

section Ordered

variable [LinearOrder K]

/-- Inner loop of `findLeaf`: `i = 0; while (i < keys.size() && key >= keys[i]) i++`. -/
def findChild (key : K) : List K → Nat
  | [] => 0
  | k :: ks => if key ≥ k then findChild key ks + 1 else 0

/-- Result of `std::lower_bound(keys.begin(), keys.end(), key) - keys.begin()`: the index of
the first element that is not less than `key` (the size when there is none).  This is what
the standard guarantees on a range partitioned by `< key`, which a sorted range is. -/
def lowerBound (key : K) : List K → Nat
  | [] => 0
  | k :: ks => if k < key then lowerBound key ks + 1 else 0

/-- Outer loop of `findLeaf`, started at the node `current`; one unit of `fuel` per node
looked at. -/
def findLeafLoop (heap : List (Node K V)) (key : K) : Nat → Nat → Option Nat
  | 0, _ => none
  | fuel + 1, current =>
    match heap[current]? with
    | none => none
    | some (Node.leaf _ _ _ _) => some current
    | some (Node.internal ks _ cs) =>
      match cs[findChild key ks]? with
      | none => none
      | some child => findLeafLoop heap key fuel child

/-- Method `findLeaf`: a null result for the empty tree, otherwise the leaf reached from the
root.  The loop may look at as many nodes as are allocated: a descent that looks at more
visits a node twice and never ends. -/
def findLeaf (t : BPlusTree K V) (key : K) : Option Ptr :=
  match t.root with
  | none => some none
  | some r => (findLeafLoop t.heap key t.heap.length r).map some

/-- Assignment `a->parent = p` on the node at address `a`. -/
def setParentAt (heap : List (Node K V)) (a : Nat) (p : Ptr) : Option (List (Node K V)) :=
  (heap[a]?).map fun n => heap.set a (n.setParent p)

/-- Loop `for (auto* child : children) child->parent = p`. -/
def setParents (p : Ptr) : List Nat → List (Node K V) → Option (List (Node K V))
  | [], heap => some heap
  | child :: rest, heap => (setParentAt heap child p).bind (setParents p rest)

/-- Method `splitInternal`, with the call of `insertIntoParent` that ends it passed as
`up`. -/
def splitInternal (up : BPlusTree K V → Nat → K → Nat → Option (BPlusTree K V))
    (t : BPlusTree K V) (node : Nat) : Option (BPlusTree K V) :=
  match t.heap[node]? with
  | some (Node.internal ks _ cs) =>
    let newNode := t.heap.length
    let mid := ks.length / 2
    match ks[mid]? with
    | none => none
    | some midKey =>
      if mid + 1 ≤ cs.length then
        let heap1 := t.heap ++ [Node.internal (ks.drop (mid + 1)) none (cs.drop (mid + 1))]
        match setParents (some newNode) (cs.drop (mid + 1)) heap1 with
        | none => none
        | some heap2 =>
          match heap2[node]? with
          | some (Node.internal ks2 par2 cs2) =>
            let heap3 := heap2.set node (Node.internal (ks2.take mid) par2 (cs2.take (mid + 1)))
            up { t with heap := heap3 } node midKey newNode
          | _ => none
      else none
  | _ => none

/-- Method `insertIntoParent`; `fuel` bounds the depth of the recursion through
`splitInternal`. -/
def insertIntoParent : Nat → BPlusTree K V → Nat → K → Nat → Option (BPlusTree K V)
  | 0, _, _, _, _ => none
  | fuel + 1, t, leftChild, key, rightChild =>
    if some leftChild = t.root then
      let newRoot := t.heap.length
      let heap1 := t.heap ++ [Node.internal [key] none [leftChild, rightChild]]
      match setParentAt heap1 leftChild (some newRoot) with
      | none => none
      | some heap2 =>
        match setParentAt heap2 rightChild (some newRoot) with
        | none => none
        | some heap3 => some { root := some newRoot, heap := heap3 }
    else
      match t.heap[leftChild]? with
      | none => none
      | some l =>
        match l.parent with
        | none => none
        | some parent =>
          match t.heap[parent]? with
          | some (Node.internal ks par cs) =>
            let pos := lowerBound key ks
            if pos + 1 ≤ cs.length then
              let heap1 := t.heap.set parent
                (Node.internal (insertAt ks pos key) par (insertAt cs (pos + 1) rightChild))
              match setParentAt heap1 rightChild (some parent) with
              | none => none
              | some heap2 =>
                if (insertAt ks pos key).length > MAX_KEYS then
                  splitInternal (insertIntoParent fuel) { t with heap := heap2 } parent
                else some { t with heap := heap2 }
            else none
          | _ => none

/-- Method `splitLeaf`. -/
def splitLeaf (fuel : Nat) (t : BPlusTree K V) (leaf : Nat) : Option (BPlusTree K V) :=
  match t.heap[leaf]? with
  | some (Node.leaf ks par vs nx) =>
    let newLeaf := t.heap.length
    let mid := (ks.length + 1) / 2
    if mid ≤ ks.length ∧ mid ≤ vs.length then
      let newKeys := ks.drop mid
      let heap1 := t.heap ++ [Node.leaf newKeys none (vs.drop mid) nx]
      let heap2 := heap1.set leaf (Node.leaf (ks.take mid) par (vs.take mid) (some newLeaf))
      match newKeys[0]? with
      | none => none
      | some newKey => insertIntoParent fuel { t with heap := heap2 } leaf newKey newLeaf
    else none
  | _ => none

/-- Method `insertIntoLeaf`. -/
def insertIntoLeaf (fuel : Nat) (t : BPlusTree K V) (leaf : Nat) (key : K) (value : V) :
    Option (BPlusTree K V) :=
  match t.heap[leaf]? with
  | some (Node.leaf ks par vs nx) =>
    let pos := lowerBound key ks
    if ks[pos]? = some key then
      if pos < vs.length then
        let heap1 := t.heap.set leaf (Node.leaf ks par (vs.set pos value) nx)
        some { t with heap := heap1 }
      else none
    else if pos ≤ vs.length then
      let heap1 := t.heap.set leaf
        (Node.leaf (insertAt ks pos key) par (insertAt vs pos value) nx)
      if (insertAt ks pos key).length > MAX_KEYS then splitLeaf fuel { t with heap := heap1 } leaf
      else some { t with heap := heap1 }
    else none
  | _ => none

/-- Constructor `BPlusTree()`. -/
def new : BPlusTree K V := { root := none, heap := [] }

/-- Method `insert`.  The recursion of the split cascade may be as deep as there are nodes
allocated when `insert` is called. -/
def insert (t : BPlusTree K V) (key : K) (value : V) : Option (BPlusTree K V) :=
  match t.root with
  | none =>
    some { root := some t.heap.length, heap := t.heap ++ [Node.leaf [key] none [value] none] }
  | some _ =>
    match findLeaf t key with
    | some (some leaf) => insertIntoLeaf t.heap.length t leaf key value
    | _ => none

/-- Method `search`: `none` is undefined behaviour, `some none` is `std::nullopt` and
`some (some v)` is the value `v`. -/
def search (t : BPlusTree K V) (key : K) : Option (Option V) :=
  match findLeaf t key with
  | none => none
  | some none => some none
  | some (some leaf) =>
    match t.heap[leaf]? with
    | some (Node.leaf ks _ vs _) =>
      let pos := lowerBound key ks
      if ks[pos]? = some key then (vs[pos]?).map some else some none
    | _ => none

/-- Method `empty`. -/
def empty (t : BPlusTree K V) : Bool := t.root.isNone

/-- A run of `insert` calls, in list order, on the tree `t`. -/
def insertAll (t : BPlusTree K V) : List (K × V) → Option (BPlusTree K V)
  | [] => some t
  | (k, v) :: rest => (insert t k v).bind fun t1 => insertAll t1 rest

/-- The tree obtained from a fresh tree by a run of `insert` calls. -/
def build (ops : List (K × V)) : Option (BPlusTree K V) := insertAll new ops

end Ordered

/-! ## Reading the free store -/

/-- The `parent` field of the node at address `a` (`none` when `a` is not allocated). -/
def parentAt (H : List (Node K V)) (a : Nat) : Option Ptr := (H[a]?).map Node.parent

/-- The `next` field of the leaf at address `a` (`none` when `a` is no leaf). -/
def nextAt (H : List (Node K V)) (a : Nat) : Option Ptr := (H[a]?).bind Node.next

/-- The `children` of the internal node at address `a` (empty when `a` is none). -/
def childrenAt (H : List (Node K V)) (a : Nat) : List Nat :=
  match H[a]? with
  | some (Node.internal _ _ cs) => cs
  | _ => []

/-- The key/value pairs of the leaf at address `a`, in index order. -/
def entriesAt (H : List (Node K V)) (a : Nat) : List (K × V) :=
  match H[a]? with
  | some (Node.leaf ks _ vs _) => ks.zip vs
  | _ => []

/-- Addresses of the nodes of the subtree of height `h` rooted at `a`, in preorder. -/
def nodesOf (H : List (Node K V)) : Nat → Nat → List Nat
  | 0, a => [a]
  | h + 1, a => a :: (childrenAt H a).flatMap (nodesOf H h)

/-- Addresses of the leaves of the subtree of height `h` rooted at `a`, left to right. -/
def leavesOf (H : List (Node K V)) : Nat → Nat → List Nat
  | 0, a => [a]
  | h + 1, a => (childrenAt H a).flatMap (leavesOf H h)

/-- Key/value pairs stored at the leaf level of the subtree of height `h` rooted at `a`,
left to right. -/
def entries (H : List (Node K V)) : Nat → Nat → List (K × V)
  | 0, a => entriesAt H a
  | h + 1, a => (childrenAt H a).flatMap (entries H h)

/-- Addresses of the leaves below `a`, left to right, by a depth-first walk that looks at
no more than `fuel` nodes on a path. -/
def leavesFrom (H : List (Node K V)) : Nat → Nat → List Nat
  | 0, _ => []
  | fuel + 1, a =>
    match H[a]? with
    | some (Node.leaf _ _ _ _) => [a]
    | some (Node.internal _ _ cs) => cs.flatMap (leavesFrom H fuel)
    | none => []

/-- Addresses of the leaves of the tree, left to right. -/
def leaves (t : BPlusTree K V) : List Nat :=
  match t.root with
  | none => []
  | some r => leavesFrom t.heap t.heap.length r

/-- The key/value pairs stored at the leaf level of the tree, left to right. -/
def toList (t : BPlusTree K V) : List (K × V) := (leaves t).flatMap (entriesAt t.heap)

/-- The leftmost leaf below `a`: follow `children[0]` down to a leaf. -/
def leftmostFrom (H : List (Node K V)) : Nat → Nat → Option Nat
  | 0, _ => none
  | fuel + 1, a =>
    match H[a]? with
    | some (Node.leaf _ _ _ _) => some a
    | some (Node.internal _ _ (c :: _)) => leftmostFrom H fuel c
    | _ => none

/-- Addresses met by following `next` from the pointer `p` to null. -/
def chainFrom (H : List (Node K V)) : Nat → Ptr → Option (List Nat)
  | _, none => some []
  | 0, some _ => none
  | fuel + 1, some l =>
    match H[l]? with
    | some (Node.leaf _ _ _ nx) => (chainFrom H fuel nx).map (l :: ·)
    | _ => none

/-- The leaf chain of the tree: the leaves met by following `next` from the leftmost
leaf. -/
def leafChain (t : BPlusTree K V) : Option (List Nat) :=
  match t.root with
  | none => some []
  | some r =>
    (leftmostFrom t.heap t.heap.length r).bind fun l => chainFrom t.heap t.heap.length (some l)

/-- The node `b` is reached from the node `a` by `d` steps from a node to one of its
`children`. -/
inductive Reach (H : List (Node K V)) : Nat → Nat → Nat → Prop where
  | refl (a : Nat) : Reach H a 0 a
  | step {a c b d : Nat} {ks : List K} {par : Ptr} {cs : List Nat} :
    H[a]? = some (Node.internal ks par cs) → c ∈ cs → Reach H c d b → Reach H a (d + 1) b

/-- The node at address `b` is a node of the tree `t`, at depth `d`. -/
def InTree (t : BPlusTree K V) (d b : Nat) : Prop := ∃ r, t.root = some r ∧ Reach t.heap r d b

/-- The value paired with `key` in an association list. -/
def lookup [DecidableEq K] (key : K) : List (K × V) → Option V
  | [] => none
  | (k, v) :: rest => if key = k then some v else lookup key rest

/-- The `keys` of the node at address `a` (empty when `a` is not allocated). -/
def keysAt (H : List (Node K V)) (a : Nat) : List K :=
  match H[a]? with
  | some n => n.keys
  | none => []

/-- The cells at address `x` of two stores agree except possibly for the `parent` field. -/
def SameMod (H H1 : List (Node K V)) (x : Nat) : Prop :=
  (H1[x]?).map (Node.setParent none) = (H[x]?).map (Node.setParent none)

section Invariant

variable [LinearOrder K]

/-- Optional inclusive lower bound. -/
def LoLe : Option K → K → Prop
  | none, _ => True
  | some l, k => l ≤ k

/-- Optional strict lower bound. -/
def LoLt : Option K → K → Prop
  | none, _ => True
  | some l, k => l < k

/-- Optional strict upper bound. -/
def HiGt : K → Option K → Prop
  | _, none => True
  | k, some u => k < u

/-- Keys `ks` and children `cs` of an internal node interleave as
`c₀ k₀ c₁ k₁ … kₙ₋₁ cₙ` inside the window `[lo, hi)`: every key is strictly inside the
window, and the child between two keys satisfies `P` for the window they delimit. -/
def Chain (P : Nat → Option K → Option K → Prop) :
    Option K → List K → List Nat → Option K → Prop
  | lo, [], [c], hi => P c lo hi
  | lo, k :: ks, c :: cs, hi =>
    LoLt lo k ∧ HiGt k hi ∧ P c lo (some k) ∧ Chain P (some k) ks cs hi
  | _, _, _, _ => False

/-- The subtree rooted at `a` is a B+ tree of height `h` whose keys lie in `[lo, hi)`:
leaves are at depth `h` exactly, hold between `m` (at the root of the subtree; 2 below it)
and `MAX_KEYS` strictly ascending keys with as many values, the first key being the lower
bound of the window when there is one; internal nodes hold between 1 and `MAX_KEYS` keys,
one child more than keys, every child points back to its parent and the keys separate the
children. -/
def WF (H : List (Node K V)) : Nat → Nat → Nat → Option K → Option K → Prop
  | 0, m, a, lo, hi =>
    ∃ ks par vs nx, H[a]? = some (Node.leaf ks par vs nx) ∧ vs.length = ks.length ∧
      ks.Pairwise (· < ·) ∧ (∀ k ∈ ks, LoLe lo k ∧ HiGt k hi) ∧
      m ≤ ks.length ∧ ks.length ≤ MAX_KEYS ∧ (∀ l, lo = some l → ks.head? = some l)
  | h + 1, _, a, lo, hi =>
    ∃ ks par cs, H[a]? = some (Node.internal ks par cs) ∧
      1 ≤ ks.length ∧ ks.length ≤ MAX_KEYS ∧
      (∀ c ∈ cs, parentAt H c = some (some a)) ∧
      Chain (fun c l u => WF H h 2 c l u) lo ks cs hi

/-- The leaves `L`, in this order, are linked through `next`, the last one to `last`. -/
def Linked (H : List (Node K V)) : List Nat → Ptr → Prop
  | [], _ => True
  | [l], last => nextAt H l = some last
  | l :: l1 :: rest, last => nextAt H l = some (some l1) ∧ Linked H (l1 :: rest) last

/-- Insertion of a pair into a key-sorted association list, replacing the value of a key
already present. -/
def insertEntry (k : K) (v : V) : List (K × V) → List (K × V)
  | [] => [(k, v)]
  | (k1, v1) :: rest =>
    if k < k1 then (k, v) :: (k1, v1) :: rest
    else if k = k1 then (k, v) :: rest
    else (k1, v1) :: insertEntry k v rest

/-- The store `H1` extends `H` and differs from it, on the cells of `H`, only at nodes of
the subtree of height `h` rooted at `a`. -/
def Frame (H H1 : List (Node K V)) (h a : Nat) : Prop :=
  H.length ≤ H1.length ∧ ∀ x, x < H.length → x ∉ nodesOf H h a → H1[x]? = H[x]?

/-- First element of a list of leaves, or the pointer `last` when the list is empty. -/
def headOr (L : List Nat) (last : Ptr) : Ptr :=
  match L with
  | [] => last
  | l :: _ => some l

/-- Bookkeeping of an insertion below `a` that took the store from `H` to `H1` without
splitting `a`: the leaf level of the subtree holds the new pair, nothing outside the
subtree changed, and the leaves are still linked. -/
structure Upd (H H1 : List (Node K V)) (h a : Nat) (key : K) (v : V) : Prop where
  ent : entries H1 h a = insertEntry key v (entries H h a)
  frame : Frame H H1 h a
  par : parentAt H1 a = parentAt H a
  nodes : ∀ x ∈ nodesOf H1 h a, x ∈ nodesOf H h a ∨ H.length ≤ x
  lv : ∀ last, Linked H (leavesOf H h a) last → Linked H1 (leavesOf H1 h a) last
  hd : (leavesOf H1 h a).head? = (leavesOf H h a).head?

/-- Outcome of an insertion below `a` that does not split `a`: the subtree of `a` is well
formed in the same window, with the bookkeeping of `Upd`. -/
structure StepA (H H1 : List (Node K V)) (h m a : Nat) (lo hi : Option K) (key : K) (v : V) :
    Prop where
  wf : WF H1 h m a lo hi
  upd : Upd H H1 h a key v

/-- An internal node of height `h + 1` that is well formed except that it may hold up to
`cap` keys. -/
def WFI (H : List (Node K V)) (h cap a : Nat) (lo hi : Option K) : Prop :=
  ∃ ks par cs, H[a]? = some (Node.internal ks par cs) ∧
    1 ≤ ks.length ∧ ks.length ≤ cap ∧
    (∀ c ∈ cs, parentAt H c = some (some a)) ∧
    Chain (fun c l u => WF H h 2 c l u) lo ks cs hi

/-- A split of the node `a` that took the store from `G` to `G1`: the subtree of `a` is now
the two well-formed subtrees `a` and `r` on both sides of the separator `s`, with the same
leaf level, and `r` is not linked to a parent yet. -/
structure Split (G G1 : List (Node K V)) (h a : Nat) (lo hi : Option K) (s : K) (r : Nat) :
    Prop where
  wfl : WF G1 h 2 a lo (some s)
  wfr : WF G1 h 2 r (some s) hi
  los : LoLt lo s
  his : HiGt s hi
  ent : entries G1 h a ++ entries G1 h r = entries G h a
  frame : Frame G G1 h a
  par : parentAt G1 a = parentAt G a
  fresh : G.length ≤ r
  nodes : ∀ x ∈ nodesOf G1 h a ++ nodesOf G1 h r, x ∈ nodesOf G h a ∨ G.length ≤ x
  lv : ∀ last, Linked G (leavesOf G h a) last →
    Linked G1 (leavesOf G1 h a ++ leavesOf G1 h r) last
  hd : (leavesOf G1 h a).head? = (leavesOf G h a).head?

/-- The descent step of `findLeaf` at an internal node with keys `ks` and children
`cs = pre ++ c :: post`: the child `c` chosen for `key` and its window `[l, u)`. -/
structure Found (P : Nat → Option K → Option K → Prop) (lo hi : Option K) (ks : List K)
    (cs : List Nat) (key : K) (pre : List Nat) (c : Nat) (post : List Nat)
    (l u : Option K) : Prop where
  split : cs = pre ++ c :: post
  idx : pre.length = findChild key ks
  here : P c l u
  inl : LoLe l key
  inu : HiGt key u
  nl : ∀ k, LoLe l k → LoLe lo k
  nlt : ∀ k, LoLt l k → LoLt lo k
  nu : ∀ k, HiGt k u → HiGt k hi
  left : ∀ x ∈ pre, ∃ l1 u1, P x l1 (some u1) ∧ ∀ k, LoLe l k → u1 ≤ k
  right : ∀ x ∈ post, ∃ l1 u1, P x (some l1) u1 ∧ ∀ k, HiGt k u → k < l1
  replace : ∀ Q : Nat → Option K → Option K → Prop,
    (∀ x ∈ pre ++ post, ∀ l u, P x l u → Q x l u) → Q c l u → Chain Q lo ks cs hi
  insert : ∀ (Q : Nat → Option K → Option K → Prop) (s : K) (r : Nat),
    (∀ x ∈ pre ++ post, ∀ l u, P x l u → Q x l u) → Q c l (some s) → Q r (some s) u →
    LoLt l s → HiGt s u →
    lowerBound s ks = pre.length ∧
      Chain Q lo (insertAt ks pre.length s) (pre ++ c :: r :: post) hi

/-- Outcome of an insertion below `a` that splits `a`: the store went from `H` to `H1`, the
old subtree is now the two well-formed subtrees `a` and `r` on both sides of the separator
`s`, and `r` is not linked to a parent yet. -/
structure StepB (H H1 : List (Node K V)) (h a : Nat) (lo hi : Option K) (key : K) (v : V)
    (s : K) (r : Nat) : Prop where
  wfl : WF H1 h 2 a lo (some s)
  wfr : WF H1 h 2 r (some s) hi
  los : LoLt lo s
  his : HiGt s hi
  ent : entries H1 h a ++ entries H1 h r = insertEntry key v (entries H h a)
  frame : Frame H H1 h a
  par : parentAt H1 a = parentAt H a
  fresh : H.length ≤ r
  nodes : ∀ x ∈ nodesOf H1 h a ++ nodesOf H1 h r, x ∈ nodesOf H h a ∨ H.length ≤ x
  lv : ∀ last, Linked H (leavesOf H h a) last →
    Linked H1 (leavesOf H1 h a ++ leavesOf H1 h r) last
  hd : (leavesOf H1 h a).head? = (leavesOf H h a).head?

/-- The tree `t` is not empty: its root `r` is the root of a well-formed subtree of height
`h` with an unbounded window, has no parent, and the leaves are linked from left to right,
the last one to null. -/
structure Rep (t : BPlusTree K V) (h r : Nat) : Prop where
  root : t.root = some r
  wf : WF t.heap h 1 r none none
  par : parentAt t.heap r = some none
  ht : h < t.heap.length
  linked : Linked t.heap (leavesOf t.heap h r) none

/-- Representation invariant of the whole tree. -/
def Inv (t : BPlusTree K V) : Prop :=
  (t.root = none ∧ t.heap = []) ∨ ∃ h r, Rep t h r

end Invariant

/-! ## Depth of the leaves, and a record of the promotions of one insertion -/

/-- Number of `children[0]` steps from the node `a` down to a leaf. -/
def heightFrom (H : List (Node K V)) : Nat → Nat → Nat
  | 0, _ => 0
  | fuel + 1, a =>
    match H[a]? with
    | some (Node.internal _ _ (c :: _)) => heightFrom H fuel c + 1
    | _ => 0

/-- Depth of the leftmost leaf of the tree (0 when the root is a leaf, or null). -/
def height (t : BPlusTree K V) : Nat :=
  match t.root with
  | none => 0
  | some r => heightFrom t.heap t.heap.length r

/-- What one call of `insertIntoParent` on a left node that is not the root did: the address
of the parent, its keys and children before, the three arguments, the position `pos`
computed by `lower_bound`, and the keys and children of the parent as they are in the store
after the two calls of `insert` and the assignment of `rightChild->parent`. -/
structure Promotion (K : Type) where
  parent : Nat
  keys : List K
  children : List Nat
  left : Nat
  key : K
  right : Nat
  pos : Nat
  keysAfter : List K
  childrenAfter : List Nat

/-- The promotion put the separator at the key index of the left node and the right node
right after the left node: the left node is a child of the parent, and at whatever child
index `j` it is, `pos = j`, the key of index `j` is now the separator, the child of index `j`
is still the left node and the child of index `j + 1` is the right node. -/
def Promotion.AfterLeft (p : Promotion K) : Prop :=
  (∃ j : Nat, p.children[j]? = some p.left) ∧
  ∀ j : Nat, p.children[j]? = some p.left →
    p.pos = j ∧ p.keysAfter[j]? = some p.key ∧ p.childrenAfter[j]? = some p.left ∧
      p.childrenAfter[j + 1]? = some p.right

section Logged

variable [LinearOrder K]

/-- The promotion `p` was made on the nodes of the store `H`: the parent is an internal node
of `H` with the keys and children of the record, the `parent` field of the left node in `H`
is the address of the parent, `pos` is the result of `lower_bound` for the key in the keys,
and the keys and children found in the parent afterwards are the keys with the key inserted
at `pos` and the children with the right node inserted at `pos + 1`. -/
def Promotion.From (H : List (Node K V)) (p : Promotion K) : Prop :=
  (∃ par, H[p.parent]? = some (Node.internal p.keys par p.children)) ∧
  parentAt H p.left = some (some p.parent) ∧
  p.pos = lowerBound p.key p.keys ∧
  p.keysAfter = insertAt p.keys p.pos p.key ∧
  p.childrenAfter = insertAt p.children (p.pos + 1) p.right

/-- Method `splitInternal` for a caller that keeps a record of the promotions. -/
def splitInternalLog
    (up : BPlusTree K V → Nat → K → Nat → Option (BPlusTree K V × List (Promotion K)))
    (t : BPlusTree K V) (node : Nat) : Option (BPlusTree K V × List (Promotion K)) :=
  match t.heap[node]? with
  | some (Node.internal ks _ cs) =>
    let newNode := t.heap.length
    let mid := ks.length / 2
    match ks[mid]? with
    | none => none
    | some midKey =>
      if mid + 1 ≤ cs.length then
        let heap1 := t.heap ++ [Node.internal (ks.drop (mid + 1)) none (cs.drop (mid + 1))]
        match setParents (some newNode) (cs.drop (mid + 1)) heap1 with
        | none => none
        | some heap2 =>
          match heap2[node]? with
          | some (Node.internal ks2 par2 cs2) =>
            let heap3 := heap2.set node (Node.internal (ks2.take mid) par2 (cs2.take (mid + 1)))
            up { t with heap := heap3 } node midKey newNode
          | _ => none
      else none
  | _ => none

/-- Method `insertIntoParent`, keeping a record: every call on a left node that is not the
root appends its `Promotion` to `log`, with the keys and children of the parent read back
from the store after the statements that write them. -/
def insertIntoParentLog : Nat → BPlusTree K V → Nat → K → Nat → List (Promotion K) →
    Option (BPlusTree K V × List (Promotion K))
  | 0, _, _, _, _, _ => none
  | fuel + 1, t, leftChild, key, rightChild, log =>
    if some leftChild = t.root then
      let newRoot := t.heap.length
      let heap1 := t.heap ++ [Node.internal [key] none [leftChild, rightChild]]
      match setParentAt heap1 leftChild (some newRoot) with
      | none => none
      | some heap2 =>
        match setParentAt heap2 rightChild (some newRoot) with
        | none => none
        | some heap3 => some ({ root := some newRoot, heap := heap3 }, log)
    else
      match t.heap[leftChild]? with
      | none => none
      | some l =>
        match l.parent with
        | none => none
        | some parent =>
          match t.heap[parent]? with
          | some (Node.internal ks par cs) =>
            let pos := lowerBound key ks
            if pos + 1 ≤ cs.length then
              let heap1 := t.heap.set parent
                (Node.internal (insertAt ks pos key) par (insertAt cs (pos + 1) rightChild))
              match setParentAt heap1 rightChild (some parent) with
              | none => none
              | some heap2 =>
                let p : Promotion K :=
                  { parent := parent, keys := ks, children := cs, left := leftChild, key := key,
                    right := rightChild, pos := pos, keysAfter := keysAt heap2 parent,
                    childrenAfter := childrenAt heap2 parent }
                if (insertAt ks pos key).length > MAX_KEYS then
                  splitInternalLog (fun t1 a k b => insertIntoParentLog fuel t1 a k b (log ++ [p]))
                    { t with heap := heap2 } parent
                else some ({ t with heap := heap2 }, log ++ [p])
            else none
          | _ => none

/-- Method `splitLeaf`, keeping a record of the promotions. -/
def splitLeafLog (fuel : Nat) (t : BPlusTree K V) (leaf : Nat) :
    Option (BPlusTree K V × List (Promotion K)) :=
  match t.heap[leaf]? with
  | some (Node.leaf ks par vs nx) =>
    let newLeaf := t.heap.length
    let mid := (ks.length + 1) / 2
    if mid ≤ ks.length ∧ mid ≤ vs.length then
      let newKeys := ks.drop mid
      let heap1 := t.heap ++ [Node.leaf newKeys none (vs.drop mid) nx]
      let heap2 := heap1.set leaf (Node.leaf (ks.take mid) par (vs.take mid) (some newLeaf))
      match newKeys[0]? with
      | none => none
      | some newKey => insertIntoParentLog fuel { t with heap := heap2 } leaf newKey newLeaf []
    else none
  | _ => none

/-- Method `insertIntoLeaf`, keeping a record of the promotions. -/
def insertIntoLeafLog (fuel : Nat) (t : BPlusTree K V) (leaf : Nat) (key : K) (value : V) :
    Option (BPlusTree K V × List (Promotion K)) :=
  match t.heap[leaf]? with
  | some (Node.leaf ks par vs nx) =>
    let pos := lowerBound key ks
    if ks[pos]? = some key then
      if pos < vs.length then
        let heap1 := t.heap.set leaf (Node.leaf ks par (vs.set pos value) nx)
        some ({ t with heap := heap1 }, [])
      else none
    else if pos ≤ vs.length then
      let heap1 := t.heap.set leaf
        (Node.leaf (insertAt ks pos key) par (insertAt vs pos value) nx)
      if (insertAt ks pos key).length > MAX_KEYS then
        splitLeafLog fuel { t with heap := heap1 } leaf
      else some ({ t with heap := heap1 }, [])
    else none
  | _ => none

/-- Method `insert`, keeping a record of the promotions: the tree it returns, and the calls
of `insertIntoParent` on a left node that is not the root, in the order they were made. -/
def insertLog (t : BPlusTree K V) (key : K) (value : V) :
    Option (BPlusTree K V × List (Promotion K)) :=
  match t.root with
  | none =>
    some ({ root := some t.heap.length,
            heap := t.heap ++ [Node.leaf [key] none [value] none] }, [])
  | some _ =>
    match findLeaf t key with
    | some (some leaf) => insertIntoLeafLog t.heap.length t leaf key value
    | _ => none

end Logged

/-! ## Two states in the middle of an insertion -/

/-- The state in which `insertIntoLeaf` calls `splitLeaf` when 6 is inserted after 10, 20 and
5: the root is a leaf that holds `MAX_KEYS + 1` keys. -/
def overfullLeaf : BPlusTree Int Nat :=
  { root := some 0, heap := [Node.leaf [5, 6, 10, 20] none [3, 4, 1, 2] none] }

/-- The state in which `insertIntoParent` calls `splitInternal` when the keys 1 to 10 are
inserted in ascending order, each with the value 0: the root, at address 2, holds
`MAX_KEYS + 1` keys and five leaves as children. -/
def overfullInternal : BPlusTree Int Nat :=
  { root := some 2,
    heap := [Node.leaf [1, 2] (some 2) [0, 0] (some 1), Node.leaf [3, 4] (some 2) [0, 0] (some 3),
      Node.internal [3, 5, 7, 9] none [0, 1, 3, 4, 5],
      Node.leaf [5, 6] (some 2) [0, 0] (some 4), Node.leaf [7, 8] (some 2) [0, 0] (some 5),
      Node.leaf [9, 10] (some 2) [0, 0] none] }

/-! ## Lists -/

theorem length_insertAt {α : Type} (l : List α) (i : Nat) (x : α) (h : i ≤ l.length) :
    (insertAt l i x).length = l.length + 1 := by
  simp [insertAt, List.length_take, List.length_drop]; omega

theorem mem_insertAt {α : Type} {l : List α} {i : Nat} {x y : α} (h : y ∈ insertAt l i x) :
    y = x ∨ y ∈ l := by
  simp only [insertAt, List.mem_append, List.mem_cons] at h
  rcases h with h | h | h
  · exact Or.inr (List.mem_of_mem_take h)
  · exact Or.inl h
  · exact Or.inr (List.mem_of_mem_drop h)

theorem insertAt_zero {α : Type} (l : List α) (x : α) : insertAt l 0 x = x :: l := by
  simp [insertAt]

theorem insertAt_succ {α : Type} (a : α) (l : List α) (i : Nat) (x : α) :
    insertAt (a :: l) (i + 1) x = a :: insertAt l i x := by
  simp [insertAt]

theorem insertAt_append {α : Type} (pre post : List α) (x : α) :
    insertAt (pre ++ post) pre.length x = pre ++ x :: post := by
  simp [insertAt, List.take_append_eq_append_take, List.drop_append_eq_append_drop]

theorem zip_take_drop {α β : Type} (n : Nat) (l : List α) (r : List β) :
    (l.take n).zip (r.take n) ++ (l.drop n).zip (r.drop n) = l.zip r := by
  induction n generalizing l r with
  | zero => simp
  | succ n ih =>
    cases l with
    | nil => simp
    | cons a l =>
      cases r with
      | nil => simp
      | cons b r => simp [ih]

section
variable [LinearOrder K]

theorem lowerBound_le (key : K) (ks : List K) : lowerBound key ks ≤ ks.length := by
  induction ks with
  | nil => simp [lowerBound]
  | cons k ks ih => simp only [lowerBound]; split <;> simp; omega

theorem findChild_le (key : K) (ks : List K) : findChild key ks ≤ ks.length := by
  induction ks with
  | nil => simp [findChild]
  | cons k ks ih => simp only [findChild]; split <;> simp; omega

/-- Overwriting the value at the lower bound of a key that is present is `insertEntry`. -/
theorem zip_set_lowerBound (key : K) (v : V) (ks : List K) (vs : List V)
    (hlen : vs.length = ks.length) (hk : ks[lowerBound key ks]? = some key) :
    lowerBound key ks < vs.length ∧
      ks.zip (vs.set (lowerBound key ks) v) = insertEntry key v (ks.zip vs) := by
  induction ks generalizing vs with
  | nil => simp at hk
  | cons k ks ih =>
    cases vs with
    | nil => simp at hlen
    | cons v1 vs =>
      simp only [List.length_cons, Nat.add_right_cancel_iff] at hlen
      simp only [lowerBound] at hk ⊢
      by_cases hlt : k < key
      · simp only [hlt, if_true, List.getElem?_cons_succ] at hk ⊢
        obtain ⟨h1, h2⟩ := ih vs hlen hk
        refine ⟨by simpa using h1, ?_⟩
        simp only [List.set_cons_succ, List.zip_cons_cons, insertEntry]
        rw [if_neg (not_lt.mpr hlt.le), if_neg (ne_of_gt hlt), h2]
        rfl
      · simp only [hlt, if_false, List.getElem?_cons_zero, Option.some.injEq] at hk ⊢
        subst hk
        simp [insertEntry, List.zip]

/-- Inserting an absent key at its lower bound is `insertEntry`. -/
theorem zip_insertAt_lowerBound (key : K) (v : V) (ks : List K) (vs : List V)
    (hlen : vs.length = ks.length) (hk : ks[lowerBound key ks]? ≠ some key) :
    (insertAt ks (lowerBound key ks) key).zip (insertAt vs (lowerBound key ks) v) =
      insertEntry key v (ks.zip vs) := by
  induction ks generalizing vs with
  | nil =>
    cases vs with
    | nil => simp [lowerBound, insertAt, insertEntry]
    | cons v1 vs => simp at hlen
  | cons k ks ih =>
    cases vs with
    | nil => simp at hlen
    | cons v1 vs =>
      simp only [List.length_cons, Nat.add_right_cancel_iff] at hlen
      simp only [lowerBound] at hk ⊢
      by_cases hlt : k < key
      · simp only [hlt, if_true, List.getElem?_cons_succ] at hk ⊢
        simp only [insertAt_succ, List.zip_cons_cons, insertEntry]
        rw [if_neg (not_lt.mpr hlt.le), if_neg (ne_of_gt hlt), ih vs hlen hk]
        rfl
      · simp only [hlt, if_false, List.getElem?_cons_zero, Option.some.injEq] at hk ⊢
        have hlt2 : key < k := lt_of_le_of_ne (not_lt.mp hlt) (fun h => hk (by rw [h]))
        simp [insertAt_zero, insertEntry, hlt2, List.zip]

theorem pairwise_insertAt_lowerBound (key : K) (ks : List K) (hs : ks.Pairwise (· < ·))
    (hk : ks[lowerBound key ks]? ≠ some key) :
    (insertAt ks (lowerBound key ks) key).Pairwise (· < ·) := by
  induction ks with
  | nil => simp [lowerBound, insertAt]
  | cons k ks ih =>
    simp only [lowerBound] at hk ⊢
    rw [List.pairwise_cons] at hs
    by_cases hlt : k < key
    · simp only [hlt, if_true, List.getElem?_cons_succ] at hk ⊢
      rw [insertAt_succ, List.pairwise_cons]
      refine ⟨fun y hy => ?_, ih hs.2 hk⟩
      rcases mem_insertAt hy with rfl | hy
      · exact hlt
      · exact hs.1 y hy
    · simp only [hlt, if_false, List.getElem?_cons_zero, Option.some.injEq] at hk ⊢
      have hlt2 : key < k := lt_of_le_of_ne (not_lt.mp hlt) (fun h => hk (by rw [h]))
      rw [insertAt_zero, List.pairwise_cons, List.pairwise_cons]
      refine ⟨fun y hy => ?_, hs⟩
      rcases List.mem_cons.mp hy with rfl | hy
      · exact hlt2
      · exact lt_trans hlt2 (hs.1 y hy)

theorem insertEntry_append_left (k : K) (v : V) (A B : List (K × V))
    (hA : ∀ e ∈ A, e.1 < k) : insertEntry k v (A ++ B) = A ++ insertEntry k v B := by
  induction A with
  | nil => simp
  | cons a A ih =>
    obtain ⟨k1, v1⟩ := a
    have h1 : k1 < k := hA (k1, v1) (List.mem_cons_self _ _)
    have h2 := ih fun e he => hA e (List.mem_cons_of_mem _ he)
    simp only [List.cons_append, insertEntry]
    rw [if_neg (not_lt.mpr h1.le), if_neg (ne_of_gt h1)]
    exact congrArg _ h2

theorem insertEntry_append_right (k : K) (v : V) (B C : List (K × V))
    (hC : ∀ e ∈ C, k < e.1) : insertEntry k v (B ++ C) = insertEntry k v B ++ C := by
  induction B with
  | nil =>
    cases C with
    | nil => simp
    | cons c C =>
      obtain ⟨k1, v1⟩ := c
      have h1 : k < k1 := hC (k1, v1) (List.mem_cons_self _ _)
      simp [insertEntry, h1]
  | cons b B ih =>
    obtain ⟨k1, v1⟩ := b
    simp only [List.cons_append, insertEntry]
    split
    · rfl
    · split
      · rfl
      · simp [ih]

end

/-! ## Windows and chains -/

section
variable [LinearOrder K]

theorem LoLt.mono_lt {lo : Option K} {a b : K} (h : LoLt lo a) (hab : a < b) : LoLt lo b := by
  cases lo with
  | none => trivial
  | some l => exact lt_trans h hab

theorem LoLt.mono_le {lo : Option K} {a b : K} (h : LoLt lo a) (hab : a ≤ b) : LoLt lo b := by
  cases lo with
  | none => trivial
  | some l => exact lt_of_lt_of_le h hab

theorem LoLt.le {lo : Option K} {a : K} (h : LoLt lo a) : LoLe lo a := by
  cases lo with
  | none => trivial
  | some l => exact le_of_lt h

theorem LoLe.widen_le {lo : Option K} {a b : K} (h : LoLe lo a) (hab : a ≤ b) : LoLe lo b := by
  cases lo with
  | none => trivial
  | some l => exact le_trans h hab

theorem LoLe.widen_lt {lo : Option K} {a b : K} (h : LoLe lo a) (hab : a < b) : LoLt lo b := by
  cases lo with
  | none => trivial
  | some l => exact lt_of_le_of_lt h hab

theorem HiGt.below_lt {hi : Option K} {a b : K} (hab : a < b) (h : HiGt b hi) : HiGt a hi := by
  cases hi with
  | none => trivial
  | some u => exact lt_trans hab h

theorem HiGt.below_le {hi : Option K} {a b : K} (hab : a ≤ b) (h : HiGt b hi) : HiGt a hi := by
  cases hi with
  | none => trivial
  | some u => exact lt_of_le_of_lt hab h

theorem Chain.length_eq {P : Nat → Option K → Option K → Prop} {lo hi : Option K}
    {ks : List K} {cs : List Nat} (hc : Chain P lo ks cs hi) : cs.length = ks.length + 1 := by
  induction ks generalizing lo cs with
  | nil =>
    match cs, hc with
    | [c], _ => rfl
  | cons k ks ih =>
    match cs, hc with
    | c :: cs, hc => simp [ih hc.2.2.2]

theorem Chain.mono {P Q : Nat → Option K → Option K → Prop} {lo hi : Option K}
    {ks : List K} {cs : List Nat} (hc : Chain P lo ks cs hi)
    (hPQ : ∀ c ∈ cs, ∀ l u, P c l u → Q c l u) : Chain Q lo ks cs hi := by
  induction ks generalizing lo cs with
  | nil =>
    match cs, hc with
    | [c], hc => exact hPQ c (List.mem_singleton_self c) _ _ hc
  | cons k ks ih =>
    match cs, hc with
    | c :: cs, ⟨h1, h2, h3, h4⟩ =>
      exact ⟨h1, h2, hPQ c (List.mem_cons_self _ _) _ _ h3,
        ih h4 fun x hx => hPQ x (List.mem_cons_of_mem _ hx)⟩

/-- Every child of a chain satisfies `P` for a window nested in the window of the chain. -/
theorem Chain.forall_mem {P : Nat → Option K → Option K → Prop} {lo hi : Option K}
    {ks : List K} {cs : List Nat} (hc : Chain P lo ks cs hi) :
    ∀ c ∈ cs, ∃ l u, P c l u ∧ (∀ k, LoLe l k → LoLe lo k) ∧ (∀ k, HiGt k u → HiGt k hi) := by
  induction ks generalizing lo cs with
  | nil =>
    match cs, hc with
    | [c], hc =>
      intro x hx
      rw [List.mem_singleton] at hx
      subst hx
      exact ⟨lo, hi, hc, fun _ h => h, fun _ h => h⟩
  | cons k ks ih =>
    match cs, hc with
    | c :: cs, ⟨h1, h2, h3, h4⟩ =>
      intro x hx
      rcases List.mem_cons.mp hx with rfl | hx
      · exact ⟨lo, some k, h3, fun _ h => h, fun k0 h => HiGt.below_lt h h2⟩
      · obtain ⟨l, u, hP, hl, hu⟩ := ih h4 x hx
        exact ⟨l, u, hP, fun k0 h => (h1.mono_le (hl k0 h)).le, hu⟩

/-- The keys of a chain are strictly inside its window and strictly ascending. -/
theorem Chain.keys_bounds {P : Nat → Option K → Option K → Prop} {lo hi : Option K}
    {ks : List K} {cs : List Nat} (hc : Chain P lo ks cs hi) :
    (∀ k ∈ ks, LoLt lo k ∧ HiGt k hi) ∧ ks.Pairwise (· < ·) := by
  induction ks generalizing lo cs with
  | nil => simp
  | cons k ks ih =>
    match cs, hc with
    | c :: cs, ⟨h1, h2, _, h4⟩ =>
      obtain ⟨hb, hs⟩ := ih h4
      refine ⟨fun x hx => ?_, List.pairwise_cons.mpr ⟨fun x hx => (hb x hx).1, hs⟩⟩
      rcases List.mem_cons.mp hx with rfl | hx
      · exact ⟨h1, h2⟩
      · exact ⟨h1.mono_lt (hb x hx).1, (hb x hx).2⟩

/-- Index form of a chain: the children on both sides of `ks[i]`. -/
theorem Chain.sides {P : Nat → Option K → Option K → Prop} {lo hi : Option K}
    {ks : List K} {cs : List Nat} (hc : Chain P lo ks cs hi) (i : Nat) (k : K)
    (hk : ks[i]? = some k) :
    ∃ c d l u, cs[i]? = some c ∧ cs[i + 1]? = some d ∧ P c l (some k) ∧ P d (some k) u := by
  induction ks generalizing lo cs i with
  | nil => simp at hk
  | cons k0 ks ih =>
    match cs, hc with
    | c :: cs, ⟨_, _, h3, h4⟩ =>
      cases i with
      | zero =>
        simp only [List.getElem?_cons_zero, Option.some.injEq] at hk
        subst hk
        cases ks with
        | nil =>
          match cs, h4 with
          | [d], h4 => exact ⟨c, d, lo, hi, by simp, by simp, h3, h4⟩
        | cons k1 ks =>
          match cs, h4 with
          | d :: cs, h4 => exact ⟨c, d, lo, some k1, by simp, by simp, h3, h4.2.2.1⟩
      | succ i =>
        simp only [List.getElem?_cons_succ] at hk ⊢
        exact ih h4 i hk

/-- Children to the right of a chain that starts at the bound `k` have a lower bound of at
least `k`. -/
theorem Chain.right_of {P : Nat → Option K → Option K → Prop} {k : K} {hi : Option K}
    {ks : List K} {cs : List Nat} (hc : Chain P (some k) ks cs hi) :
    ∀ x ∈ cs, ∃ l u, P x (some l) u ∧ k ≤ l := by
  induction ks generalizing k cs with
  | nil =>
    match cs, hc with
    | [c], hc =>
      intro x hx
      rw [List.mem_singleton] at hx
      subst hx
      exact ⟨k, hi, hc, le_rfl⟩
  | cons k1 ks ih =>
    match cs, hc with
    | c :: cs, ⟨h1, _, h3, h4⟩ =>
      intro x hx
      rcases List.mem_cons.mp hx with rfl | hx
      · exact ⟨k, some k1, h3, le_rfl⟩
      · obtain ⟨l, u, hP, hl⟩ := ih h4 x hx
        exact ⟨l, u, hP, le_trans (le_of_lt h1) hl⟩

/-- The descent step of `findLeaf` inside a chain: the child chosen for `key` has a window
that contains `key`; it can be replaced, or split in two around a separator `s`, in which
case `lower_bound` of `s` is the index of the child. -/
theorem Chain.find {P : Nat → Option K → Option K → Prop} {lo hi : Option K}
    {ks : List K} {cs : List Nat} (hc : Chain P lo ks cs hi) (key : K)
    (hlo : LoLe lo key) (hhi : HiGt key hi) :
    ∃ pre c post l u, cs = pre ++ c :: post ∧ pre.length = findChild key ks ∧ P c l u ∧
      LoLe l key ∧ HiGt key u ∧
      (∀ k, LoLe l k → LoLe lo k) ∧ (∀ k, LoLt l k → LoLt lo k) ∧ (∀ k, HiGt k u → HiGt k hi) ∧
      (∀ x ∈ pre, ∃ l1 u1, P x l1 (some u1) ∧ ∀ k, LoLe l k → u1 ≤ k) ∧
      (∀ x ∈ post, ∃ l1 u1, P x (some l1) u1 ∧ ∀ k, HiGt k u → k < l1) ∧
      (∀ Q : Nat → Option K → Option K → Prop,
        (∀ x ∈ pre ++ post, ∀ l u, P x l u → Q x l u) → Q c l u → Chain Q lo ks cs hi) ∧
      (∀ (Q : Nat → Option K → Option K → Prop) (s : K) (r : Nat),
        (∀ x ∈ pre ++ post, ∀ l u, P x l u → Q x l u) → Q c l (some s) → Q r (some s) u →
        LoLt l s → HiGt s u →
        lowerBound s ks = pre.length ∧
          Chain Q lo (insertAt ks pre.length s) (pre ++ c :: r :: post) hi) := by
  induction ks generalizing lo cs with
  | nil =>
    match cs, hc with
    | [c], hc =>
      refine ⟨[], c, [], lo, hi, rfl, rfl, hc, hlo, hhi, fun _ h => h, fun _ h => h,
        fun _ h => h, by simp, by simp, fun Q _ hQ => hQ, fun Q s r _ h1 h2 h3 h4 => ?_⟩
      exact ⟨rfl, h3, h4, h1, h2⟩
  | cons k ks ih =>
    match cs, hc with
    | c :: cs, ⟨h1, h2, h3, h4⟩ =>
      by_cases hk : key ≥ k
      · obtain ⟨pre, d, post, l, u, hcs, hlen, hP, hl, hu, nl, nlt, nu, hpre, hpost, hrep, hins⟩ :=
          ih h4 hk
        refine ⟨c :: pre, d, post, l, u, by simp [hcs], by simp [findChild, hk, hlen], hP, hl, hu,
          fun k0 h => (h1.mono_le (nl k0 h)).le, fun k0 h => h1.mono_lt (nlt k0 h), nu,
          ?_, hpost, ?_, ?_⟩
        · intro x hx
          rcases List.mem_cons.mp hx with rfl | hx
          · exact ⟨lo, k, h3, fun k0 h => nl k0 h⟩
          · exact hpre x hx
        · intro Q hQ hd
          rw [hcs]
          refine ⟨h1, h2, hQ c (by simp) _ _ h3, ?_⟩
          rw [← hcs]
          exact hrep Q (fun x hx => hQ x (by
            simp only [List.cons_append, List.mem_cons]; exact Or.inr hx)) hd
        · intro Q s r hQ hd hr hls hsu
          obtain ⟨hlb, hch⟩ := hins Q s r (fun x hx => hQ x (by
            simp only [List.cons_append, List.mem_cons]; exact Or.inr hx)) hd hr hls hsu
          have hks : k < s := nlt s hls
          refine ⟨by simp [lowerBound, hks, hlb], ?_⟩
          simp only [List.length_cons, insertAt_succ, List.cons_append]
          exact ⟨h1, h2, hQ c (by simp) _ _ h3, hch⟩
      · have hk' : key < k := not_le.mp hk
        refine ⟨[], c, cs, lo, some k, rfl, by simp [findChild, hk], h3, hlo, hk', fun _ h => h,
          fun _ h => h, fun k0 h => HiGt.below_lt h h2, by simp, ?_, ?_, ?_⟩
        · intro x hx
          obtain ⟨l, u, hP, hl⟩ := h4.right_of x hx
          exact ⟨l, u, hP, fun k0 h => lt_of_lt_of_le h hl⟩
        · intro Q hQ hc0
          exact ⟨h1, h2, hc0, h4.mono fun x hx => hQ x (by simpa using hx)⟩
        · intro Q s r hQ hc0 hr hls hsu
          have hsk : s < k := hsu
          refine ⟨by simp [lowerBound, not_lt.mpr hsk.le], ?_⟩
          simp only [List.length_nil, insertAt_zero, List.nil_append]
          exact ⟨hls, HiGt.below_lt hsk h2, hc0, hsk, h2, hr,
            h4.mono fun x hx => hQ x (by simpa using hx)⟩

/-- An over-full chain of `MAX_KEYS + 1` keys splits around its key of index 2. -/
theorem Chain.split {P : Nat → Option K → Option K → Prop} {lo hi : Option K}
    {ks : List K} {cs : List Nat} (hc : Chain P lo ks cs hi) (hlen : ks.length = MAX_KEYS + 1) :
    ∃ m, ks[ks.length / 2]? = some m ∧ LoLt lo m ∧ HiGt m hi ∧
      Chain P lo (ks.take (ks.length / 2)) (cs.take (ks.length / 2 + 1)) (some m) ∧
      Chain P (some m) (ks.drop (ks.length / 2 + 1)) (cs.drop (ks.length / 2 + 1)) hi := by
  match ks, cs, hlen, hc with
  | [k0, k1, k2, k3], [c0, c1, c2, c3, c4], _, hc =>
    obtain ⟨a1, _, a3, b1, _, b3, e1, e2, e3, d1, d2, d3, d4⟩ := hc
    refine ⟨k2, by simp, ?_, e2, ?_, ?_⟩
    · exact (a1.mono_lt b1).mono_lt e1
    · have h : Chain P lo [k0, k1] [c0, c1, c2] (some k2) :=
        ⟨a1, lt_trans b1 e1, a3, b1, e1, b3, e3⟩
      simpa using h
    · have h : Chain P (some k2) [k3] [c3, c4] hi := ⟨d1, d2, d3, d4⟩
      simpa using h

end

/-! ## Frame lemmas -/

theorem flatMap_congr_mem {α β : Type} {l : List α} {f g : α → List β}
    (h : ∀ x ∈ l, f x = g x) : l.flatMap f = l.flatMap g := by
  induction l with
  | nil => rfl
  | cons a l ih =>
    simp only [List.flatMap_cons]
    rw [h a (List.mem_cons_self _ _), ih fun x hx => h x (List.mem_cons_of_mem _ hx)]

theorem SameMod.of_eq {H H1 : List (Node K V)} {x : Nat} (h : H1[x]? = H[x]?) :
    SameMod H H1 x := by
  simp [SameMod, h]

theorem SameMod.childrenAt {H H1 : List (Node K V)} {x : Nat} (h : SameMod H H1 x) :
    childrenAt H1 x = childrenAt H x := by
  unfold SameMod at h
  unfold BPlusTree.childrenAt
  cases h1 : H1[x]? with
  | none => cases h0 : H[x]? with
    | none => rfl
    | some n0 => simp [h1, h0] at h
  | some n1 => cases h0 : H[x]? with
    | none => simp [h1, h0] at h
    | some n0 =>
      simp only [h1, h0, Option.map_some', Option.some.injEq] at h
      cases n1 <;> cases n0 <;> simp_all [Node.setParent]

theorem SameMod.entriesAt {H H1 : List (Node K V)} {x : Nat} (h : SameMod H H1 x) :
    entriesAt H1 x = entriesAt H x := by
  unfold SameMod at h
  unfold BPlusTree.entriesAt
  cases h1 : H1[x]? with
  | none => cases h0 : H[x]? with
    | none => rfl
    | some n0 => simp [h1, h0] at h
  | some n1 => cases h0 : H[x]? with
    | none => simp [h1, h0] at h
    | some n0 =>
      simp only [h1, h0, Option.map_some', Option.some.injEq] at h
      cases n1 <;> cases n0 <;> simp_all [Node.setParent]

theorem SameMod.nextAt {H H1 : List (Node K V)} {x : Nat} (h : SameMod H H1 x) :
    nextAt H1 x = nextAt H x := by
  unfold SameMod at h
  unfold BPlusTree.nextAt
  cases h1 : H1[x]? with
  | none => cases h0 : H[x]? with
    | none => rfl
    | some n0 => simp [h1, h0] at h
  | some n1 => cases h0 : H[x]? with
    | none => simp [h1, h0] at h
    | some n0 =>
      simp only [h1, h0, Option.map_some', Option.some.injEq] at h
      cases n1 <;> cases n0 <;> simp_all [Node.setParent, Node.next]

theorem mem_nodesOf_self (H : List (Node K V)) (h a : Nat) : a ∈ nodesOf H h a := by
  cases h <;> simp [nodesOf]

theorem mem_nodesOf_child {H : List (Node K V)} {h a c x : Nat} (hc : c ∈ childrenAt H a)
    (hx : x ∈ nodesOf H h c) : x ∈ nodesOf H (h + 1) a := by
  simp only [nodesOf, List.mem_cons, List.mem_flatMap]
  exact Or.inr ⟨c, hc, hx⟩

/-- The shape of a subtree depends on its cells only up to their `parent` fields. -/
theorem shape_congr {H H1 : List (Node K V)} (h a : Nat)
    (hs : ∀ x ∈ nodesOf H h a, SameMod H H1 x) :
    nodesOf H1 h a = nodesOf H h a ∧ leavesOf H1 h a = leavesOf H h a ∧
      entries H1 h a = entries H h a := by
  induction h generalizing a with
  | zero => exact ⟨rfl, rfl, (hs a (mem_nodesOf_self H 0 a)).entriesAt⟩
  | succ h ih =>
    have hc : childrenAt H1 a = childrenAt H a := (hs a (mem_nodesOf_self H _ a)).childrenAt
    have hi : ∀ c ∈ childrenAt H a, nodesOf H1 h c = nodesOf H h c ∧
        leavesOf H1 h c = leavesOf H h c ∧ entries H1 h c = entries H h c :=
      fun c hcm => ih c fun x hx => hs x (mem_nodesOf_child hcm hx)
    simp only [nodesOf, leavesOf, entries, hc]
    refine ⟨?_, ?_, ?_⟩
    · rw [flatMap_congr_mem fun c hcm => (hi c hcm).1]
    · rw [flatMap_congr_mem fun c hcm => (hi c hcm).2.1]
    · rw [flatMap_congr_mem fun c hcm => (hi c hcm).2.2]

section
variable [LinearOrder K]

omit [LinearOrder K] in
theorem WF.children_mem {H : List (Node K V)} {ks : List K} {par : Ptr} {cs : List Nat}
    {a : Nat} (ha : H[a]? = some (Node.internal ks par cs)) : childrenAt H a = cs := by
  simp [childrenAt, ha]

/-- A subtree whose cells are unchanged stays well formed. -/
theorem WF.frame_eq {H H1 : List (Node K V)} {h m a : Nat} {lo hi : Option K}
    (hw : WF H h m a lo hi) (hs : ∀ x ∈ nodesOf H h a, H1[x]? = H[x]?) :
    WF H1 h m a lo hi := by
  induction h generalizing m a lo hi with
  | zero =>
    obtain ⟨ks, par, vs, nx, ha, rest⟩ := hw
    exact ⟨ks, par, vs, nx, by rw [hs a (mem_nodesOf_self H 0 a), ha], rest⟩
  | succ h ih =>
    obtain ⟨ks, par, cs, ha, h1, h2, hp, hc⟩ := hw
    have hca : childrenAt H a = cs := WF.children_mem ha
    refine ⟨ks, par, cs, by rw [hs a (mem_nodesOf_self H _ a), ha], h1, h2, ?_, ?_⟩
    · intro c hcm
      have := hs c (mem_nodesOf_child (hca ▸ hcm) (mem_nodesOf_self H h c))
      simp only [parentAt, this]
      exact hp c hcm
    · exact hc.mono fun c hcm l u hwc =>
        ih hwc fun x hx => hs x (mem_nodesOf_child (hca ▸ hcm) hx)

/-- A subtree stays well formed when only the `parent` field of its root changes. -/
theorem WF.congr_root {H H1 : List (Node K V)} {h m a : Nat} {lo hi : Option K}
    (hw : WF H h m a lo hi) (hr : SameMod H H1 a)
    (hs : ∀ c ∈ childrenAt H a, ∀ x ∈ nodesOf H h.pred c, H1[x]? = H[x]?) :
    WF H1 h m a lo hi := by
  cases h with
  | zero =>
    obtain ⟨ks, par, vs, nx, ha, rest⟩ := hw
    unfold SameMod at hr
    rw [ha] at hr
    cases hn : H1[a]? with
    | none => simp [hn] at hr
    | some n1 =>
      cases n1 with
      | leaf ks1 par1 vs1 nx1 =>
        simp only [hn, Option.map_some', Node.setParent, Option.some.injEq, Node.leaf.injEq,
          true_and] at hr
        obtain ⟨rfl, rfl, rfl⟩ := hr
        exact ⟨ks1, par1, vs1, nx1, hn, rest⟩
      | internal ks1 par1 cs1 => simp [hn, Node.setParent] at hr
  | succ h =>
    obtain ⟨ks, par, cs, ha, h1, h2, hp, hc⟩ := hw
    have hca : childrenAt H a = cs := WF.children_mem ha
    unfold SameMod at hr
    rw [ha] at hr
    cases hn : H1[a]? with
    | none => simp [hn] at hr
    | some n1 =>
      cases n1 with
      | leaf ks1 par1 vs1 nx1 => simp [hn, Node.setParent] at hr
      | internal ks1 par1 cs1 =>
        simp only [hn, Option.map_some', Node.setParent, Option.some.injEq, Node.internal.injEq,
          true_and] at hr
        obtain ⟨rfl, rfl⟩ := hr
        refine ⟨ks1, par1, cs1, hn, h1, h2, ?_, ?_⟩
        · intro c hcm
          have := hs c (hca ▸ hcm) c (mem_nodesOf_self H h c)
          simp only [parentAt, this]
          exact hp c hcm
        · exact hc.mono fun c hcm l u hwc => hwc.frame_eq (hs c (hca ▸ hcm))

end

/-! ## Consequences of well-formedness -/

section
variable [LinearOrder K]

theorem WF.lt_length {H : List (Node K V)} {h m a : Nat} {lo hi : Option K}
    (hw : WF H h m a lo hi) : ∀ x ∈ nodesOf H h a, x < H.length := by
  induction h generalizing m a lo hi with
  | zero =>
    obtain ⟨ks, par, vs, nx, ha, _⟩ := hw
    intro x hx
    simp only [nodesOf, List.mem_singleton] at hx
    subst hx
    exact (List.getElem?_eq_some_iff.mp ha).1
  | succ h ih =>
    obtain ⟨ks, par, cs, ha, _, _, _, hc⟩ := hw
    intro x hx
    simp only [nodesOf, WF.children_mem ha, List.mem_cons, List.mem_flatMap] at hx
    rcases hx with rfl | ⟨c, hcm, hx⟩
    · exact (List.getElem?_eq_some_iff.mp ha).1
    · obtain ⟨l, u, hwc, _⟩ := hc.forall_mem c hcm
      exact ih hwc x hx

theorem WF.root_lt_length {H : List (Node K V)} {h m a : Nat} {lo hi : Option K}
    (hw : WF H h m a lo hi) : a < H.length :=
  hw.lt_length a (mem_nodesOf_self H h a)

/-- Concatenating, along a chain, lists of keys that are ascending and inside the window of
their child gives an ascending list inside the window of the chain. -/
theorem Chain.flatMap_sorted {P : Nat → Option K → Option K → Prop} {lo hi : Option K}
    {ks : List K} {cs : List Nat} (hc : Chain P lo ks cs hi) (f : Nat → List K)
    (hf : ∀ c ∈ cs, ∀ l u, P c l u →
      (f c).Pairwise (· < ·) ∧ ∀ k ∈ f c, LoLe l k ∧ HiGt k u) :
    (cs.flatMap f).Pairwise (· < ·) ∧ ∀ k ∈ cs.flatMap f, LoLe lo k ∧ HiGt k hi := by
  induction ks generalizing lo cs with
  | nil =>
    match cs, hc with
    | [c], hc => simpa using hf c (List.mem_singleton_self c) lo hi hc
  | cons k ks ih =>
    match cs, hc with
    | c :: cs, ⟨h1, h2, h3, h4⟩ =>
      obtain ⟨hs, hb⟩ := hf c (List.mem_cons_self _ _) _ _ h3
      obtain ⟨hs', hb'⟩ := ih h4 fun x hx => hf x (List.mem_cons_of_mem _ hx)
      simp only [List.flatMap_cons, List.pairwise_append, List.mem_append]
      refine ⟨⟨hs, hs', fun a ha b hb0 => lt_of_lt_of_le (hb a ha).2 (hb' b hb0).1⟩, ?_⟩
      intro x hx
      rcases hx with hx | hx
      · exact ⟨(hb x hx).1, HiGt.below_lt (hb x hx).2 h2⟩
      · exact ⟨(h1.mono_le (hb' x hx).1).le, (hb' x hx).2⟩

omit [LinearOrder K] in
theorem map_fst_flatMap {α : Type} (cs : List α) (g : α → List (K × V)) :
    (cs.flatMap g).map Prod.fst = cs.flatMap fun c => (g c).map Prod.fst := by
  induction cs with
  | nil => rfl
  | cons c cs ih => simp [List.flatMap_cons, ih]

/-- The keys stored at the leaf level of a well-formed subtree are strictly ascending and
inside its window. -/
theorem WF.entries_sorted {H : List (Node K V)} {h m a : Nat} {lo hi : Option K}
    (hw : WF H h m a lo hi) :
    ((entries H h a).map Prod.fst).Pairwise (· < ·) ∧
      ∀ k ∈ (entries H h a).map Prod.fst, LoLe lo k ∧ HiGt k hi := by
  induction h generalizing m a lo hi with
  | zero =>
    obtain ⟨ks, par, vs, nx, ha, hlen, hs, hb, _, _⟩ := hw
    have : (entries H 0 a).map Prod.fst = ks := by
      simp only [entries, entriesAt, ha]
      exact List.map_fst_zip _ _ (le_of_eq hlen.symm)
    rw [this]
    exact ⟨hs, hb⟩
  | succ h ih =>
    obtain ⟨ks, par, cs, ha, _, _, _, hc⟩ := hw
    simp only [entries, WF.children_mem ha, map_fst_flatMap]
    exact hc.flatMap_sorted _ fun c _ l u hwc => ih hwc

theorem WF.entries_ne_nil {H : List (Node K V)} {h m a : Nat} {lo hi : Option K}
    (hw : WF H h m a lo hi) (hm : 1 ≤ m) : entries H h a ≠ [] := by
  induction h generalizing m a lo hi with
  | zero =>
    obtain ⟨ks, par, vs, nx, ha, hlen, _, _, h1, _⟩ := hw
    simp only [entries, entriesAt, ha]
    cases ks with
    | nil => simp at h1; omega
    | cons k ks =>
      cases vs with
      | nil => simp at hlen
      | cons v vs => simp
  | succ h ih =>
    obtain ⟨ks, par, cs, ha, _, _, _, hc⟩ := hw
    simp only [entries, WF.children_mem ha]
    cases cs with
    | nil => have := hc.length_eq; simp at this
    | cons c cs =>
      obtain ⟨l, u, hwc, _⟩ := hc.forall_mem c (List.mem_cons_self _ _)
      have := ih hwc (by omega)
      simp only [List.flatMap_cons, ne_eq, List.append_eq_nil, not_and]
      exact fun h0 => absurd h0 this

/-- A node is the root of well-formed subtrees of one height only. -/
theorem WF.height_unique {H : List (Node K V)} {h h1 m m1 a : Nat} {lo hi lo1 hi1 : Option K}
    (hw : WF H h m a lo hi) (hw1 : WF H h1 m1 a lo1 hi1) : h = h1 := by
  induction h generalizing h1 m m1 a lo hi lo1 hi1 with
  | zero =>
    cases h1 with
    | zero => rfl
    | succ h1 =>
      obtain ⟨ks, par, vs, nx, ha, _⟩ := hw
      obtain ⟨ks1, par1, cs1, ha1, _⟩ := hw1
      rw [ha] at ha1
      simp at ha1
  | succ h ih =>
    cases h1 with
    | zero =>
      obtain ⟨ks, par, cs, ha, _⟩ := hw
      obtain ⟨ks1, par1, vs1, nx1, ha1, _⟩ := hw1
      rw [ha] at ha1
      simp at ha1
    | succ h1 =>
      obtain ⟨ks, par, cs, ha, _, _, _, hc⟩ := hw
      obtain ⟨ks1, par1, cs1, ha1, _, _, _, hc1⟩ := hw1
      rw [ha] at ha1
      simp only [Option.some.injEq, Node.internal.injEq] at ha1
      obtain ⟨rfl, rfl, rfl⟩ := ha1
      cases cs with
      | nil => have := hc.length_eq; simp at this
      | cons c cs =>
        obtain ⟨l, u, hwc, _⟩ := hc.forall_mem c (List.mem_cons_self _ _)
        obtain ⟨l1, u1, hwc1, _⟩ := hc1.forall_mem c (List.mem_cons_self _ _)
        rw [ih hwc hwc1]

/-- Every node of a well-formed subtree is the root of a well-formed subtree with a window
nested in the one it started from; below the root the height is smaller. -/
theorem WF.mem_nodesOf {H : List (Node K V)} {h m a : Nat} {lo hi : Option K}
    (hw : WF H h m a lo hi) (hm : 1 ≤ m) {x : Nat} (hx : x ∈ nodesOf H h a) :
    ∃ h1 m1 l u, (x = a ∧ h1 = h ∨ h1 < h) ∧ 1 ≤ m1 ∧ WF H h1 m1 x l u ∧
      (∀ k, LoLe l k → LoLe lo k) ∧ (∀ k, HiGt k u → HiGt k hi) := by
  induction h generalizing m a lo hi with
  | zero =>
    simp only [nodesOf, List.mem_singleton] at hx
    subst hx
    exact ⟨0, m, lo, hi, Or.inl ⟨rfl, rfl⟩, hm, hw, fun _ h => h, fun _ h => h⟩
  | succ h ih =>
    have hw0 := hw
    obtain ⟨ks, par, cs, ha, _, _, _, hc⟩ := hw
    simp only [nodesOf, WF.children_mem ha, List.mem_cons, List.mem_flatMap] at hx
    rcases hx with rfl | ⟨c, hcm, hx⟩
    · exact ⟨h + 1, m, lo, hi, Or.inl ⟨rfl, rfl⟩, hm, hw0, fun _ h => h, fun _ h => h⟩
    · obtain ⟨l, u, hwc, nl, nu⟩ := hc.forall_mem c hcm
      obtain ⟨h1, m1, l1, u1, hh, hm1, hw1, nl1, nu1⟩ := ih hwc (by omega) hx
      refine ⟨h1, m1, l1, u1, Or.inr ?_, hm1, hw1, fun k hk => nl k (nl1 k hk),
        fun k hk => nu k (nu1 k hk)⟩
      rcases hh with ⟨_, rfl⟩ | hh <;> omega

/-- Well-formed subtrees with disjoint windows share no node. -/
theorem WF.disjoint {H : List (Node K V)} {h h1 m m1 a b : Nat} {lo hi lo1 hi1 : Option K}
    (hw : WF H h m a lo hi) (hw1 : WF H h1 m1 b lo1 hi1) (hm : 1 ≤ m) (hm1 : 1 ≤ m1)
    (hd : ∀ k, LoLe lo k → HiGt k hi → LoLe lo1 k → HiGt k hi1 → False)
    {x : Nat} (hx : x ∈ nodesOf H h a) (hx1 : x ∈ nodesOf H h1 b) : False := by
  obtain ⟨ha, ma, la, ua, _, hma, hwa, nla, nua⟩ := hw.mem_nodesOf hm hx
  obtain ⟨hb, mb, lb, ub, _, hmb, hwb, nlb, nub⟩ := hw1.mem_nodesOf hm1 hx1
  have := hwa.height_unique hwb
  subst this
  have hne := hwa.entries_ne_nil hma
  obtain ⟨e, he⟩ := List.exists_mem_of_ne_nil _ hne
  have hke : e.1 ∈ (entries H ha x).map Prod.fst := List.mem_map_of_mem _ he
  have h1 := hwa.entries_sorted.2 _ hke
  have h2 := hwb.entries_sorted.2 _ hke
  exact hd e.1 (nla _ h1.1) (nua _ h1.2) (nlb _ h2.1) (nub _ h2.2)

/-- A node of a well-formed subtree that is itself the root of a well-formed subtree of the
same height is the root. -/
theorem WF.eq_root_of_height {H : List (Node K V)} {h m m1 a x : Nat}
    {lo hi lo1 hi1 : Option K} (hw : WF H h m a lo hi) (hm : 1 ≤ m)
    (hx : x ∈ nodesOf H h a) (hw1 : WF H h m1 x lo1 hi1) : x = a := by
  obtain ⟨h2, m2, l, u, hh, _, hw2, _, _⟩ := hw.mem_nodesOf hm hx
  have := hw2.height_unique hw1
  rcases hh with ⟨rfl, _⟩ | hh
  · rfl
  · omega

/-- No node of a well-formed subtree is the root of a well-formed subtree that is higher. -/
theorem WF.not_mem_of_higher {H : List (Node K V)} {h h1 m m1 a x : Nat}
    {lo hi lo1 hi1 : Option K} (hw : WF H h m a lo hi) (hm : 1 ≤ m)
    (hw1 : WF H h1 m1 x lo1 hi1) (hlt : h < h1) : x ∉ nodesOf H h a := by
  intro hx
  obtain ⟨h2, m2, l, u, hh, _, hw2, _, _⟩ := hw.mem_nodesOf hm hx
  have := hw2.height_unique hw1
  rcases hh with ⟨_, rfl⟩ | hh <;> omega

end

/-! ## The leaf step -/

theorem exists_of_length_four {α : Type} {l : List α} (h : l.length = 4) :
    ∃ a b c d, l = [a, b, c, d] := by
  match l, h with
  | [a, b, c, d], _ => exact ⟨a, b, c, d, rfl⟩

theorem get_set_self {H : List (Node K V)} {a : Nat} (n : Node K V) (h : a < H.length) :
    (H.set a n)[a]? = some n := by
  simp [List.getElem?_set, h]

theorem get_set_ne {H : List (Node K V)} {a x : Nat} (n : Node K V) (h : x ≠ a) :
    (H.set a n)[x]? = H[x]? := by
  simp [List.getElem?_set, Ne.symm h]

theorem get_append_old {H : List (Node K V)} {x : Nat} (n : Node K V) (h : x < H.length) :
    (H ++ [n])[x]? = H[x]? := by
  simp [List.getElem?_append, h]

theorem get_append_new (H : List (Node K V)) (n : Node K V) :
    (H ++ [n])[H.length]? = some n := by
  simp [List.getElem?_append]

section
variable [LinearOrder K]

/-- Inserting an absent key at its lower bound into a list that starts at the lower bound
of a window containing the key leaves the first element in place. -/
theorem head?_insertAt_lowerBound (key : K) (ks : List K) {lo : Option K} (hlo : LoLe lo key)
    (hhead : ∀ l, lo = some l → ks.head? = some l)
    (hk : ks[lowerBound key ks]? ≠ some key) :
    ∀ l, lo = some l → (insertAt ks (lowerBound key ks) key).head? = some l := by
  intro l hl
  have h1 := hhead l hl
  subst hl
  cases ks with
  | nil => simp at h1
  | cons k ks =>
    simp only [List.head?_cons, Option.some.injEq] at h1
    subst h1
    have hle : k ≤ key := hlo
    simp only [lowerBound] at hk ⊢
    by_cases hlt : k < key
    · simp [hlt, insertAt_succ]
    · exact absurd (by simp [hlt, le_antisymm hle (not_lt.mp hlt)]) hk

theorem leaf_step {H : List (Node K V)} {m a : Nat} {lo hi : Option K} (rt : Nat) (key : K)
    (v : V) (hw : WF H 0 m a lo hi) (hlo : LoLe lo key) (hhi : HiGt key hi) :
    (∃ H1, (∀ f, insertIntoLeaf f ⟨some rt, H⟩ a key v = some ⟨some rt, H1⟩) ∧
        StepA H H1 0 m a lo hi key v) ∨
      (∃ H1 s r, (∀ f, insertIntoLeaf f ⟨some rt, H⟩ a key v =
          insertIntoParent f ⟨some rt, H1⟩ a s r) ∧ StepB H H1 0 a lo hi key v s r) := by
  obtain ⟨ks, par, vs, nx, ha, hlen, hs, hb, hm, hmax, hhead⟩ := hw
  have halt : a < H.length := (List.getElem?_eq_some_iff.mp ha).1
  by_cases hk : ks[lowerBound key ks]? = some key
  · -- the key is present: overwrite
    obtain ⟨hpos, hzip⟩ := zip_set_lowerBound key v ks vs hlen hk
    refine Or.inl ⟨H.set a (Node.leaf ks par (vs.set (lowerBound key ks) v) nx), ?_, ?_⟩
    · intro f
      simp [insertIntoLeaf, ha, hk, hpos]
    · refine ⟨⟨ks, par, _, nx, get_set_self _ halt, by simpa using hlen, hs, hb, hm, hmax,
        hhead⟩,
        ?_, ⟨by simp, fun x _ hx => get_set_ne _ (by simpa [nodesOf] using hx)⟩, ?_, ?_, ?_, rfl⟩
      · simp only [entries, entriesAt, get_set_self _ halt, ha]
        exact hzip
      · simp [parentAt, get_set_self _ halt, ha, Node.parent]
      · simp [nodesOf]
      · intro last
        simp [leavesOf, Linked, nextAt, get_set_self _ halt, ha, Node.next]
  · have hpos : lowerBound key ks ≤ vs.length := hlen ▸ lowerBound_le key ks
    have hzip := zip_insertAt_lowerBound key v ks vs hlen hk
    have hs' := pairwise_insertAt_lowerBound key ks hs hk
    have hlk : (insertAt ks (lowerBound key ks) key).length = ks.length + 1 :=
      length_insertAt _ _ _ (lowerBound_le key ks)
    have hlv : (insertAt vs (lowerBound key ks) v).length = ks.length + 1 := by
      rw [length_insertAt _ _ _ hpos, hlen]
    have hb' : ∀ k ∈ insertAt ks (lowerBound key ks) key, LoLe lo k ∧ HiGt k hi := by
      intro k hkm
      rcases mem_insertAt hkm with rfl | hkm
      · exact ⟨hlo, hhi⟩
      · exact hb k hkm
    have hhead' := head?_insertAt_lowerBound key ks hlo hhead hk
    by_cases hfull : ks.length + 1 > MAX_KEYS
    · -- the leaf overflows: split
      have h4 : ks.length + 1 = 4 := by simp only [MAX_KEYS, ORDER] at hfull hmax; omega
      obtain ⟨a0, a1, a2, a3, hks'⟩ := exists_of_length_four (hlk.trans h4)
      obtain ⟨b0, b1, b2, b3, hvs'⟩ := exists_of_length_four (hlv.trans h4)
      rw [hks'] at hs' hb' hzip hlk hhead'
      rw [hvs'] at hzip
      refine Or.inr ⟨(H.set a (Node.leaf [a0, a1, a2, a3] par [b0, b1, b2, b3] nx) ++
        [Node.leaf [a2, a3] none [b2, b3] nx]).set a
          (Node.leaf [a0, a1] par [b0, b1] (some H.length)), a2, H.length, ?_, ?_⟩
      · intro f
        simp [insertIntoLeaf, ha, hk, hpos, hks', hvs', splitLeaf, MAX_KEYS, ORDER,
          get_set_self _ halt]
      · have hne : H.length ≠ a := Nat.ne_of_gt halt
        have gl : ((H.set a (Node.leaf [a0, a1, a2, a3] par [b0, b1, b2, b3] nx) ++
            [Node.leaf [a2, a3] none [b2, b3] nx]).set a
              (Node.leaf [a0, a1] par [b0, b1] (some H.length)))[a]? =
            some (Node.leaf [a0, a1] par [b0, b1] (some H.length)) :=
          get_set_self _ (by simp; omega)
        have gr : ((H.set a (Node.leaf [a0, a1, a2, a3] par [b0, b1, b2, b3] nx) ++
            [Node.leaf [a2, a3] none [b2, b3] nx]).set a
              (Node.leaf [a0, a1] par [b0, b1] (some H.length)))[H.length]? =
            some (Node.leaf [a2, a3] none [b2, b3] nx) := by
          rw [get_set_ne _ hne]
          have := get_append_new (H.set a (Node.leaf [a0, a1, a2, a3] par [b0, b1, b2, b3] nx))
            (Node.leaf [a2, a3] none [b2, b3] nx)
          rwa [List.length_set] at this
        simp only [List.pairwise_cons, List.mem_cons, List.mem_singleton, forall_eq_or_imp,
          forall_eq, List.not_mem_nil, false_implies, implies_true, List.Pairwise.nil,
          and_true] at hs' hb'
        obtain ⟨⟨h01, h02, h03⟩, ⟨h12, h13⟩, h23⟩ := hs'
        obtain ⟨hb0, hb1, hb2, hb3⟩ := hb'
        refine ⟨⟨_, par, _, _, gl, rfl, by simp [h01], ?_, by simp, by simp [MAX_KEYS, ORDER],
            hhead'⟩,
          ⟨_, none, _, nx, gr, rfl, by simp [h23], ?_, by simp, by simp [MAX_KEYS, ORDER],
            by simp⟩,
          hb0.1.widen_lt h02, hb2.2, ?_, ⟨by simp, fun x hx hxa => ?_⟩, ?_, le_rfl, ?_, ?_, rfl⟩
        · intro k hk
          simp only [List.mem_cons, List.mem_singleton, List.not_mem_nil, or_false] at hk
          rcases hk with rfl | rfl
          · exact ⟨hb0.1, h02⟩
          · exact ⟨hb1.1, h12⟩
        · intro k hk
          simp only [List.mem_cons, List.mem_singleton, List.not_mem_nil, or_false] at hk
          rcases hk with rfl | rfl
          · exact ⟨le_rfl, hb2.2⟩
          · exact ⟨le_of_lt h23, hb3.2⟩
        · simp only [entries, entriesAt, gl, gr, ha]
          rw [← hzip]
          rfl
        · have hxa' : x ≠ a := by simpa [nodesOf] using hxa
          rw [get_set_ne _ hxa', get_append_old _ (by simpa using hx), get_set_ne _ hxa']
        · simp [parentAt, gl, ha, Node.parent]
        · simp [nodesOf]
        · intro last
          simp [leavesOf, Linked, nextAt, gl, gr, ha, Node.next]
    · -- room left in the leaf
      refine Or.inl ⟨H.set a (Node.leaf (insertAt ks (lowerBound key ks) key) par
        (insertAt vs (lowerBound key ks) v) nx), ?_, ?_⟩
      · intro f
        simp [insertIntoLeaf, ha, hk, hpos, hlk, hfull]
      · refine ⟨⟨_, par, _, nx, get_set_self _ halt, by rw [hlv, hlk], hs', hb', by omega,
          by omega, hhead'⟩,
          ?_, ⟨by simp, fun x _ hx => get_set_ne _ (by simpa [nodesOf] using hx)⟩, ?_, ?_, ?_, rfl⟩
        · simp only [entries, entriesAt, get_set_self _ halt, ha]
          exact hzip
        · simp [parentAt, get_set_self _ halt, ha, Node.parent]
        · simp [nodesOf]
        · intro last
          simp [leavesOf, Linked, nextAt, get_set_self _ halt, ha, Node.next]

end

/-! ## The leaf chain -/

theorem headOr_append (A B : List Nat) (last : Ptr) :
    headOr (A ++ B) last = headOr A (headOr B last) := by
  cases A <;> rfl

theorem headOr_of_head? {A B : List Nat} (h : A.head? = B.head?) (last : Ptr) :
    headOr A last = headOr B last := by
  cases A <;> cases B <;> simp_all [headOr]

theorem Linked.cons {H : List (Node K V)} (l : Nat) (L : List Nat) (last : Ptr) :
    Linked H (l :: L) last ↔ nextAt H l = some (headOr L last) ∧ Linked H L last := by
  cases L <;> simp [Linked, headOr]

theorem Linked.append {H : List (Node K V)} (A B : List Nat) (last : Ptr) :
    Linked H (A ++ B) last ↔ Linked H A (headOr B last) ∧ Linked H B last := by
  induction A with
  | nil => simp [Linked]
  | cons a A ih =>
    rw [List.cons_append, Linked.cons, Linked.cons, ih, headOr_append, and_assoc]

theorem Linked.frame_next {H H1 : List (Node K V)} {L : List Nat} {last : Ptr}
    (hn : ∀ x ∈ L, nextAt H1 x = nextAt H x) (hl : Linked H L last) : Linked H1 L last := by
  induction L with
  | nil => trivial
  | cons a L ih =>
    rw [Linked.cons] at hl ⊢
    exact ⟨by rw [hn a (List.mem_cons_self _ _)]; exact hl.1,
      ih (fun x hx => hn x (List.mem_cons_of_mem _ hx)) hl.2⟩

theorem leavesOf_subset (H : List (Node K V)) (h a : Nat) :
    ∀ x ∈ leavesOf H h a, x ∈ nodesOf H h a := by
  induction h generalizing a with
  | zero => simp [leavesOf, nodesOf]
  | succ h ih =>
    intro x hx
    simp only [leavesOf, nodesOf, List.mem_flatMap, List.mem_cons] at hx ⊢
    obtain ⟨c, hc, hx⟩ := hx
    exact Or.inr ⟨c, hc, ih c x hx⟩

section
variable [LinearOrder K]

theorem WF.leavesOf_ne_nil {H : List (Node K V)} {h m a : Nat} {lo hi : Option K}
    (hw : WF H h m a lo hi) : leavesOf H h a ≠ [] := by
  induction h generalizing m a lo hi with
  | zero => simp [leavesOf]
  | succ h ih =>
    obtain ⟨ks, par, cs, ha, _, _, _, hc⟩ := hw
    simp only [leavesOf, WF.children_mem ha]
    cases cs with
    | nil => have := hc.length_eq; simp at this
    | cons c cs =>
      obtain ⟨l, u, hwc, _⟩ := hc.forall_mem c (List.mem_cons_self _ _)
      have := ih hwc
      simp only [List.flatMap_cons, ne_eq, List.append_eq_nil, not_and]
      exact fun h0 => absurd h0 this

theorem Chain.found {P : Nat → Option K → Option K → Prop} {lo hi : Option K}
    {ks : List K} {cs : List Nat} (hc : Chain P lo ks cs hi) (key : K)
    (hlo : LoLe lo key) (hhi : HiGt key hi) :
    ∃ pre c post l u, Found P lo hi ks cs key pre c post l u := by
  obtain ⟨pre, c, post, l, u, h1, h2, h3, h4, h5, h6, h7, h8, h9, h10, h11, h12⟩ :=
    hc.find key hlo hhi
  exact ⟨pre, c, post, l, u, h1, h2, h3, h4, h5, h6, h7, h8, h9, h10, h11, h12⟩

/-- The siblings of the child chosen by the descent are well formed. -/
theorem Found.sib_wf {H : List (Node K V)} {h : Nat} {lo hi l u : Option K} {ks : List K}
    {cs pre post : List Nat} {c : Nat} {key : K}
    (hf : Found (fun c l u => WF H h 2 c l u) lo hi ks cs key pre c post l u) :
    ∀ x ∈ pre ++ post, ∃ lx ux, WF H h 2 x lx ux ∧
      ∀ y ∈ nodesOf H h x, y ∉ nodesOf H h c := by
  intro x hx
  rcases List.mem_append.mp hx with hx | hx
  · obtain ⟨l1, u1, hwx, hb⟩ := hf.left x hx
    refine ⟨l1, some u1, hwx, fun y hy hyc => ?_⟩
    exact WF.disjoint hwx hf.here (by omega) (by omega)
      (fun k _ h2 h3 _ => absurd (hb k h3) (not_le.mpr h2)) hy hyc
  · obtain ⟨l1, u1, hwx, hb⟩ := hf.right x hx
    refine ⟨some l1, u1, hwx, fun y hy hyc => ?_⟩
    exact WF.disjoint hwx hf.here (by omega) (by omega)
      (fun k h1 _ _ h4 => absurd (hb k h4) (not_lt.mpr h1)) hy hyc

/-- The pairs stored below the siblings to the left have smaller keys than `key`, those
below the siblings to the right have larger ones. -/
theorem Found.sib_keys {H : List (Node K V)} {h : Nat} {lo hi l u : Option K} {ks : List K}
    {cs pre post : List Nat} {c : Nat} {key : K}
    (hf : Found (fun c l u => WF H h 2 c l u) lo hi ks cs key pre c post l u) :
    (∀ e ∈ pre.flatMap (entries H h), e.1 < key) ∧
      (∀ e ∈ post.flatMap (entries H h), key < e.1) := by
  constructor
  · intro e he
    obtain ⟨x, hx, he⟩ := List.mem_flatMap.mp he
    obtain ⟨l1, u1, hwx, hb⟩ := hf.left x hx
    have := (hwx.entries_sorted.2 e.1 (List.mem_map_of_mem _ he)).2
    exact lt_of_lt_of_le this (hb key hf.inl)
  · intro e he
    obtain ⟨x, hx, he⟩ := List.mem_flatMap.mp he
    obtain ⟨l1, u1, hwx, hb⟩ := hf.right x hx
    have := (hwx.entries_sorted.2 e.1 (List.mem_map_of_mem _ he)).1
    exact lt_of_lt_of_le (hb key hf.inu) this

/-- Reassembly of the children of a node after the chosen child `c` was replaced by the
children `mid` (itself, or itself and a new right sibling), in the store `G`. -/
theorem Found.reassemble {H : List (Node K V)} {h : Nat} {lo hi l u : Option K}
    {ks : List K} {cs pre post : List Nat} {c : Nat} {key : K} (v : V)
    (hf : Found (fun c l u => WF H h 2 c l u) lo hi ks cs key pre c post l u)
    (mid : List Nat) (G : List (Node K V))
    (hsib : ∀ x ∈ pre ++ post, ∀ y ∈ nodesOf H h x, SameMod H G y)
    (hent : mid.flatMap (entries G h) = insertEntry key v (entries H h c))
    (hnodes : ∀ y ∈ mid.flatMap (nodesOf G h), y ∈ nodesOf H h c ∨ H.length ≤ y)
    (hlv : ∀ last, Linked H (leavesOf H h c) last → Linked G (mid.flatMap (leavesOf G h)) last)
    (hhd : (mid.flatMap (leavesOf G h)).head? = (leavesOf H h c).head?) :
    (pre ++ mid ++ post).flatMap (entries G h) = insertEntry key v (cs.flatMap (entries H h)) ∧
    (∀ y ∈ (pre ++ mid ++ post).flatMap (nodesOf G h),
      y ∈ cs.flatMap (nodesOf H h) ∨ H.length ≤ y) ∧
    (∀ last, Linked H (cs.flatMap (leavesOf H h)) last →
      Linked G ((pre ++ mid ++ post).flatMap (leavesOf G h)) last) ∧
    ((pre ++ mid ++ post).flatMap (leavesOf G h)).head? =
      (cs.flatMap (leavesOf H h)).head? := by
  have hshape : ∀ x ∈ pre ++ post, nodesOf G h x = nodesOf H h x ∧
      leavesOf G h x = leavesOf H h x ∧ entries G h x = entries H h x :=
    fun x hx => shape_congr h x (hsib x hx)
  have hpreE : pre.flatMap (entries G h) = pre.flatMap (entries H h) :=
    flatMap_congr_mem fun x hx => (hshape x (List.mem_append_left _ hx)).2.2
  have hpostE : post.flatMap (entries G h) = post.flatMap (entries H h) :=
    flatMap_congr_mem fun x hx => (hshape x (List.mem_append_right _ hx)).2.2
  have hpreN : pre.flatMap (nodesOf G h) = pre.flatMap (nodesOf H h) :=
    flatMap_congr_mem fun x hx => (hshape x (List.mem_append_left _ hx)).1
  have hpostN : post.flatMap (nodesOf G h) = post.flatMap (nodesOf H h) :=
    flatMap_congr_mem fun x hx => (hshape x (List.mem_append_right _ hx)).1
  have hpreL : pre.flatMap (leavesOf G h) = pre.flatMap (leavesOf H h) :=
    flatMap_congr_mem fun x hx => (hshape x (List.mem_append_left _ hx)).2.1
  have hpostL : post.flatMap (leavesOf G h) = post.flatMap (leavesOf H h) :=
    flatMap_congr_mem fun x hx => (hshape x (List.mem_append_right _ hx)).2.1
  have hnext : ∀ y ∈ pre.flatMap (leavesOf H h) ++ post.flatMap (leavesOf H h),
      nextAt G y = nextAt H y := by
    intro y hy
    simp only [List.mem_append, List.mem_flatMap] at hy
    rcases hy with ⟨x, hx, hy⟩ | ⟨x, hx, hy⟩
    · exact (hsib x (List.mem_append_left _ hx) y (leavesOf_subset H h x y hy)).nextAt
    · exact (hsib x (List.mem_append_right _ hx) y (leavesOf_subset H h x y hy)).nextAt
  have hcne : leavesOf H h c ≠ [] := hf.here.leavesOf_ne_nil
  obtain ⟨hkl, hkr⟩ := hf.sib_keys
  refine ⟨?_, ?_, ?_, ?_⟩
  · simp only [hf.split, List.flatMap_append, List.flatMap_cons, hpreE, hpostE, hent,
      List.append_assoc]
    rw [insertEntry_append_left _ _ _ _ hkl, insertEntry_append_right _ _ _ _ hkr]
  · intro y hy
    simp only [hf.split, List.flatMap_append, List.flatMap_cons, hpreN, hpostN,
      List.mem_append] at hy ⊢
    rcases hy with (hy | hy) | hy
    · exact Or.inl (Or.inl hy)
    · rcases hnodes y hy with hy | hy
      · exact Or.inl (Or.inr (Or.inl hy))
      · exact Or.inr hy
    · exact Or.inl (Or.inr (Or.inr hy))
  · intro last
    simp only [hf.split, List.flatMap_append, List.flatMap_cons, hpreL, hpostL,
      List.append_assoc, Linked.append]
    rintro ⟨h1, h2, h3⟩
    refine ⟨?_, hlv _ h2, h3.frame_next fun y hy => hnext y (List.mem_append_right _ hy)⟩
    rw [headOr_append, headOr_of_head? hhd, ← headOr_append]
    exact h1.frame_next fun y hy => hnext y (List.mem_append_left _ hy)
  · simp only [hf.split, List.flatMap_append, List.flatMap_cons, hpreL, hpostL,
      List.append_assoc, List.head?_append, hhd]

end

/-! ## Steps at an internal node -/

theorem SameMod.trans_eq {H H1 G : List (Node K V)} {y : Nat} (h1 : SameMod H1 G y)
    (h : H1[y]? = H[y]?) : SameMod H G y := by
  unfold SameMod at h1 ⊢
  rw [h1, h]

theorem nodesOf_succ {H : List (Node K V)} {ks : List K} {par : Ptr} {cs : List Nat}
    {a : Nat} (h : Nat) (ha : H[a]? = some (Node.internal ks par cs)) :
    nodesOf H (h + 1) a = a :: cs.flatMap (nodesOf H h) := by
  simp [nodesOf, childrenAt, ha]

theorem leavesOf_succ {H : List (Node K V)} {ks : List K} {par : Ptr} {cs : List Nat}
    {a : Nat} (h : Nat) (ha : H[a]? = some (Node.internal ks par cs)) :
    leavesOf H (h + 1) a = cs.flatMap (leavesOf H h) := by
  simp [leavesOf, childrenAt, ha]

theorem entries_succ {H : List (Node K V)} {ks : List K} {par : Ptr} {cs : List Nat}
    {a : Nat} (h : Nat) (ha : H[a]? = some (Node.internal ks par cs)) :
    entries H (h + 1) a = cs.flatMap (entries H h) := by
  simp [entries, childrenAt, ha]

section
variable [LinearOrder K]

/-- The insertion below the chosen child `c` of `P` did not split `c`: nothing changes at
`P`. -/
theorem parent_keep {H H1 : List (Node K V)} {h m P : Nat} {lo hi l u : Option K}
    {ks : List K} {par : Ptr} {cs pre post : List Nat} {c : Nat} {key : K} {v : V}
    (hP : H[P]? = some (Node.internal ks par cs)) (hk1 : 1 ≤ ks.length)
    (hk3 : ks.length ≤ MAX_KEYS) (hpar : ∀ c ∈ cs, parentAt H c = some (some P))
    (hf : Found (fun c l u => WF H h 2 c l u) lo hi ks cs key pre c post l u)
    (ha : StepA H H1 h 2 c l u key v) : StepA H H1 (h + 1) m P lo hi key v := by
  have hwP : WF H (h + 1) 2 P lo hi :=
    ⟨ks, par, cs, hP, hk1, hk3, hpar, hf.replace _ (fun _ _ _ _ hh => hh) hf.here⟩
  have hPlt : P < H.length := hwP.root_lt_length
  have hPc : P ∉ nodesOf H h c :=
    WF.not_mem_of_higher hf.here (by omega) hwP (Nat.lt_succ_self h)
  have hP1 : H1[P]? = some (Node.internal ks par cs) := by
    rw [ha.upd.frame.2 P hPlt hPc, hP]
  have hcm : c ∈ cs := by rw [hf.split]; simp
  have sibEq : ∀ x ∈ pre ++ post, ∀ y ∈ nodesOf H h x, H1[y]? = H[y]? := by
    intro x hx y hy
    obtain ⟨lx, ux, hwx, hd⟩ := hf.sib_wf x hx
    exact ha.upd.frame.2 y (hwx.lt_length y hy) (hd y hy)
  obtain ⟨r1, r2, r3, r4⟩ := hf.reassemble v [c] H1
    (fun x hx y hy => SameMod.of_eq (sibEq x hx y hy))
    (by simpa using ha.upd.ent) (by simpa using ha.upd.nodes)
    (by simpa using ha.upd.lv) (by simpa using ha.upd.hd)
  have hcs' : pre ++ [c] ++ post = cs := by rw [hf.split]; simp
  rw [hcs'] at r1 r2 r3 r4
  refine ⟨⟨ks, par, cs, hP1, hk1, hk3, ?_, ?_⟩, ?_, ⟨ha.upd.frame.1, ?_⟩, ?_, ?_, ?_, ?_⟩
  · intro x hx
    rw [hf.split] at hx
    rcases List.mem_append.mp hx with hx | hx
    · have := sibEq x (List.mem_append_left _ hx) x (mem_nodesOf_self H h x)
      simp only [parentAt, this]
      exact hpar x (by rw [hf.split]; exact List.mem_append_left _ hx)
    · rcases List.mem_cons.mp hx with rfl | hx
      · rw [ha.upd.par]; exact hpar _ hcm
      · have := sibEq x (List.mem_append_right _ hx) x (mem_nodesOf_self H h x)
        simp only [parentAt, this]
        exact hpar x (by rw [hf.split]; simp [hx])
  · exact hf.replace _ (fun x hx l u hw => hw.frame_eq (sibEq x hx)) ha.wf
  · rw [entries_succ h hP1, entries_succ h hP]; exact r1
  · intro x hx hxn
    refine ha.upd.frame.2 x hx fun hxc => hxn ?_
    exact mem_nodesOf_child (by rw [WF.children_mem hP]; exact hcm) hxc
  · simp [parentAt, hP1, hP]
  · intro y hy
    rw [nodesOf_succ h hP1] at hy
    rw [nodesOf_succ h hP]
    rcases List.mem_cons.mp hy with rfl | hy
    · exact Or.inl (List.mem_cons_self _ _)
    · rcases r2 y hy with hy | hy
      · exact Or.inl (List.mem_cons_of_mem _ hy)
      · exact Or.inr hy
  · rw [leavesOf_succ h hP1, leavesOf_succ h hP]; exact r3
  · rw [leavesOf_succ h hP1, leavesOf_succ h hP]; exact r4

end

theorem setParent_setParent (p q : Ptr) (n : Node K V) :
    (n.setParent p).setParent q = n.setParent q := by
  cases n <;> rfl

theorem parent_setParent (p : Ptr) (n : Node K V) : (n.setParent p).parent = p := by
  cases n <;> rfl

theorem sameMod_set_setParent {H : List (Node K V)} {a : Nat} {n : Node K V} (p : Ptr)
    (ha : H[a]? = some n) (y : Nat) : SameMod H (H.set a (n.setParent p)) y := by
  unfold SameMod
  by_cases hy : y = a
  · subst hy
    rw [get_set_self _ (List.getElem?_eq_some_iff.mp ha).1, ha]
    simp [setParent_setParent]
  · rw [get_set_ne _ hy]

theorem SameMod.comp {H H1 H2 : List (Node K V)} {y : Nat} (h1 : SameMod H H1 y)
    (h2 : SameMod H1 H2 y) : SameMod H H2 y := by
  unfold SameMod at *
  rw [h2, h1]

theorem SameMod.refl (H : List (Node K V)) (y : Nat) : SameMod H H y := rfl

/-- The loop that re-parents a list of allocated nodes changes nothing but their `parent`
fields. -/
theorem setParents_spec (p : Ptr) (L : List Nat) (H : List (Node K V))
    (hL : ∀ x ∈ L, x < H.length) :
    ∃ H2, setParents p L H = some H2 ∧ H2.length = H.length ∧
      (∀ y, SameMod H H2 y) ∧ (∀ y, y ∉ L → H2[y]? = H[y]?) ∧
      (∀ y ∈ L, parentAt H2 y = some p) := by
  induction L generalizing H with
  | nil => exact ⟨H, rfl, rfl, fun y => SameMod.refl H y, fun _ _ => rfl, by simp⟩
  | cons c L ih =>
    have hc : c < H.length := hL c (List.mem_cons_self _ _)
    have hcn : H[c]? = some H[c] := List.getElem?_eq_getElem hc
    obtain ⟨H2, h1, h2, h3, h4, h5⟩ := ih (H.set c (H[c].setParent p))
      (fun x hx => by simpa using hL x (List.mem_cons_of_mem _ hx))
    refine ⟨H2, by simp [setParents, setParentAt, hcn, h1], by simpa using h2,
      fun y => (sameMod_set_setParent p hcn y).comp (h3 y), ?_, ?_⟩
    · intro y hy
      simp only [List.mem_cons, not_or] at hy
      rw [h4 y hy.2, get_set_ne _ hy.1]
    · intro y hy
      by_cases hyL : y ∈ L
      · exact h5 y hyL
      · have hyc : y = c := by
          rcases List.mem_cons.mp hy with h | h
          · exact h
          · exact absurd h hyL
        subst hyc
        simp [parentAt, h4 y hyL, get_set_self _ hc, parent_setParent]

section
variable [LinearOrder K]

/-- Changes of a store that leave the children `cs` of a node alone, up to their `parent`
fields, and leave everything below them alone, keep their subtrees well formed. -/
theorem children_frame {H1 G : List (Node K V)} {h P : Nat} {cs : List Nat}
    (hWF : ∀ x ∈ cs, ∃ l u, WF H1 h 2 x l u)
    (hP : ∀ x ∈ cs, P ∉ nodesOf H1 h x)
    (hmod : ∀ y, y < H1.length → y ≠ P → SameMod H1 G y)
    (heq : ∀ y, y < H1.length → y ≠ P → y ∉ cs → G[y]? = H1[y]?) :
    ∀ x ∈ cs, (∀ l u, WF H1 h 2 x l u → WF G h 2 x l u) ∧
      (∀ y ∈ nodesOf H1 h x, SameMod H1 G y) := by
  intro x hx
  obtain ⟨l0, u0, hw0⟩ := hWF x hx
  have hne : ∀ y ∈ nodesOf H1 h x, y ≠ P := fun y hy hyP => hP x hx (hyP ▸ hy)
  have hsm : ∀ y ∈ nodesOf H1 h x, SameMod H1 G y :=
    fun y hy => hmod y (hw0.lt_length y hy) (hne y hy)
  refine ⟨fun l u hw => hw.congr_root (hsm x (mem_nodesOf_self _ _ _)) ?_, hsm⟩
  intro c0 hc0 y hy
  cases h with
  | zero =>
    obtain ⟨ks, par, vs, nx, ha, _⟩ := hw
    simp [childrenAt, ha] at hc0
  | succ h0 =>
    have hyx : y ∈ nodesOf H1 (h0 + 1) x := mem_nodesOf_child hc0 hy
    refine heq y (hw0.lt_length y hyx) (hne y hyx) fun hycs => ?_
    obtain ⟨l1, u1, hw1⟩ := hWF y hycs
    obtain ⟨ks, par, cs0, ha, _, _, _, hc⟩ := hw
    rw [WF.children_mem ha] at hc0
    obtain ⟨l2, u2, hw2, _⟩ := hc.forall_mem c0 hc0
    exact WF.not_mem_of_higher hw2 (by omega) hw1 (Nat.lt_succ_self h0) hy

end

section
variable [LinearOrder K]

/-- The insertion below the chosen child `c` of `P` split `c` in `c`, `s`, `r`: the statements
of `insertIntoParent` before its overflow check put `s` and `r` next to `c` in `P`, which
leaves `P` well formed except that it may hold `MAX_KEYS + 1` keys. -/
theorem parent_insert {H H1 : List (Node K V)} {h P : Nat} {lo hi l u : Option K}
    {ks : List K} {par : Ptr} {cs pre post : List Nat} {c : Nat} {key : K} {v : V}
    {s : K} {r : Nat}
    (hP : H[P]? = some (Node.internal ks par cs)) (hk1 : 1 ≤ ks.length)
    (hk3 : ks.length ≤ MAX_KEYS) (hpar : ∀ c ∈ cs, parentAt H c = some (some P))
    (hf : Found (fun c l u => WF H h 2 c l u) lo hi ks cs key pre c post l u)
    (hb : StepB H H1 h c l u key v s r) :
    ∃ G, H1[P]? = some (Node.internal ks par cs) ∧ parentAt H1 c = some (some P) ∧
      lowerBound s ks + 1 ≤ cs.length ∧
      setParentAt (H1.set P (Node.internal (insertAt ks (lowerBound s ks) s) par
        (insertAt cs (lowerBound s ks + 1) r))) r (some P) = some G ∧
      (insertAt ks (lowerBound s ks) s).length = ks.length + 1 ∧
      WFI G h (MAX_KEYS + 1) P lo hi ∧
      G[P]? = some (Node.internal (insertAt ks (lowerBound s ks) s) par
        (insertAt cs (lowerBound s ks + 1) r)) ∧
      Upd H G (h + 1) P key v := by
  have hwP : WF H (h + 1) 2 P lo hi :=
    ⟨ks, par, cs, hP, hk1, hk3, hpar, hf.replace _ (fun _ _ _ _ hh => hh) hf.here⟩
  have hPlt : P < H.length := hwP.root_lt_length
  have hPc : P ∉ nodesOf H h c :=
    WF.not_mem_of_higher hf.here (by omega) hwP (Nat.lt_succ_self h)
  have hP1 : H1[P]? = some (Node.internal ks par cs) := by
    rw [hb.frame.2 P hPlt hPc, hP]
  have hPlt1 : P < H1.length := (List.getElem?_eq_some_iff.mp hP1).1
  have hcm : c ∈ cs := by rw [hf.split]; simp
  have sibEq : ∀ x ∈ pre ++ post, ∀ y ∈ nodesOf H h x, H1[y]? = H[y]? := by
    intro x hx y hy
    obtain ⟨lx, ux, hwx, hd⟩ := hf.sib_wf x hx
    exact hb.frame.2 y (hwx.lt_length y hy) (hd y hy)
  have sibN : ∀ x ∈ pre ++ post, nodesOf H1 h x = nodesOf H h x :=
    fun x hx => (shape_congr h x fun y hy => SameMod.of_eq (sibEq x hx y hy)).1
  obtain ⟨hlb, hch1⟩ := hf.insert (fun c l u => WF H1 h 2 c l u) s r
    (fun x hx l u hw => hw.frame_eq (sibEq x hx)) hb.wfl hb.wfr hb.los hb.his
  have hcs' : insertAt cs (lowerBound s ks + 1) r = pre ++ c :: r :: post := by
    rw [hlb, hf.split]
    have := insertAt_append (pre ++ [c]) post r
    simpa using this
  have hrlt : r < H1.length := hb.wfr.root_lt_length
  have hrP : r ≠ P := by have := hb.fresh; omega
  have hrn : H1[r]? = some H1[r] := List.getElem?_eq_getElem hrlt
  -- the store after the two assignments
  have hG1r : (H1.set P (Node.internal (insertAt ks (lowerBound s ks) s) par
      (insertAt cs (lowerBound s ks + 1) r)))[r]? = some H1[r] := by
    rw [get_set_ne _ hrP, hrn]
  refine ⟨(H1.set P (Node.internal (insertAt ks (lowerBound s ks) s) par
      (insertAt cs (lowerBound s ks + 1) r))).set r (H1[r].setParent (some P)),
    hP1, by rw [hb.par]; exact hpar c hcm, ?_, by simp [setParentAt, hG1r], ?_, ?_⟩
  · rw [hlb, hf.split]; simp
  · exact length_insertAt _ _ _ (lowerBound_le s ks)
  generalize hGdef : (H1.set P (Node.internal (insertAt ks (lowerBound s ks) s) par
      (insertAt cs (lowerBound s ks + 1) r))).set r (H1[r].setParent (some P)) = G
  have hGP : G[P]? = some (Node.internal (insertAt ks (lowerBound s ks) s) par
      (insertAt cs (lowerBound s ks + 1) r)) := by
    rw [← hGdef, get_set_ne _ (Ne.symm hrP), get_set_self _ hPlt1]
  have hGr : G[r]? = some (H1[r].setParent (some P)) := by
    rw [← hGdef, get_set_self _ (by simpa using hrlt)]
  have hGo : ∀ y, y ≠ P → y ≠ r → G[y]? = H1[y]? := by
    intro y h1 h2
    rw [← hGdef, get_set_ne _ h2, get_set_ne _ h1]
  have hGlen : G.length = H1.length := by rw [← hGdef]; simp
  have hmod : ∀ y, y < H1.length → y ≠ P → SameMod H1 G y := by
    intro y _ hyP
    by_cases hyr : y = r
    · subst hyr
      unfold SameMod
      rw [hGr, hrn]
      simp [setParent_setParent]
    · exact SameMod.of_eq (hGo y hyP hyr)
  have hPn : ∀ x ∈ pre ++ c :: r :: post, P ∉ nodesOf H1 h x := by
    intro x hx hPx
    have hcases : x ∈ pre ++ post ∨ x = c ∨ x = r := by
      simp only [List.mem_append, List.mem_cons] at hx ⊢
      tauto
    rcases hcases with hx | rfl | rfl
    · rw [sibN x hx] at hPx
      obtain ⟨lx, ux, hwx, _⟩ := hf.sib_wf x hx
      exact WF.not_mem_of_higher hwx (by omega) hwP (Nat.lt_succ_self h) hPx
    · rcases hb.nodes P (List.mem_append_left _ hPx) with h1 | h1
      · exact hPc h1
      · omega
    · rcases hb.nodes P (List.mem_append_right _ hPx) with h1 | h1
      · exact hPc h1
      · omega
  have cf := children_frame (fun x hx => by
      obtain ⟨l1, u1, hw, _⟩ := hch1.forall_mem x hx; exact ⟨l1, u1, hw⟩) hPn hmod
    (fun y _ hyP hycs => hGo y hyP fun hyr => hycs (by rw [hyr]; simp))
  have hshape : ∀ x ∈ pre ++ c :: r :: post, nodesOf G h x = nodesOf H1 h x ∧
      leavesOf G h x = leavesOf H1 h x ∧ entries G h x = entries H1 h x :=
    fun x hx => shape_congr h x (cf x hx).2
  have hcin : c ∈ pre ++ c :: r :: post := by simp
  have hrin : r ∈ pre ++ c :: r :: post := by simp
  have hcne : (leavesOf H h c).head? ≠ none := by
    have := hf.here.leavesOf_ne_nil
    cases hL : leavesOf H h c with
    | nil => exact absurd hL this
    | cons a L => simp
  obtain ⟨r1, r2, r3, r4⟩ := hf.reassemble v [c, r] G
    (fun x hx y hy => by
      have hx' : x ∈ pre ++ c :: r :: post := by
        simp only [List.mem_append, List.mem_cons] at hx ⊢
        tauto
      exact ((cf x hx').2 y (by rw [sibN x hx]; exact hy)).trans_eq (sibEq x hx y hy))
    (by simp [(hshape c hcin).2.2, (hshape r hrin).2.2, hb.ent])
    (by
      intro y hy
      simp only [List.flatMap_cons, List.flatMap_nil, List.append_nil, (hshape c hcin).1,
        (hshape r hrin).1] at hy
      exact hb.nodes y hy)
    (by
      intro last hl
      simp only [List.flatMap_cons, List.flatMap_nil, List.append_nil, (hshape c hcin).2.1,
        (hshape r hrin).2.1]
      refine (hb.lv last hl).frame_next fun y hy => ?_
      rcases List.mem_append.mp hy with hy | hy
      · exact ((cf c hcin).2 y (leavesOf_subset _ _ _ y hy)).nextAt
      · exact ((cf r hrin).2 y (leavesOf_subset _ _ _ y hy)).nextAt)
    (by
      simp only [List.flatMap_cons, List.flatMap_nil, List.append_nil, (hshape c hcin).2.1,
        (hshape r hrin).2.1, List.head?_append, hb.hd]
      cases hL : (leavesOf H h c).head? with
      | none => exact absurd hL hcne
      | some a => rfl)
  have hcs2 : pre ++ [c, r] ++ post = pre ++ c :: r :: post := by simp
  rw [hcs2, ← hcs'] at r1 r2 r3 r4
  refine ⟨⟨_, par, _, hGP, ?_, ?_, ?_, ?_⟩, hGP, ?_, ⟨?_, ?_⟩, ?_, ?_, ?_, ?_⟩
  · rw [length_insertAt _ _ _ (lowerBound_le s ks)]; omega
  · rw [length_insertAt _ _ _ (lowerBound_le s ks)]; omega
  · intro x hx
    rw [hcs'] at hx
    by_cases hxr : x = r
    · subst hxr
      simp [parentAt, hGr, parent_setParent]
    · have hxP : x ≠ P := fun hxP => hPn x hx (hxP ▸ mem_nodesOf_self _ _ _)
      simp only [parentAt, hGo x hxP hxr]
      have hcases : x ∈ pre ++ post ∨ x = c := by
        simp only [List.mem_append, List.mem_cons] at hx ⊢
        tauto
      rcases hcases with hx | rfl
      · rw [sibEq x hx x (mem_nodesOf_self _ _ _)]
        exact hpar x (by
          rw [hf.split]
          simp only [List.mem_append, List.mem_cons] at hx ⊢
          tauto)
      · have := hb.par
        simp only [parentAt] at this
        rw [this]
        exact hpar _ hcm
  · rw [hcs', hlb]
    exact hch1.mono fun x hx l u hw => (cf x hx).1 l u hw
  · rw [entries_succ h hGP, entries_succ h hP]; exact r1
  · rw [hGlen]; exact hb.frame.1
  · intro x hx hxn
    have hxP : x ≠ P := fun hxP => hxn (hxP ▸ mem_nodesOf_self _ _ _)
    have hxr : x ≠ r := by have := hb.fresh; omega
    rw [hGo x hxP hxr]
    refine hb.frame.2 x hx fun hxc => hxn ?_
    exact mem_nodesOf_child (by rw [WF.children_mem hP]; exact hcm) hxc
  · simp [parentAt, hGP, hP, Node.parent]
  · intro y hy
    rw [nodesOf_succ h hGP] at hy
    rw [nodesOf_succ h hP]
    rcases List.mem_cons.mp hy with rfl | hy
    · exact Or.inl (List.mem_cons_self _ _)
    · rcases r2 y hy with hy | hy
      · exact Or.inl (List.mem_cons_of_mem _ hy)
      · exact Or.inr hy
  · rw [leavesOf_succ h hGP, leavesOf_succ h hP]; exact r3
  · rw [leavesOf_succ h hGP, leavesOf_succ h hP]; exact r4

end

theorem head?_flatMap_take {f : Nat → List Nat} {cs : List Nat} (n : Nat)
    (hne : ∀ c ∈ cs, f c ≠ []) :
    ((cs.take (n + 1)).flatMap f).head? = (cs.flatMap f).head? := by
  cases cs with
  | nil => rfl
  | cons c rest =>
    have := hne c (List.mem_cons_self _ _)
    simp only [List.take_succ_cons, List.flatMap_cons]
    rw [List.head?_append_of_ne_nil _ this, List.head?_append_of_ne_nil _ this]

section
variable [LinearOrder K]

/-- A possibly over-full internal node is no node of the subtree of a node of the height of
its children. -/
theorem WFI.not_mem {G : List (Node K V)} {h cap P x : Nat} {lo hi l u : Option K}
    (hw : WFI G h cap P lo hi) (hx : WF G h 2 x l u) : P ∉ nodesOf G h x := by
  intro hPx
  obtain ⟨ks, par, cs, hP, _, _, _, hc⟩ := hw
  obtain ⟨h1, m1, l1, u1, hh, _, hw1, _, _⟩ := hx.mem_nodesOf (by omega) hPx
  have hle : h1 ≤ h := by rcases hh with ⟨_, rfl⟩ | hh <;> omega
  cases h1 with
  | zero =>
    obtain ⟨ks1, par1, vs1, nx1, hP1, _⟩ := hw1
    rw [hP] at hP1
    simp at hP1
  | succ h2 =>
    obtain ⟨ks1, par1, cs1, hP1, _, _, _, hc1⟩ := hw1
    rw [hP] at hP1
    simp only [Option.some.injEq, Node.internal.injEq] at hP1
    obtain ⟨rfl, rfl, rfl⟩ := hP1
    cases cs with
    | nil => have := hc.length_eq; simp at this
    | cons c cs =>
      obtain ⟨_, _, hwc, _⟩ := hc.forall_mem c (List.mem_cons_self _ _)
      obtain ⟨_, _, hwc1, _⟩ := hc1.forall_mem c (List.mem_cons_self _ _)
      have := hwc.height_unique hwc1
      omega

/-- Method `splitInternal` on an internal node with `MAX_KEYS + 1` keys that is otherwise
well formed: it runs to its call of `insertIntoParent`, having split the node around its
key of index 2. -/
theorem split_internal {G : List (Node K V)} {h P : Nat} {lo hi : Option K}
    {ks : List K} {par : Ptr} {cs : List Nat}
    (hGP : G[P]? = some (Node.internal ks par cs)) (hlen : ks.length = MAX_KEYS + 1)
    (hw : WFI G h (MAX_KEYS + 1) P lo hi) :
    ∃ G3 s, (∀ (up : BPlusTree K V → Nat → K → Nat → Option (BPlusTree K V)) (rt : Ptr),
        splitInternal up ⟨rt, G⟩ P = up ⟨rt, G3⟩ P s G.length) ∧
      Split G G3 (h + 1) P lo hi s G.length := by
  have hw0 := hw
  obtain ⟨ks1, par1, cs1, hP1, _, _, hpar, hc⟩ := hw
  rw [hGP] at hP1
  simp only [Option.some.injEq, Node.internal.injEq] at hP1
  obtain ⟨rfl, rfl, rfl⟩ := hP1
  have hclen := hc.length_eq
  have hwc : ∀ x ∈ cs, ∃ l u, WF G h 2 x l u := fun x hx => by
    obtain ⟨l1, u1, hw, _⟩ := hc.forall_mem x hx; exact ⟨l1, u1, hw⟩
  have hclt : ∀ x ∈ cs, x < G.length := fun x hx => by
    obtain ⟨l1, u1, hw⟩ := hwc x hx; exact hw.root_lt_length
  have hPn : ∀ x ∈ cs, P ∉ nodesOf G h x := fun x hx => by
    obtain ⟨l1, u1, hw⟩ := hwc x hx; exact hw0.not_mem hw
  have hPcs : P ∉ cs := fun hPcs => hPn P hPcs (mem_nodesOf_self _ _ _)
  have hPlt : P < G.length := (List.getElem?_eq_some_iff.mp hGP).1
  obtain ⟨s, hs, hlos, hhis, hcl, hcr⟩ := hc.split hlen
  have hmid : ks.length / 2 = 2 := by rw [hlen]; rfl
  rw [hmid] at hs hcl hcr
  -- the loop over the moved children
  obtain ⟨G2, hsp, hG2len, hG2mod, hG2eq, hG2par⟩ := setParents_spec (some G.length)
    (cs.drop 3) (G ++ [Node.internal (ks.drop 3) none (cs.drop 3)])
    (fun x hx => by
      have := hclt x (List.mem_of_mem_drop hx)
      simp; omega)
  have hPd : P ∉ cs.drop 3 := fun hh => hPcs (List.mem_of_mem_drop hh)
  have hG2P : G2[P]? = some (Node.internal ks par cs) := by
    rw [hG2eq P hPd, get_append_old _ hPlt, hGP]
  have hNd : G.length ∉ cs.drop 3 := fun hh => by
    have := hclt _ (List.mem_of_mem_drop hh); omega
  have hPlt2 : P < G2.length := by rw [hG2len]; simp; omega
  refine ⟨G2.set P (Node.internal (ks.take 2) par (cs.take 3)), s, ?_, ?_⟩
  · intro up rt
    simp only [splitInternal, hGP, hmid, hs]
    rw [if_pos (by omega)]
    simp only [hsp, hG2P]
  generalize hG3def : G2.set P (Node.internal (ks.take 2) par (cs.take 3)) = G3
  have hG3P : G3[P]? = some (Node.internal (ks.take 2) par (cs.take 3)) := by
    rw [← hG3def, get_set_self _ hPlt2]
  have hG3N : G3[G.length]? = some (Node.internal (ks.drop 3) none (cs.drop 3)) := by
    rw [← hG3def, get_set_ne _ (by omega), hG2eq _ hNd, get_append_new]
  have hG3len : G3.length = G.length + 1 := by rw [← hG3def]; simp [hG2len]
  have hmod : ∀ y, y < G.length → y ≠ P → SameMod G G3 y := by
    intro y hy hyP
    have h1 : SameMod (G ++ [Node.internal (ks.drop 3) none (cs.drop 3)]) G3 y := by
      have := hG2mod y
      unfold SameMod at this ⊢
      rw [← hG3def, get_set_ne _ hyP, this]
    exact h1.trans_eq (get_append_old _ hy)
  have heq : ∀ y, y < G.length → y ≠ P → y ∉ cs.drop 3 → G3[y]? = G[y]? := by
    intro y hy hyP hyd
    rw [← hG3def, get_set_ne _ hyP, hG2eq y hyd, get_append_old _ hy]
  have cf := children_frame hwc hPn hmod
    (fun y hy hyP hycs => heq y hy hyP fun hh => hycs (List.mem_of_mem_drop hh))
  have hshape : ∀ x ∈ cs, nodesOf G3 h x = nodesOf G h x ∧
      leavesOf G3 h x = leavesOf G h x ∧ entries G3 h x = entries G h x :=
    fun x hx => shape_congr h x (cf x hx).2
  have htd : cs.take 3 ++ cs.drop 3 = cs := List.take_append_drop 3 cs
  have hdisj : ∀ x ∈ cs.take 3, x ∉ cs.drop 3 := by
    intro x hx1 hx2
    obtain ⟨l1, u1, hw1, _, nu1⟩ := hcl.forall_mem x hx1
    obtain ⟨l2, u2, hw2, nl2, _⟩ := hcr.forall_mem x hx2
    exact WF.disjoint hw1 hw2 (by omega) (by omega)
      (fun k _ h2 h3 _ => absurd (nu1 k h2) (not_lt.mpr (nl2 k h3)))
      (mem_nodesOf_self _ _ _) (mem_nodesOf_self _ _ _)
  have hE : ∀ f g : Nat → Nat → List (K × V), (∀ x ∈ cs, f h x = g h x) →
      (cs.take 3).flatMap (f h) ++ (cs.drop 3).flatMap (f h) = cs.flatMap (g h) := by
    intro f g hfg
    rw [← List.flatMap_append, htd]
    exact flatMap_congr_mem hfg
  have hN : ∀ f g : Nat → Nat → List Nat, (∀ x ∈ cs, f h x = g h x) →
      (cs.take 3).flatMap (f h) ++ (cs.drop 3).flatMap (f h) = cs.flatMap (g h) := by
    intro f g hfg
    rw [← List.flatMap_append, htd]
    exact flatMap_congr_mem hfg
  have hks2 : (ks.take 2).length = 2 := by
    rw [List.length_take, hlen]; rfl
  have hks3 : (ks.drop 3).length = 1 := by
    rw [List.length_drop, hlen]; rfl
  refine ⟨⟨_, par, _, hG3P, by omega, by rw [hks2]; decide, ?_, ?_⟩,
    ⟨_, none, _, hG3N, by omega, by rw [hks3]; decide, ?_, ?_⟩, hlos, hhis, ?_, ⟨by omega, ?_⟩,
    ?_, le_rfl, ?_, ?_, ?_⟩
  · intro x hx
    have hxcs : x ∈ cs := List.mem_of_mem_take hx
    have hxP : x ≠ P := fun hh => hPcs (hh ▸ hxcs)
    simp only [parentAt, heq x (hclt x hxcs) hxP (hdisj x hx)]
    exact hpar x hxcs
  · exact hcl.mono fun x hx l u hw => (cf x (List.mem_of_mem_take hx)).1 l u hw
  · intro x hx
    have hxcs : x ∈ cs := List.mem_of_mem_drop hx
    have hxP : x ≠ P := fun hh => hPcs (hh ▸ hxcs)
    have := hG2par x hx
    simp only [parentAt] at this ⊢
    rw [← hG3def, get_set_ne _ hxP, this]
  · exact hcr.mono fun x hx l u hw => (cf x (List.mem_of_mem_drop hx)).1 l u hw
  · rw [entries_succ h hG3P, entries_succ h hG3N, entries_succ h hGP]
    exact hE _ _ fun x hx => (hshape x hx).2.2
  · intro x hx hxn
    rw [nodesOf_succ h hGP] at hxn
    simp only [List.mem_cons, List.mem_flatMap, not_or, not_exists, not_and] at hxn
    exact heq x hx hxn.1 fun hh =>
      hxn.2 x (List.mem_of_mem_drop hh) (mem_nodesOf_self _ _ _)
  · simp [parentAt, hG3P, hGP, Node.parent]
  · intro y hy
    rw [nodesOf_succ h hG3P, nodesOf_succ h hG3N, nodesOf_succ h hGP] at *
    have hall := hN (nodesOf G3) (nodesOf G) fun x hx => (hshape x hx).1
    simp only [List.cons_append, List.mem_cons, List.mem_append] at hy ⊢
    rcases hy with rfl | hy | rfl | hy
    · exact Or.inl (Or.inl rfl)
    · refine Or.inl (Or.inr ?_)
      rw [← hall]; exact List.mem_append_left _ hy
    · exact Or.inr le_rfl
    · refine Or.inl (Or.inr ?_)
      rw [← hall]; exact List.mem_append_right _ hy
  · intro last hl
    rw [leavesOf_succ h hG3P, leavesOf_succ h hG3N, hN (leavesOf G3) (leavesOf G)
      fun x hx => (hshape x hx).2.1]
    rw [leavesOf_succ h hGP] at hl
    refine hl.frame_next fun y hy => ?_
    obtain ⟨x, hx, hy⟩ := List.mem_flatMap.mp hy
    exact ((cf x hx).2 y (leavesOf_subset _ _ _ y hy)).nextAt
  · rw [leavesOf_succ h hG3P, leavesOf_succ h hGP]
    rw [flatMap_congr_mem fun x hx => (hshape x (List.mem_of_mem_take hx)).2.1]
    exact head?_flatMap_take 2 fun x hx => by
      obtain ⟨l0, u0, hw0'⟩ := hwc x hx
      exact hw0'.leavesOf_ne_nil

end

section
variable [LinearOrder K]

/-! ## The split cascade -/

theorem StepB.of_split {H G G3 : List (Node K V)} {h a : Nat} {lo hi : Option K} {key : K}
    {v : V} {s : K} {r : Nat} (hu : Upd H G h a key v) (hs : Split G G3 h a lo hi s r) :
    StepB H G3 h a lo hi key v s r := by
  refine ⟨hs.wfl, hs.wfr, hs.los, hs.his, hs.ent.trans hu.ent,
    ⟨le_trans hu.frame.1 hs.frame.1, fun x hx hxn => ?_⟩, hs.par.trans hu.par,
    le_trans hu.frame.1 hs.fresh, fun y hy => ?_, fun last hl => hs.lv last (hu.lv last hl),
    hs.hd.trans hu.hd⟩
  · rw [hs.frame.2 x (lt_of_lt_of_le hx hu.frame.1) fun hxG => ?_]
    · exact hu.frame.2 x hx hxn
    · rcases hu.nodes x hxG with h1 | h1
      · exact hxn h1
      · omega
  · rcases hs.nodes y hy with h1 | h1
    · exact hu.nodes y h1
    · exact Or.inr (le_trans hu.frame.1 h1)

/-- Method `insertIntoParent` when the left node is not the root: up to the overflow
check. -/
theorem insertIntoParent_nonroot {H1 G : List (Node K V)} {c P rt r : Nat} {s : K}
    {ks : List K} {par : Ptr} {cs : List Nat} (f : Nat) (hne : c ≠ rt)
    (hc : parentAt H1 c = some (some P)) (hP : H1[P]? = some (Node.internal ks par cs))
    (hpos : lowerBound s ks + 1 ≤ cs.length)
    (hG : setParentAt (H1.set P (Node.internal (insertAt ks (lowerBound s ks) s) par
      (insertAt cs (lowerBound s ks + 1) r))) r (some P) = some G) :
    insertIntoParent (f + 1) ⟨some rt, H1⟩ c s r =
      if (insertAt ks (lowerBound s ks) s).length > MAX_KEYS then
        splitInternal (insertIntoParent f) ⟨some rt, G⟩ P
      else some ⟨some rt, G⟩ := by
  unfold parentAt at hc
  cases hn : H1[c]? with
  | none => simp [hn] at hc
  | some n =>
    simp only [hn, Option.map_some', Option.some.injEq] at hc
    simp only [insertIntoParent, Option.some.injEq, hne, if_false, hn, hc, hP, hpos, if_true, hG]

/-- The insertion of `key` below the node `a` of height `h`: `findLeaf` reaches a leaf, and
`insertIntoLeaf` on that leaf either ends below `a` or at `a`, or reaches the call of
`insertIntoParent` on `a` after a split of `a`. -/
theorem cascade (h : Nat) : ∀ {H : List (Node K V)} {m a : Nat} {lo hi : Option K} (rt : Nat)
    (key : K) (v : V), WF H h m a lo hi → LoLe lo key → HiGt key hi →
    (∀ x ∈ nodesOf H h a, x = rt → x = a) →
    ∃ leaf, (∀ e, findLeafLoop H key (h + 1 + e) a = some leaf) ∧
      ((∃ H1, (∀ f, insertIntoLeaf (f + h) ⟨some rt, H⟩ leaf key v = some ⟨some rt, H1⟩) ∧
          StepA H H1 h m a lo hi key v) ∨
        (∃ H1 s r, (∀ f, insertIntoLeaf (f + h) ⟨some rt, H⟩ leaf key v =
            insertIntoParent f ⟨some rt, H1⟩ a s r) ∧ StepB H H1 h a lo hi key v s r)) := by
  induction h with
  | zero =>
    intro H m a lo hi rt key v hw hlo hhi _
    refine ⟨a, fun e => ?_, ?_⟩
    · obtain ⟨ks, par, vs, nx, ha, _⟩ := hw
      rw [show 0 + 1 + e = e + 1 by omega]
      simp [findLeafLoop, ha]
    · rcases leaf_step rt key v hw hlo hhi with ⟨H1, h1, h2⟩ | ⟨H1, s, r, h1, h2⟩
      · exact Or.inl ⟨H1, fun f => h1 _, h2⟩
      · exact Or.inr ⟨H1, s, r, fun f => h1 _, h2⟩
  | succ h ih =>
    intro H m P lo hi rt key v hw hlo hhi hrt
    have hw0 := hw
    obtain ⟨ks, par, cs, hP, hk1, hk3, hpar, hc⟩ := hw
    obtain ⟨pre, c, post, l, u, hf⟩ := hc.found key hlo hhi
    have hcm : c ∈ cs := by rw [hf.split]; simp
    have hPc : P ∉ nodesOf H h c :=
      WF.not_mem_of_higher hf.here (by omega) hw0 (Nat.lt_succ_self h)
    have hcP : ∀ x ∈ nodesOf H h c, x ∈ nodesOf H (h + 1) P := fun x hx =>
      mem_nodesOf_child (by rw [WF.children_mem hP]; exact hcm) hx
    have hrtc : ∀ x ∈ nodesOf H h c, x ≠ rt := fun x hx hxr =>
      hPc (hrt x (hcP x hx) hxr ▸ hx)
    obtain ⟨leaf, hfl, hstep⟩ := ih rt key v hf.here hf.inl hf.inu
      (fun x hx hxr => absurd hxr (hrtc x hx))
    have hget : cs[findChild key ks]? = some c := by
      rw [← hf.idx, hf.split, List.getElem?_append_right (le_refl _)]; simp
    refine ⟨leaf, fun e => ?_, ?_⟩
    · rw [show h + 1 + 1 + e = (h + 1 + e) + 1 by omega]
      simp only [findLeafLoop, hP, hget]
      exact hfl e
    · rcases hstep with ⟨H1, h1, h2⟩ | ⟨H1, s, r, h1, h2⟩
      · refine Or.inl ⟨H1, fun f => ?_, parent_keep hP hk1 hk3 hpar hf h2⟩
        rw [show f + (h + 1) = (f + 1) + h by omega]
        exact h1 _
      · obtain ⟨G, g1, g2, g3, g4, g5, g6, g7, g8⟩ := parent_insert hP hk1 hk3 hpar hf h2
        have hcrt : c ≠ rt := hrtc c (mem_nodesOf_self _ _ _)
        by_cases hfull : (insertAt ks (lowerBound s ks) s).length > MAX_KEYS
        · obtain ⟨G3, s1, e1, e2⟩ := split_internal g7 (by omega) g6
          refine Or.inr ⟨G3, s1, G.length, fun f => ?_, StepB.of_split g8 e2⟩
          rw [show f + (h + 1) = (f + 1) + h by omega, h1,
            insertIntoParent_nonroot f hcrt g2 g1 g3 g4, if_pos hfull, e1]
        · refine Or.inl ⟨G, fun f => ?_, ?_, g8⟩
          · rw [show f + (h + 1) = (f + 1) + h by omega, h1,
              insertIntoParent_nonroot f hcrt g2 g1 g3 g4, if_neg hfull]
          · obtain ⟨ks2, par2, cs2, q1, q2, _, q4, q5⟩ := g6
            rw [g7] at q1
            simp only [Option.some.injEq, Node.internal.injEq] at q1
            obtain ⟨rfl, rfl, rfl⟩ := q1
            exact ⟨_, _, _, g7, q2, by omega, q4, q5⟩

end

/-! ## The whole tree -/

theorem entries_eq_flatMap (H : List (Node K V)) (h a : Nat) :
    entries H h a = (leavesOf H h a).flatMap (entriesAt H) := by
  induction h generalizing a with
  | zero => simp [entries, leavesOf]
  | succ h ih =>
    simp only [entries, leavesOf, List.flatMap_assoc]
    exact flatMap_congr_mem fun c _ => ih c

section
variable [LinearOrder K]

theorem WF.leavesFrom_eq {H : List (Node K V)} {h m a : Nat} {lo hi : Option K}
    (hw : WF H h m a lo hi) (e : Nat) : leavesFrom H (h + 1 + e) a = leavesOf H h a := by
  induction h generalizing m a lo hi with
  | zero =>
    obtain ⟨ks, par, vs, nx, ha, _⟩ := hw
    rw [show 0 + 1 + e = e + 1 by omega]
    simp [leavesFrom, leavesOf, ha]
  | succ h ih =>
    obtain ⟨ks, par, cs, ha, _, _, _, hc⟩ := hw
    rw [show h + 1 + 1 + e = (h + 1 + e) + 1 by omega]
    simp only [leavesFrom, ha, leavesOf_succ h ha]
    exact flatMap_congr_mem fun c hcm => by
      obtain ⟨l, u, hwc, _⟩ := hc.forall_mem c hcm
      exact ih hwc

theorem Rep.leaves_eq {t : BPlusTree K V} {h r : Nat} (hr : Rep t h r) :
    leaves t = leavesOf t.heap h r := by
  have := hr.ht
  simp only [leaves, hr.root]
  rw [show t.heap.length = h + 1 + (t.heap.length - h - 1) by omega]
  exact hr.wf.leavesFrom_eq _

theorem Rep.toList_eq {t : BPlusTree K V} {h r : Nat} (hr : Rep t h r) :
    toList t = entries t.heap h r := by
  rw [toList, hr.leaves_eq, entries_eq_flatMap]

/-- Method `insertIntoParent` when the left node is the root: a new root is allocated above
the two halves of the old one. -/
theorem root_split {H H1 : List (Node K V)} {h rt : Nat} {key : K} {v : V} {s : K} {r : Nat}
    (hb : StepB H H1 h rt none none key v s r) :
    ∃ G, (∀ f, insertIntoParent (f + 1) ⟨some rt, H1⟩ rt s r = some ⟨some H1.length, G⟩) ∧
      G.length = H1.length + 1 ∧
      G[H1.length]? = some (Node.internal [s] none [rt, r]) ∧
      WF G (h + 1) 1 H1.length none none ∧
      entries G (h + 1) H1.length = insertEntry key v (entries H h rt) ∧
      (Linked H (leavesOf H h rt) none → Linked G (leavesOf G (h + 1) H1.length) none) := by
  have hrtlt : rt < H1.length := hb.wfl.root_lt_length
  have hrlt : r < H1.length := hb.wfr.root_lt_length
  have hne : rt ≠ r := by
    intro hh
    exact WF.disjoint hb.wfl hb.wfr (by omega) (by omega)
      (fun k _ h2 h3 _ => absurd h2 (not_lt.mpr h3))
      (mem_nodesOf_self _ _ _) (hh ▸ mem_nodesOf_self _ _ _)
  have hrtn : H1[rt]? = some H1[rt] := List.getElem?_eq_getElem hrtlt
  have hrn : H1[r]? = some H1[r] := List.getElem?_eq_getElem hrlt
  have e1 : (H1 ++ [Node.internal [s] none [rt, r]])[rt]? = some H1[rt] := by
    rw [get_append_old _ hrtlt, hrtn]
  have e2 : ((H1 ++ [Node.internal [s] none [rt, r]]).set rt
      (H1[rt].setParent (some H1.length)))[r]? = some H1[r] := by
    rw [get_set_ne _ (Ne.symm hne), get_append_old _ hrlt, hrn]
  refine ⟨((H1 ++ [Node.internal [s] none [rt, r]]).set rt
      (H1[rt].setParent (some H1.length))).set r (H1[r].setParent (some H1.length)),
    fun f => by simp [insertIntoParent, setParentAt, e1, e2], by simp, ?_⟩
  generalize hGdef : ((H1 ++ [Node.internal [s] none [rt, r]]).set rt
      (H1[rt].setParent (some H1.length))).set r (H1[r].setParent (some H1.length)) = G
  have hGN : G[H1.length]? = some (Node.internal [s] none [rt, r]) := by
    rw [← hGdef, get_set_ne _ (by omega), get_set_ne _ (by omega), get_append_new]
  have hGrt : G[rt]? = some (H1[rt].setParent (some H1.length)) := by
    rw [← hGdef, get_set_ne _ hne, get_set_self _ (by simp; omega)]
  have hGr : G[r]? = some (H1[r].setParent (some H1.length)) := by
    rw [← hGdef, get_set_self _ (by simp; omega)]
  have hGo : ∀ y, y < H1.length → y ≠ rt → y ≠ r → G[y]? = H1[y]? := by
    intro y hy h1 h2
    rw [← hGdef, get_set_ne _ h2, get_set_ne _ h1, get_append_old _ hy]
  have hmod : ∀ y, y < H1.length → y ≠ H1.length → SameMod H1 G y := by
    intro y hy _
    by_cases h1 : y = rt
    · subst h1; unfold SameMod; rw [hGrt, hrtn]; simp [setParent_setParent]
    · by_cases h2 : y = r
      · subst h2; unfold SameMod; rw [hGr, hrn]; simp [setParent_setParent]
      · exact SameMod.of_eq (hGo y hy h1 h2)
  have hWF : ∀ x ∈ [rt, r], ∃ l u, WF H1 h 2 x l u := by
    intro x hx
    simp only [List.mem_cons, List.mem_singleton, List.not_mem_nil, or_false] at hx
    rcases hx with rfl | rfl
    · exact ⟨_, _, hb.wfl⟩
    · exact ⟨_, _, hb.wfr⟩
  have hNn : ∀ x ∈ [rt, r], H1.length ∉ nodesOf H1 h x := fun x hx hN => by
    obtain ⟨l, u, hw⟩ := hWF x hx
    exact absurd (hw.lt_length _ hN) (lt_irrefl _)
  have cf := children_frame hWF hNn hmod
    (fun y hy _ hycs => hGo y hy (fun hh => hycs (by simp [hh])) (fun hh => hycs (by simp [hh])))
  have hshape : ∀ x ∈ [rt, r], nodesOf G h x = nodesOf H1 h x ∧
      leavesOf G h x = leavesOf H1 h x ∧ entries G h x = entries H1 h x :=
    fun x hx => shape_congr h x (cf x hx).2
  refine ⟨hGN, ⟨[s], none, [rt, r], hGN, by simp, by simp [MAX_KEYS, ORDER], ?_, ?_⟩, ?_, ?_⟩
  · intro x hx
    simp only [List.mem_cons, List.mem_singleton, List.not_mem_nil, or_false] at hx
    rcases hx with rfl | rfl
    · simp [parentAt, hGrt, parent_setParent]
    · simp [parentAt, hGr, parent_setParent]
  · exact ⟨trivial, trivial, (cf rt (by simp)).1 _ _ hb.wfl, (cf r (by simp)).1 _ _ hb.wfr⟩
  · rw [entries_succ h hGN]
    simp [(hshape rt (by simp)).2.2, (hshape r (by simp)).2.2, hb.ent]
  · intro hl
    rw [leavesOf_succ h hGN]
    simp only [List.flatMap_cons, List.flatMap_nil, List.append_nil,
      (hshape rt (by simp)).2.1, (hshape r (by simp)).2.1]
    refine (hb.lv none hl).frame_next fun y hy => ?_
    rcases List.mem_append.mp hy with hy | hy
    · exact ((cf rt (by simp)).2 y (leavesOf_subset _ _ _ y hy)).nextAt
    · exact ((cf r (by simp)).2 y (leavesOf_subset _ _ _ y hy)).nextAt

/-- Method `insert` keeps the representation invariant, never fails on a tree that
satisfies it, and acts on the leaf level as `insertEntry`. -/
theorem insert_inv {t : BPlusTree K V} (hi : Inv t) (key : K) (v : V) :
    ∃ t1, insert t key v = some t1 ∧ (∃ h r, Rep t1 h r) ∧
      toList t1 = insertEntry key v (toList t) := by
  obtain ⟨root, H⟩ := t
  rcases hi with ⟨h1, h2⟩ | ⟨h, r, hr⟩
  · simp only at h1 h2
    subst h1 h2
    refine ⟨⟨some 0, [Node.leaf [key] none [v] none]⟩, rfl, ⟨0, 0, ?_⟩, ?_⟩
    · exact ⟨rfl, ⟨[key], none, [v], none, rfl, rfl, by simp, by simp [LoLe, HiGt], by simp,
        by simp [MAX_KEYS, ORDER]⟩, rfl, by simp, by simp [leavesOf, Linked, nextAt, Node.next]⟩
    · simp [toList, leaves, leavesFrom, entriesAt, insertEntry]
  · have hroot : root = some r := hr.root
    subst hroot
    have hlt : h < H.length := hr.ht
    have hwf : WF H h 1 r none none := hr.wf
    have hpar : parentAt H r = some none := hr.par
    have hlk : Linked H (leavesOf H h r) none := hr.linked
    have hrT : toList (⟨some r, H⟩ : BPlusTree K V) = entries H h r := hr.toList_eq
    obtain ⟨leaf, hfl, hstep⟩ := cascade h r key v hwf trivial trivial (fun _ _ hh => hh)
    have hfind : findLeaf ⟨some r, H⟩ key = some (some leaf) := by
      simp only [findLeaf]
      rw [show H.length = h + 1 + (H.length - h - 1) by omega, hfl]
      rfl
    have hins : insert ⟨some r, H⟩ key v =
        insertIntoLeaf ((H.length - h - 1 + 1) + h) ⟨some r, H⟩ leaf key v := by
      simp only [insert, hfind]
      rw [show H.length - h - 1 + 1 + h = H.length by omega]
    rcases hstep with ⟨H1, e1, ha⟩ | ⟨H1, s, r1, e1, hb⟩
    · refine ⟨⟨some r, H1⟩, by rw [hins, e1], ⟨h, r, ?_⟩, ?_⟩
      · exact ⟨rfl, ha.wf, ha.upd.par.trans hpar, lt_of_lt_of_le hlt ha.upd.frame.1,
          ha.upd.lv none hlk⟩
      · have hr1 : Rep (⟨some r, H1⟩ : BPlusTree K V) h r :=
          ⟨rfl, ha.wf, ha.upd.par.trans hpar, lt_of_lt_of_le hlt ha.upd.frame.1,
            ha.upd.lv none hlk⟩
        rw [hr1.toList_eq, hrT]
        exact ha.upd.ent
    · obtain ⟨G, g1, g2, g3, g4, g5, g6⟩ := root_split hb
      have hr1 : Rep (⟨some H1.length, G⟩ : BPlusTree K V) (h + 1) H1.length :=
        ⟨rfl, g4, by simp [parentAt, g3, Node.parent], by
          have := hb.frame.1
          simp only [g2]; omega, g6 hlk⟩
      refine ⟨⟨some H1.length, G⟩, by rw [hins, e1, g1], ⟨h + 1, H1.length, hr1⟩, ?_⟩
      rw [hr1.toList_eq, hrT]
      exact g5

end

/-! ## Lookup -/

section
variable [LinearOrder K]

theorem lookup_append_left (key : K) (A B : List (K × V)) (hA : ∀ e ∈ A, e.1 ≠ key) :
    lookup key (A ++ B) = lookup key B := by
  induction A with
  | nil => rfl
  | cons a A ih =>
    obtain ⟨k, v⟩ := a
    have h1 : key ≠ k := fun h => hA (k, v) (List.mem_cons_self _ _) h.symm
    simp only [List.cons_append, lookup, if_neg h1]
    exact ih fun e he => hA e (List.mem_cons_of_mem _ he)

theorem lookup_eq_none (key : K) (A : List (K × V)) (hA : ∀ e ∈ A, e.1 ≠ key) :
    lookup key A = none := by
  have := lookup_append_left key A [] hA
  simpa [lookup] using this

theorem lookup_append_right (key : K) (B C : List (K × V)) (hC : ∀ e ∈ C, e.1 ≠ key) :
    lookup key (B ++ C) = lookup key B := by
  induction B with
  | nil => simpa [lookup] using lookup_eq_none key C hC
  | cons b B ih =>
    obtain ⟨k, v⟩ := b
    simp only [List.cons_append, lookup]
    split
    · rfl
    · exact ih

theorem lookup_eq_none_iff (key : K) (A : List (K × V)) :
    lookup key A = none ↔ key ∉ A.map Prod.fst := by
  induction A with
  | nil => simp [lookup]
  | cons a A ih =>
    obtain ⟨k, v⟩ := a
    by_cases h : key = k
    · simp [lookup, h]
    · simp [lookup, h, ih]

theorem lookup_insertEntry (key k : K) (v : V) (l : List (K × V)) :
    lookup key (insertEntry k v l) = if key = k then some v else lookup key l := by
  induction l with
  | nil => simp [insertEntry, lookup]
  | cons a l ih =>
    obtain ⟨k1, v1⟩ := a
    simp only [insertEntry]
    split
    · simp [lookup]
    · split
      · rename_i h2
        subst h2
        by_cases h : key = k <;> simp [lookup, h]
      · rename_i h2
        simp only [lookup, ih]
        by_cases h : key = k
        · have : key ≠ k1 := fun h3 => h2 (h ▸ h3)
          rw [if_neg this, if_pos h, if_pos h]
        · rw [if_neg h, if_neg h]

theorem mem_keys_insertEntry (key k : K) (v : V) (l : List (K × V)) :
    key ∈ (insertEntry k v l).map Prod.fst ↔ key = k ∨ key ∈ l.map Prod.fst := by
  rw [← not_iff_not, ← lookup_eq_none_iff, lookup_insertEntry, not_or, ← lookup_eq_none_iff]
  by_cases h : key = k <;> simp [h]

theorem length_insertEntry (k : K) (v : V) (l : List (K × V))
    (hs : (l.map Prod.fst).Pairwise (· < ·)) :
    (insertEntry k v l).length = if k ∈ l.map Prod.fst then l.length else l.length + 1 := by
  induction l with
  | nil => simp [insertEntry]
  | cons a l ih =>
    obtain ⟨k1, v1⟩ := a
    simp only [List.map_cons, List.pairwise_cons] at hs
    simp only [insertEntry]
    split
    · rename_i h1
      have : k ∉ ((k1, v1) :: l).map Prod.fst := by
        simp only [List.map_cons, List.mem_cons, not_or]
        exact ⟨ne_of_lt h1, fun hm => absurd (lt_trans h1 (hs.1 k hm)) (lt_irrefl _)⟩
      rw [if_neg this]
      rfl
    · split
      · rename_i h2
        simp [h2]
      · rename_i h1 h2
        simp only [List.length_cons, ih hs.2, List.map_cons, List.mem_cons, h2, false_or]
        split <;> rfl

theorem pairwise_insertEntry (k : K) (v : V) (l : List (K × V))
    (hs : (l.map Prod.fst).Pairwise (· < ·)) :
    ((insertEntry k v l).map Prod.fst).Pairwise (· < ·) := by
  induction l with
  | nil => simp [insertEntry]
  | cons a l ih =>
    obtain ⟨k1, v1⟩ := a
    simp only [List.map_cons, List.pairwise_cons] at hs
    simp only [insertEntry]
    split
    · rename_i h1
      simp only [List.map_cons, List.pairwise_cons, List.mem_cons, forall_eq_or_imp]
      exact ⟨⟨h1, fun a ha => lt_trans h1 (hs.1 a ha)⟩, hs.1, hs.2⟩
    · split
      · rename_i h2
        subst h2
        simp only [List.map_cons, List.pairwise_cons]
        exact hs
      · rename_i h1 h2
        simp only [List.map_cons, List.pairwise_cons]
        refine ⟨fun a ha => ?_, ih hs.2⟩
        rcases (mem_keys_insertEntry a k v l).mp ha with rfl | ha
        · exact lt_of_le_of_ne (not_lt.mp h1) (Ne.symm h2)
        · exact hs.1 a ha

/-- The search inside a leaf: `lower_bound` followed by the equality test. -/
theorem search_leaf (key : K) (ks : List K) (vs : List V) (hlen : vs.length = ks.length)
    (hs : ks.Pairwise (· < ·)) :
    (if ks[lowerBound key ks]? = some key then (vs[lowerBound key ks]?).map some
      else some none) = some (lookup key (ks.zip vs)) := by
  induction ks generalizing vs with
  | nil => simp [lookup]
  | cons k ks ih =>
    cases vs with
    | nil => simp at hlen
    | cons v1 vs =>
      simp only [List.length_cons, Nat.add_right_cancel_iff] at hlen
      rw [List.pairwise_cons] at hs
      simp only [lowerBound]
      by_cases hlt : k < key
      · simp only [hlt, if_true, List.getElem?_cons_succ, List.zip_cons_cons, lookup,
          if_neg (ne_of_gt hlt)]
        exact ih vs hlen hs.2
      · simp only [hlt, if_false, List.getElem?_cons_zero, Option.some.injEq,
          List.zip_cons_cons, lookup]
        by_cases heq : k = key
        · simp [heq]
        · have hlt2 : key < k := lt_of_le_of_ne (not_lt.mp hlt) (Ne.symm heq)
          rw [if_neg heq, if_neg (Ne.symm heq)]
          have : lookup key (ks.zip vs) = none := by
            apply lookup_eq_none
            intro e he
            have : e.1 ∈ ks := (List.of_mem_zip he).1
            exact ne_of_gt (lt_trans hlt2 (hs.1 _ this))
          exact congrArg some this.symm

/-- Method `findLeaf` below a well-formed node: it reaches a leaf, and the leaf is the only
place below the node where `key` can be stored. -/
theorem findLeaf_spec {H : List (Node K V)} {h m a : Nat} {lo hi : Option K} (key : K)
    (hw : WF H h m a lo hi) (hlo : LoLe lo key) (hhi : HiGt key hi) :
    ∃ leaf ks par vs nx, (∀ e, findLeafLoop H key (h + 1 + e) a = some leaf) ∧
      H[leaf]? = some (Node.leaf ks par vs nx) ∧ vs.length = ks.length ∧
      ks.Pairwise (· < ·) ∧ lookup key (entries H h a) = lookup key (ks.zip vs) := by
  induction h generalizing m a lo hi with
  | zero =>
    obtain ⟨ks, par, vs, nx, ha, hlen, hs, _⟩ := hw
    refine ⟨a, ks, par, vs, nx, fun e => ?_, ha, hlen, hs, by simp [entries, entriesAt, ha]⟩
    rw [show 0 + 1 + e = e + 1 by omega]
    simp [findLeafLoop, ha]
  | succ h ih =>
    obtain ⟨ks, par, cs, hP, _, _, _, hc⟩ := hw
    obtain ⟨pre, c, post, l, u, hf⟩ := hc.found key hlo hhi
    obtain ⟨leaf, ks1, par1, vs1, nx1, h1, h2, h3, h4, h5⟩ := ih hf.here hf.inl hf.inu
    have hget : cs[findChild key ks]? = some c := by
      rw [← hf.idx, hf.split, List.getElem?_append_right (le_refl _)]; simp
    refine ⟨leaf, ks1, par1, vs1, nx1, fun e => ?_, h2, h3, h4, ?_⟩
    · rw [show h + 1 + 1 + e = (h + 1 + e) + 1 by omega]
      simp only [findLeafLoop, hP, hget]
      exact h1 e
    · obtain ⟨hkl, hkr⟩ := hf.sib_keys
      rw [entries_succ h hP, hf.split, List.flatMap_append, List.flatMap_cons,
        lookup_append_left _ _ _ fun e he => ne_of_lt (hkl e he),
        lookup_append_right _ _ _ fun e he => ne_of_gt (hkr e he), h5]

/-- Method `search` on a tree that satisfies the invariant is the lookup at the leaf
level. -/
theorem search_spec {t : BPlusTree K V} (hi : Inv t) (key : K) :
    search t key = some (lookup key (toList t)) := by
  obtain ⟨root, H⟩ := t
  rcases hi with ⟨h1, _⟩ | ⟨h, r, hr⟩
  · simp only at h1
    subst h1
    simp [search, findLeaf, toList, leaves, lookup]
  · have hroot : root = some r := hr.root
    subst hroot
    have hlt : h < H.length := hr.ht
    have hwf : WF H h 1 r none none := hr.wf
    have hrT : toList (⟨some r, H⟩ : BPlusTree K V) = entries H h r := hr.toList_eq
    obtain ⟨leaf, ks, par, vs, nx, h1, h2, h3, h4, h5⟩ := findLeaf_spec key hwf trivial trivial
    have hfind : findLeaf ⟨some r, H⟩ key = some (some leaf) := by
      simp only [findLeaf]
      rw [show H.length = h + 1 + (H.length - h - 1) by omega, h1]
      rfl
    simp only [search, hfind, h2]
    rw [hrT, h5]
    exact search_leaf key ks vs h3 h4

theorem Rep.inv {t : BPlusTree K V} {h r : Nat} (hr : Rep t h r) : Inv t := Or.inr ⟨h, r, hr⟩

theorem Inv.sorted {t : BPlusTree K V} (hi : Inv t) :
    ((toList t).map Prod.fst).Pairwise (· < ·) := by
  rcases hi with ⟨h1, _⟩ | ⟨h, r, hr⟩
  · simp [toList, leaves, h1]
  · rw [hr.toList_eq]
    exact hr.wf.entries_sorted.1

theorem inv_new : Inv (new : BPlusTree K V) := Or.inl ⟨rfl, rfl⟩

/-- A run of `insert` calls from a tree that satisfies the invariant never fails, keeps the
invariant, and acts on the leaf level as the corresponding run of `insertEntry`. -/
theorem insertAll_spec (ops : List (K × V)) {t : BPlusTree K V} (hi : Inv t) :
    ∃ t1, insertAll t ops = some t1 ∧ Inv t1 ∧
      toList t1 = ops.foldl (fun l kv => insertEntry kv.1 kv.2 l) (toList t) ∧
      (ops ≠ [] → ∃ h r, Rep t1 h r) := by
  induction ops generalizing t with
  | nil => exact ⟨t, rfl, hi, rfl, fun h => absurd rfl h⟩
  | cons op ops ih =>
    obtain ⟨k, v⟩ := op
    obtain ⟨t1, h1, ⟨h, r, hr⟩, h3⟩ := insert_inv hi k v
    obtain ⟨t2, g1, g2, g3, g4⟩ := ih hr.inv
    refine ⟨t2, by simp [insertAll, h1, g1], g2, by rw [g3, h3]; rfl, fun _ => ?_⟩
    cases ops with
    | nil =>
      simp only [insertAll, Option.some.injEq] at g1
      subst g1
      exact ⟨h, r, hr⟩
    | cons op2 ops => exact g4 (by simp)

theorem build_spec (ops : List (K × V)) :
    ∃ t, build ops = some t ∧ Inv t ∧
      toList t = ops.foldl (fun l kv => insertEntry kv.1 kv.2 l) [] ∧
      (ops ≠ [] → ∃ h r, Rep t h r) := by
  have := insertAll_spec ops (inv_new : Inv (new : BPlusTree K V))
  simpa [build, toList, leaves, new] using this

end

/-! ## Claims about the map stored in the tree -/

section
variable [LinearOrder K]

theorem lookup_foldl_of_not_mem (k : K) (ops l : List (K × V)) (hk : k ∉ ops.map Prod.fst) :
    lookup k (ops.foldl (fun l kv => insertEntry kv.1 kv.2 l) l) = lookup k l := by
  induction ops generalizing l with
  | nil => rfl
  | cons op ops ih =>
    simp only [List.map_cons, List.mem_cons, not_or] at hk
    simp only [List.foldl_cons]
    rw [ih _ hk.2, lookup_insertEntry, if_neg hk.1]

theorem lookup_foldl_of_mem (k : K) (v : V) (ops l : List (K × V))
    (hd : (ops.map Prod.fst).Nodup) (hm : (k, v) ∈ ops) :
    lookup k (ops.foldl (fun l kv => insertEntry kv.1 kv.2 l) l) = some v := by
  induction ops generalizing l with
  | nil => simp at hm
  | cons op ops ih =>
    simp only [List.map_cons, List.nodup_cons] at hd
    simp only [List.foldl_cons]
    rcases List.mem_cons.mp hm with rfl | hm
    · rw [lookup_foldl_of_not_mem _ _ _ hd.1, lookup_insertEntry, if_pos rfl]
    · exact ih _ hd.2 hm

theorem mem_keys_foldl (k : K) (ops l : List (K × V)) :
    k ∈ (ops.foldl (fun l kv => insertEntry kv.1 kv.2 l) l).map Prod.fst ↔
      k ∈ ops.map Prod.fst ∨ k ∈ l.map Prod.fst := by
  induction ops generalizing l with
  | nil => simp
  | cons op ops ih =>
    simp only [List.foldl_cons, ih, mem_keys_insertEntry, List.map_cons, List.mem_cons]
    tauto

/-- C1 (round trip): after inserting pairs with pairwise distinct keys one after another into
an empty tree, `search` returns, for every pair of the sequence, the value inserted with its
key. -/
theorem C1_round_trip (ops : List (K × V)) (hd : (ops.map Prod.fst).Nodup) :
    ∃ t, build ops = some t ∧ ∀ kv ∈ ops, search t kv.1 = some (some kv.2) := by
  obtain ⟨t, h1, h2, h3, _⟩ := build_spec ops
  refine ⟨t, h1, fun kv hkv => ?_⟩
  rw [search_spec h2, h3, lookup_foldl_of_mem kv.1 kv.2 ops [] hd hkv]

/-- The round trip on six pairs with distinct keys; the run splits a leaf twice. -/
theorem C1_round_trip_witness :
    (([(10, 1), (20, 2), (5, 3), (6, 4), (7, 5), (1, 6)] : List (Int × Nat)).map Prod.fst).Nodup ∧
      ∃ t, build ([(10, 1), (20, 2), (5, 3), (6, 4), (7, 5), (1, 6)] : List (Int × Nat)) = some t ∧
        ∀ kv ∈ ([(10, 1), (20, 2), (5, 3), (6, 4), (7, 5), (1, 6)] : List (Int × Nat)),
          search t kv.1 = some (some kv.2) :=
  ⟨by decide, C1_round_trip _ (by decide)⟩

/-- C2 (update semantics): on every tree built by inserts, after `insert(k, v1)` followed by
`insert(k, v2)` the leaf level holds exactly one entry with key `k` and `search(k)` returns
`v2`; the second insert leaves the number of stored entries unchanged, and so does the first
one when `k` was already present. -/
theorem C2_update (ops : List (K × V)) (k : K) (v1 v2 : V) :
    ∃ t t1 t2, build ops = some t ∧ insert t k v1 = some t1 ∧ insert t1 k v2 = some t2 ∧
      ((toList t2).map Prod.fst).count k = 1 ∧ search t2 k = some (some v2) ∧
      (toList t2).length = (toList t1).length ∧
      (k ∈ (toList t).map Prod.fst → (toList t1).length = (toList t).length) := by
  obtain ⟨t, h1, h2, _, _⟩ := build_spec ops
  obtain ⟨t1, a1, ⟨_, _, a2⟩, a3⟩ := insert_inv h2 k v1
  obtain ⟨t2, b1, ⟨_, _, b2⟩, b3⟩ := insert_inv a2.inv k v2
  have hk1 : k ∈ (toList t1).map Prod.fst := by rw [a3, mem_keys_insertEntry]; exact Or.inl rfl
  have hk2 : k ∈ (toList t2).map Prod.fst := by rw [b3, mem_keys_insertEntry]; exact Or.inl rfl
  refine ⟨t, t1, t2, h1, a1, b1, ?_, ?_, ?_, fun hk => ?_⟩
  · exact List.count_eq_one_of_mem (b2.inv.sorted.imp ne_of_lt) hk2
  · rw [search_spec b2.inv, b3, lookup_insertEntry, if_pos rfl]
  · rw [b3, length_insertEntry k v2 _ a2.inv.sorted, if_pos hk1]
  · rw [a3, length_insertEntry k v1 _ h2.sorted, if_pos hk]

/-- C3 (found iff inserted): on the tree built by a sequence of inserts, `search(k)` returns
a result, and the result is "not found" exactly when `k` is the key of no insert of the
sequence. -/
theorem C3_found_iff_inserted (ops : List (K × V)) (k : K) :
    ∃ t r, build ops = some t ∧ search t k = some r ∧ (r = none ↔ k ∉ ops.map Prod.fst) := by
  obtain ⟨t, h1, h2, h3, _⟩ := build_spec ops
  refine ⟨t, lookup k (toList t), h1, search_spec h2 k, ?_⟩
  rw [lookup_eq_none_iff, h3, mem_keys_foldl]
  simp

/-- C4 (empty tree): a freshly constructed tree is empty and `search` finds no key in it;
after one insert or more the tree is not empty. -/
theorem C4_empty :
    empty (new : BPlusTree K V) = true ∧ (∀ k : K, search (new : BPlusTree K V) k = some none) ∧
      ∀ (op : K × V) (ops : List (K × V)), ∃ t, build (op :: ops) = some t ∧ empty t = false := by
  refine ⟨rfl, fun k => rfl, fun op ops => ?_⟩
  obtain ⟨t, h1, _, _, h4⟩ := build_spec (op :: ops)
  obtain ⟨h, r, hr⟩ := h4 (by simp)
  exact ⟨t, h1, by simp [empty, hr.root]⟩

end

/-! ## Claims about the shape of the tree -/

section
variable [LinearOrder K]

/-- A node reached in `d` steps from the root of a well-formed subtree of height `h` is the
root of a well-formed subtree of height `h - d`, in a window nested in the one of the
start. -/
theorem WF.reach {H : List (Node K V)} {a d b : Nat} (hr : Reach H a d b) :
    ∀ {h m : Nat} {lo hi : Option K}, WF H h m a lo hi → 1 ≤ m →
      ∃ m1 l u, d ≤ h ∧ 1 ≤ m1 ∧ WF H (h - d) m1 b l u ∧
        (∀ k, LoLe l k → LoLe lo k) ∧ (∀ k, HiGt k u → HiGt k hi) := by
  induction hr with
  | refl a =>
    intro h m lo hi hw hm
    exact ⟨m, lo, hi, Nat.zero_le _, hm, hw, fun _ h => h, fun _ h => h⟩
  | @step a c b d ks par cs ha hc _ ih =>
    intro h m lo hi hw hm
    cases h with
    | zero =>
      obtain ⟨ks1, par1, vs1, nx1, ha1, _⟩ := hw
      rw [ha] at ha1
      simp at ha1
    | succ h =>
      obtain ⟨ks1, par1, cs1, ha1, _, _, _, hch⟩ := hw
      rw [ha] at ha1
      simp only [Option.some.injEq, Node.internal.injEq] at ha1
      obtain ⟨rfl, rfl, rfl⟩ := ha1
      obtain ⟨l, u, hwc, nl, nu⟩ := hch.forall_mem c hc
      obtain ⟨m1, l1, u1, h1, h2, h3, h4, h5⟩ := ih hwc (by omega)
      refine ⟨m1, l1, u1, by omega, h2, ?_, fun k hk => nl k (h4 k hk),
        fun k hk => nu k (h5 k hk)⟩
      rw [show h + 1 - (d + 1) = h - d by omega]
      exact h3

/-- The node at the root of a well-formed subtree: its keys are strictly ascending, inside
the window, at least one and at most `MAX_KEYS`; a leaf is at height 0 and has as many values
as keys, an internal node is above height 0 and has one child more than keys. -/
theorem WF.node_facts {H : List (Node K V)} {h m a : Nat} {lo hi : Option K}
    (hw : WF H h m a lo hi) (hm : 1 ≤ m) {n : Node K V} (hn : H[a]? = some n) :
    n.keys.Pairwise (· < ·) ∧ (∀ x ∈ n.keys, LoLe lo x ∧ HiGt x hi) ∧
      1 ≤ n.keys.length ∧ n.keys.length ≤ MAX_KEYS ∧ (n.isLeaf = true ↔ h = 0) ∧
      (∀ ks par cs, n = Node.internal ks par cs → cs.length = ks.length + 1) := by
  cases h with
  | zero =>
    obtain ⟨ks, par, vs, nx, ha, _, hs, hb, h1, h2, _⟩ := hw
    rw [ha] at hn
    simp only [Option.some.injEq] at hn
    subst hn
    exact ⟨hs, hb, by simp only [Node.keys]; omega, h2, by simp [Node.isLeaf],
      fun _ _ _ hh => by simp at hh⟩
  | succ h =>
    obtain ⟨ks, par, cs, ha, h1, h2, _, hc⟩ := hw
    rw [ha] at hn
    simp only [Option.some.injEq] at hn
    subst hn
    refine ⟨hc.keys_bounds.2, fun x hx => ?_, h1, h2, by simp [Node.isLeaf], ?_⟩
    · exact ⟨(hc.keys_bounds.1 x hx).1.le, (hc.keys_bounds.1 x hx).2⟩
    · intro ks1 par1 cs1 hh
      simp only [Node.internal.injEq] at hh
      obtain ⟨rfl, _, rfl⟩ := hh
      exact hc.length_eq

/-- C5 (balance): on the tree built by a sequence of inserts, all leaves are at the same
depth from the root. -/
theorem C5_balance (ops : List (K × V)) :
    ∃ t, build ops = some t ∧
      ∀ d1 d2 l1 l2 n1 n2, InTree t d1 l1 → t.heap[l1]? = some n1 → n1.isLeaf = true →
        InTree t d2 l2 → t.heap[l2]? = some n2 → n2.isLeaf = true → d1 = d2 := by
  obtain ⟨t, h1, h2, _, _⟩ := build_spec ops
  refine ⟨t, h1, ?_⟩
  rcases h2 with ⟨hroot, _⟩ | ⟨h, r, hr⟩
  · rintro d1 d2 l1 l2 n1 n2 ⟨r, hr, _⟩
    rw [hroot] at hr
    simp at hr
  · have key : ∀ d l n, InTree t d l → t.heap[l]? = some n → n.isLeaf = true → d = h := by
      rintro d l n ⟨r1, hr1, hreach⟩ hn hleaf
      rw [hr.root] at hr1
      simp only [Option.some.injEq] at hr1
      subst hr1
      obtain ⟨m1, l1, u1, hd, hm1, hw, _, _⟩ := WF.reach hreach hr.wf le_rfl
      have := ((hw.node_facts hm1 hn).2.2.2.2.1).mp hleaf
      omega
    intro d1 d2 l1 l2 n1 n2 a1 a2 a3 b1 b2 b3
    rw [key d1 l1 n1 a1 a2 a3, key d2 l2 n2 b1 b2 b3]

/-- C7 (separators): on the tree built by a sequence of inserts, for every internal node and
every index `i` of its keys, every key stored in a node of the subtree of `children[i]` is
less than `keys[i]` and every key stored in a node of the subtree of `children[i+1]` is
greater than or equal to `keys[i]`. -/
theorem C7_separators (ops : List (K × V)) :
    ∃ t, build ops = some t ∧
      ∀ d a ks par cs, InTree t d a → t.heap[a]? = some (Node.internal ks par cs) →
        ∀ i k, ks[i]? = some k →
          (∀ c, cs[i]? = some c → ∀ e b n, Reach t.heap c e b → t.heap[b]? = some n →
            ∀ x ∈ n.keys, x < k) ∧
          (∀ c, cs[i + 1]? = some c → ∀ e b n, Reach t.heap c e b → t.heap[b]? = some n →
            ∀ x ∈ n.keys, k ≤ x) := by
  obtain ⟨t, h1, h2, _, _⟩ := build_spec ops
  refine ⟨t, h1, ?_⟩
  rcases h2 with ⟨hroot, _⟩ | ⟨h, r, hr⟩
  · rintro d a ks par cs ⟨r, hr, _⟩
    rw [hroot] at hr
    simp at hr
  · rintro d a ks par cs ⟨r1, hr1, hreach⟩ ha i k hk
    rw [hr.root] at hr1
    simp only [Option.some.injEq] at hr1
    subst hr1
    obtain ⟨m1, l1, u1, hd, hm1, hw, _, _⟩ := WF.reach hreach hr.wf le_rfl
    generalize h - d = h0 at hw
    cases h0 with
    | zero =>
      obtain ⟨ks1, par1, vs1, nx1, ha1, _⟩ := hw
      rw [ha] at ha1
      simp at ha1
    | succ h0 =>
      obtain ⟨ks1, par1, cs1, ha1, _, _, _, hch⟩ := hw
      rw [ha] at ha1
      simp only [Option.some.injEq, Node.internal.injEq] at ha1
      obtain ⟨rfl, rfl, rfl⟩ := ha1
      obtain ⟨c, c', l, u, hc, hc', hwc, hwc'⟩ := hch.sides i k hk
      constructor
      · intro c0 hc0 e b n hreach0 hn x hx
        rw [hc] at hc0
        simp only [Option.some.injEq] at hc0
        subst hc0
        obtain ⟨m2, l2, u2, _, hm2, hw2, _, nu⟩ := WF.reach hreach0 hwc (by omega)
        exact nu x ((hw2.node_facts hm2 hn).2.1 x hx).2
      · intro c0 hc0 e b n hreach0 hn x hx
        rw [hc'] at hc0
        simp only [Option.some.injEq] at hc0
        subst hc0
        obtain ⟨m2, l2, u2, _, hm2, hw2, nl, _⟩ := WF.reach hreach0 hwc' (by omega)
        exact nl x ((hw2.node_facts hm2 hn).2.1 x hx).1

/-- C8 (occupancy, `ORDER = 4`): on the tree built by a sequence of inserts, no node holds
more than `MAX_KEYS = 3` keys and every node other than the root holds at least
`MIN_KEYS = 1` key. -/
theorem C8_occupancy (ops : List (K × V)) :
    MAX_KEYS = 3 ∧ MIN_KEYS = 1 ∧ ∃ t, build ops = some t ∧
      ∀ d a n, InTree t d a → t.heap[a]? = some n →
        n.keys.length ≤ MAX_KEYS ∧ (t.root ≠ some a → MIN_KEYS ≤ n.keys.length) := by
  obtain ⟨t, h1, h2, _, _⟩ := build_spec ops
  refine ⟨rfl, rfl, t, h1, ?_⟩
  rcases h2 with ⟨hroot, _⟩ | ⟨h, r, hr⟩
  · rintro d a n ⟨r, hr, _⟩
    rw [hroot] at hr
    simp at hr
  · rintro d a n ⟨r1, hr1, hreach⟩ hn
    rw [hr.root] at hr1
    simp only [Option.some.injEq] at hr1
    subst hr1
    obtain ⟨m1, l1, u1, hd, hm1, hw, _, _⟩ := WF.reach hreach hr.wf le_rfl
    obtain ⟨_, _, g1, g2, _⟩ := hw.node_facts hm1 hn
    exact ⟨g2, fun _ => g1⟩

/-- C9 (child count): on the tree built by a sequence of inserts, every internal node with
`k` keys has exactly `k + 1` children, and `k >= 1`. -/
theorem C9_child_count (ops : List (K × V)) :
    ∃ t, build ops = some t ∧
      ∀ d a ks par cs, InTree t d a → t.heap[a]? = some (Node.internal ks par cs) →
        cs.length = ks.length + 1 ∧ 1 ≤ ks.length := by
  obtain ⟨t, h1, h2, _, _⟩ := build_spec ops
  refine ⟨t, h1, ?_⟩
  rcases h2 with ⟨hroot, _⟩ | ⟨h, r, hr⟩
  · rintro d a ks par cs ⟨r, hr, _⟩
    rw [hroot] at hr
    simp at hr
  · rintro d a ks par cs ⟨r1, hr1, hreach⟩ hn
    rw [hr.root] at hr1
    simp only [Option.some.injEq] at hr1
    subst hr1
    obtain ⟨m1, l1, u1, hd, hm1, hw, _, _⟩ := WF.reach hreach hr.wf le_rfl
    obtain ⟨_, _, g1, _, _, g3⟩ := hw.node_facts hm1 hn
    exact ⟨g3 ks par cs rfl, g1⟩

end

/-! ## The leaf chain of the whole tree -/

theorem length_le_of_nodup_lt {L : List Nat} {n : Nat} (hn : L.Nodup) (hlt : ∀ x ∈ L, x < n) :
    L.length ≤ n := by
  have h1 : L.toFinset ⊆ Finset.range n := fun x hx =>
    Finset.mem_range.mpr (hlt x (List.mem_toFinset.mp hx))
  have h2 := Finset.card_le_card h1
  rwa [List.toFinset_card_of_nodup hn, Finset.card_range] at h2

/-- Following `next` along linked leaves collects them. -/
theorem chainFrom_linked {H : List (Node K V)} {L : List Nat} (hl : Linked H L none) :
    ∀ fuel, L.length ≤ fuel → chainFrom H fuel (headOr L none) = some L := by
  induction L with
  | nil =>
    intro fuel _
    cases fuel <;> rfl
  | cons l L ih =>
    intro fuel hf
    rw [Linked.cons] at hl
    cases fuel with
    | zero => simp at hf
    | succ f =>
      have hnx := hl.1
      unfold nextAt at hnx
      cases hn : H[l]? with
      | none => simp [hn] at hnx
      | some n =>
        cases n with
        | internal ks par cs => simp [hn, Node.next] at hnx
        | leaf ks par vs nx =>
          simp [hn, Node.next] at hnx
          subst hnx
          rw [show headOr (l :: L) none = some l from rfl]
          simp only [chainFrom, hn]
          rw [ih hl.2 f (by simpa using hf)]
          rfl

section
variable [LinearOrder K]

/-- Children of a chain have windows in ascending order. -/
theorem Chain.pairwise {P : Nat → Option K → Option K → Prop} {lo hi : Option K}
    {ks : List K} {cs : List Nat} (hc : Chain P lo ks cs hi) :
    cs.Pairwise fun x y => ∃ lx ux ly uy, P x lx (some ux) ∧ P y (some ly) uy ∧ ux ≤ ly := by
  induction ks generalizing lo cs with
  | nil =>
    match cs, hc with
    | [c], _ => simp
  | cons k ks ih =>
    match cs, hc with
    | c :: cs, ⟨_, _, h3, h4⟩ =>
      refine List.pairwise_cons.mpr ⟨fun y hy => ?_, ih h4⟩
      obtain ⟨l, u, hP, hl⟩ := h4.right_of y hy
      exact ⟨lo, k, l, u, h3, hP, hl⟩

theorem WF.leaves_nodup {H : List (Node K V)} {h m a : Nat} {lo hi : Option K}
    (hw : WF H h m a lo hi) : (leavesOf H h a).Nodup := by
  induction h generalizing m a lo hi with
  | zero => simp [leavesOf]
  | succ h ih =>
    obtain ⟨ks, par, cs, ha, _, _, _, hc⟩ := hw
    rw [leavesOf_succ h ha, List.nodup_flatMap]
    refine ⟨fun c hcm => ?_, hc.pairwise.imp ?_⟩
    · obtain ⟨l, u, hwc, _⟩ := hc.forall_mem c hcm
      exact ih hwc
    · rintro x y ⟨lx, ux, ly, uy, hx, hy, hle⟩
      intro z hzx hzy
      exact WF.disjoint hx hy (by omega) (by omega)
        (fun k _ h2 h3 _ => absurd (lt_of_lt_of_le h2 (le_trans hle h3)) (lt_irrefl _))
        (leavesOf_subset _ _ _ z hzx) (leavesOf_subset _ _ _ z hzy)

theorem WF.leaf_of_mem_leavesOf {H : List (Node K V)} {h m a : Nat} {lo hi : Option K}
    (hw : WF H h m a lo hi) (hm : 1 ≤ m) {x : Nat} (hx : x ∈ leavesOf H h a) :
    ∃ m1 l u, 1 ≤ m1 ∧ WF H 0 m1 x l u := by
  induction h generalizing m a lo hi with
  | zero =>
    simp only [leavesOf, List.mem_singleton] at hx
    subst hx
    exact ⟨m, lo, hi, hm, hw⟩
  | succ h ih =>
    obtain ⟨ks, par, cs, ha, _, _, _, hc⟩ := hw
    rw [leavesOf_succ h ha, List.mem_flatMap] at hx
    obtain ⟨c, hcm, hx⟩ := hx
    obtain ⟨l, u, hwc, _⟩ := hc.forall_mem c hcm
    exact ih hwc (by omega) hx

theorem WF.leftmostFrom_eq {H : List (Node K V)} {h m a : Nat} {lo hi : Option K}
    (hw : WF H h m a lo hi) (e : Nat) :
    leftmostFrom H (h + 1 + e) a = (leavesOf H h a).head? := by
  induction h generalizing m a lo hi with
  | zero =>
    obtain ⟨ks, par, vs, nx, ha, _⟩ := hw
    rw [show 0 + 1 + e = e + 1 by omega]
    simp [leftmostFrom, leavesOf, ha]
  | succ h ih =>
    obtain ⟨ks, par, cs, ha, _, _, _, hc⟩ := hw
    rw [show h + 1 + 1 + e = (h + 1 + e) + 1 by omega, leavesOf_succ h ha]
    cases cs with
    | nil => have := hc.length_eq; simp at this
    | cons c cs =>
      obtain ⟨l, u, hwc, _⟩ := hc.forall_mem c (List.mem_cons_self _ _)
      simp only [leftmostFrom, ha, List.flatMap_cons]
      rw [ih hwc, List.head?_append_of_ne_nil _ hwc.leavesOf_ne_nil]

/-- A leaf reached from the root of a well-formed subtree is one of its leaves. -/
theorem WF.mem_leavesOf_of_reach {H : List (Node K V)} {a d b : Nat} (hr : Reach H a d b) :
    ∀ {h m : Nat} {lo hi : Option K} {n : Node K V}, WF H h m a lo hi → H[b]? = some n →
      n.isLeaf = true → b ∈ leavesOf H h a := by
  induction hr with
  | refl a =>
    intro h m lo hi n hw hn hleaf
    cases h with
    | zero => simp [leavesOf]
    | succ h =>
      obtain ⟨ks, par, cs, ha, _⟩ := hw
      rw [ha] at hn
      simp only [Option.some.injEq] at hn
      subst hn
      simp [Node.isLeaf] at hleaf
  | @step a c b d ks par cs ha hc _ ih =>
    intro h m lo hi n hw hn hleaf
    cases h with
    | zero =>
      obtain ⟨ks1, par1, vs1, nx1, ha1, _⟩ := hw
      rw [ha] at ha1
      simp at ha1
    | succ h =>
      obtain ⟨ks1, par1, cs1, ha1, _, _, _, hch⟩ := hw
      rw [ha] at ha1
      simp only [Option.some.injEq, Node.internal.injEq] at ha1
      obtain ⟨rfl, rfl, rfl⟩ := ha1
      obtain ⟨l, u, hwc, _⟩ := hch.forall_mem c hc
      rw [leavesOf_succ h ha, List.mem_flatMap]
      exact ⟨c, hc, ih hwc hn hleaf⟩

theorem WF.keysAt_leaf {H : List (Node K V)} {m a : Nat} {lo hi : Option K}
    (hw : WF H 0 m a lo hi) : keysAt H a = (entriesAt H a).map Prod.fst := by
  obtain ⟨ks, par, vs, nx, ha, hlen, _⟩ := hw
  simp only [keysAt, entriesAt, ha, Node.keys]
  exact (List.map_fst_zip _ _ (le_of_eq hlen.symm)).symm

/-- C6 (ordering): on the tree built by a sequence of inserts, the keys inside every node are
strictly ascending; following the `next` links from the leftmost leaf visits the leaves of
the tree, all of them, in left-to-right order; and the keys met on the way are strictly
ascending (so without duplicates). -/
theorem C6_ordering (ops : List (K × V)) :
    ∃ t, build ops = some t ∧
      (∀ d a n, InTree t d a → t.heap[a]? = some n → n.keys.Sorted (· < ·)) ∧
      leafChain t = some (leaves t) ∧
      (∀ d l n, InTree t d l → t.heap[l]? = some n → n.isLeaf = true → l ∈ leaves t) ∧
      ((leaves t).flatMap (keysAt t.heap)).Sorted (· < ·) := by
  obtain ⟨t, h1, h2, _, _⟩ := build_spec ops
  refine ⟨t, h1, ?_⟩
  have hsorted := h2.sorted
  rcases h2 with ⟨hroot, _⟩ | ⟨h, r, hr⟩
  · refine ⟨?_, by simp [leafChain, leaves, hroot], ?_, by simp [leaves, hroot, List.Sorted]⟩
    · rintro d a n ⟨r, hr, _⟩
      rw [hroot] at hr
      simp at hr
    · rintro d a n ⟨r, hr, _⟩
      rw [hroot] at hr
      simp at hr
  · have hlt := hr.ht
    refine ⟨?_, ?_, ?_, ?_⟩
    · rintro d a n ⟨r1, hr1, hreach⟩ hn
      rw [hr.root] at hr1
      simp only [Option.some.injEq] at hr1
      subst hr1
      obtain ⟨m1, l1, u1, hd, hm1, hw, _, _⟩ := WF.reach hreach hr.wf le_rfl
      exact (hw.node_facts hm1 hn).1
    · have hne := hr.wf.leavesOf_ne_nil
      have hlen : (leavesOf t.heap h r).length ≤ t.heap.length :=
        length_le_of_nodup_lt hr.wf.leaves_nodup fun x hx =>
          hr.wf.lt_length x (leavesOf_subset _ _ _ x hx)
      have hchain := chainFrom_linked hr.linked _ hlen
      simp only [leafChain, hr.root, hr.leaves_eq]
      rw [show t.heap.length = h + 1 + (t.heap.length - h - 1) by omega,
        hr.wf.leftmostFrom_eq]
      rw [show h + 1 + (t.heap.length - h - 1) = t.heap.length by omega]
      cases hL : leavesOf t.heap h r with
      | nil => exact absurd hL hne
      | cons l L =>
        rw [hL] at hchain
        simpa [headOr] using hchain
    · rintro d l n ⟨r1, hr1, hreach⟩ hn hleaf
      rw [hr.root] at hr1
      simp only [Option.some.injEq] at hr1
      subst hr1
      rw [hr.leaves_eq]
      exact WF.mem_leavesOf_of_reach hreach hr.wf hn hleaf
    · have : (leaves t).flatMap (keysAt t.heap) = (toList t).map Prod.fst := by
        rw [toList, map_fst_flatMap]
        refine flatMap_congr_mem fun l hl => ?_
        rw [hr.leaves_eq] at hl
        obtain ⟨m1, l1, u1, _, hw⟩ := hr.wf.leaf_of_mem_leavesOf le_rfl hl
        exact hw.keysAt_leaf
      rw [this]
      exact hsorted

end

/-- C10 (scenario, `ORDER = 4`): inserting the keys 10, 20, 5 into an empty tree gives one
root leaf with keys `[5, 10, 20]`; inserting 6 then gives a root internal node with keys
`[10]` over the two leaves `[5, 6]` and `[10, 20]`, in that order; on that tree the searches
for 6 and 10 return the values inserted with them and the search for 99 finds nothing. -/
theorem C10_scenario (a b c d : V) :
    build [((10 : Int), a), (20, b), (5, c)] =
        some ⟨some 0, [Node.leaf [5, 10, 20] none [c, a, b] none]⟩ ∧
      ∃ t, build [((10 : Int), a), (20, b), (5, c), (6, d)] = some t ∧
        t = ⟨some 2, [Node.leaf [5, 6] (some 2) [c, d] (some 1),
          Node.leaf [10, 20] (some 2) [a, b] none, Node.internal [10] none [0, 1]]⟩ ∧
        search t 6 = some (some d) ∧ search t 10 = some (some a) ∧ search t 99 = some none :=
  ⟨rfl, _, rfl, rfl, rfl, rfl, rfl⟩

/-- The nodes of the two-level tree obtained from the keys 10, 20, 5, 6: the root at depth 0
and its two leaves at depth 1. -/
theorem inTree_scenario (a b c d : V) :
    ∃ t, build [((10 : Int), a), (20, b), (5, c), (6, d)] = some t ∧
      InTree t 0 2 ∧ InTree t 1 0 ∧ InTree t 1 1 :=
  ⟨_, rfl, ⟨2, rfl, Reach.refl 2⟩,
    ⟨2, rfl, Reach.step (show _ = some (Node.internal [10] none [0, 1]) from rfl) (by simp)
      (Reach.refl 0)⟩,
    ⟨2, rfl, Reach.step (show _ = some (Node.internal [10] none [0, 1]) from rfl) (by simp)
      (Reach.refl 1)⟩⟩

/-! ## Claims about one insertion -/

section
variable [LinearOrder K]

/-- C11 (insert does not disturb other keys): on every tree built by inserts, for distinct
keys `k` and `k1` and every value `v`, the call `insert(k, v)` returns, and `search(k1)` on
the tree after it equals `search(k1)` on the tree before. -/
theorem C11_other_keys (ops : List (K × V)) (k k1 : K) (v : V) (hne : k ≠ k1) :
    ∃ t t1, build ops = some t ∧ insert t k v = some t1 ∧ search t1 k1 = search t k1 := by
  obtain ⟨t, h1, h2, _, _⟩ := build_spec ops
  obtain ⟨t1, a1, ⟨_, _, a2⟩, a3⟩ := insert_inv h2 k v
  refine ⟨t, t1, h1, a1, ?_⟩
  rw [search_spec a2.inv, search_spec h2, a3, lookup_insertEntry, if_neg (Ne.symm hne)]

/-- The insert of the key 7 into the leaf `[5, 6, 8]` splits it; the search for the key 6
gives the same result before and after. -/
theorem C11_other_keys_witness :
    (7 : Int) ≠ 6 ∧
      ∃ t t1, build ([(10, 1), (20, 2), (5, 3), (6, 4), (8, 5)] : List (Int × Nat)) = some t ∧
        insert t 7 9 = some t1 ∧ search t1 6 = search t 6 :=
  ⟨by decide, C11_other_keys _ 7 6 9 (by decide)⟩

/-- C17 (parent back-references): on the tree built by a sequence of inserts, the parent
reference of the root is null, and every child of every internal node `P` of the tree has
`P` as its parent reference. -/
theorem C17_parent_refs (ops : List (K × V)) :
    ∃ t, build ops = some t ∧
      (∀ r, t.root = some r → parentAt t.heap r = some none) ∧
      ∀ d P ks par cs, InTree t d P → t.heap[P]? = some (Node.internal ks par cs) →
        ∀ c ∈ cs, parentAt t.heap c = some (some P) := by
  obtain ⟨t, h1, h2, _, _⟩ := build_spec ops
  refine ⟨t, h1, ?_⟩
  rcases h2 with ⟨hroot, _⟩ | ⟨h, r, hr⟩
  · constructor
    · intro r hr
      rw [hroot] at hr
      simp at hr
    · rintro d a ks par cs ⟨r, hr, _⟩
      rw [hroot] at hr
      simp at hr
  · constructor
    · intro r1 hr1
      rw [hr.root] at hr1
      simp only [Option.some.injEq] at hr1
      subst hr1
      exact hr.par
    · rintro d a ks par cs ⟨r1, hr1, hreach⟩ ha c hc
      rw [hr.root] at hr1
      simp only [Option.some.injEq] at hr1
      subst hr1
      obtain ⟨m1, l1, u1, hd, hm1, hw, _, _⟩ := WF.reach hreach hr.wf le_rfl
      generalize h - d = h0 at hw
      cases h0 with
      | zero =>
        obtain ⟨ks1, par1, vs1, nx1, ha1, _⟩ := hw
        rw [ha] at ha1
        simp at ha1
      | succ h0 =>
        obtain ⟨ks1, par1, cs1, ha1, _, _, hp, _⟩ := hw
        rw [ha] at ha1
        simp only [Option.some.injEq, Node.internal.injEq] at ha1
        obtain ⟨rfl, rfl, rfl⟩ := ha1
        exact hp c hc

end

/-! ## Claims about the two splits -/

theorem setParentAt_leaf {H H1 : List (Node K V)} {a : Nat} {p : Ptr}
    (h : setParentAt H a p = some H1) {x : Nat} {ks : List K} {par : Ptr} {vs : List V} {nx : Ptr}
    (hx : H[x]? = some (Node.leaf ks par vs nx)) :
    ∃ q, H1[x]? = some (Node.leaf ks q vs nx) := by
  simp only [setParentAt, Option.map_eq_some'] at h
  obtain ⟨n, hn, rfl⟩ := h
  by_cases hxa : x = a
  · subst hxa
    rw [hx] at hn
    simp only [Option.some.injEq] at hn
    subst hn
    exact ⟨p, by rw [get_set_self _ (List.getElem?_eq_some_iff.mp hx).1]; rfl⟩
  · exact ⟨par, by rw [get_set_ne _ hxa, hx]⟩

theorem setParents_leaf (p : Ptr) (L : List Nat) : ∀ {H H1 : List (Node K V)},
    setParents p L H = some H1 → ∀ {x : Nat} {ks : List K} {par : Ptr} {vs : List V} {nx : Ptr},
      H[x]? = some (Node.leaf ks par vs nx) → ∃ q, H1[x]? = some (Node.leaf ks q vs nx) := by
  induction L with
  | nil =>
    intro H H1 h x ks par vs nx hx
    simp only [setParents, Option.some.injEq] at h
    subst h
    exact ⟨par, hx⟩
  | cons c L ih =>
    intro H H1 h x ks par vs nx hx
    simp only [setParents, Option.bind_eq_some] at h
    obtain ⟨H0, h0, h1⟩ := h
    obtain ⟨q, hq⟩ := setParentAt_leaf h0 hx
    exact ih h1 hq

/-- Method `splitInternal` changes no leaf but for its `parent` field, when the call that
ends it does not. -/
theorem splitInternal_leaf {up : BPlusTree K V → Nat → K → Nat → Option (BPlusTree K V)}
    (hup : ∀ t a k b t1, up t a k b = some t1 →
      ∀ (x : Nat) (ks : List K) (par : Ptr) (vs : List V) (nx : Ptr),
        t.heap[x]? = some (Node.leaf ks par vs nx) →
          ∃ q, t1.heap[x]? = some (Node.leaf ks q vs nx))
    {t t1 : BPlusTree K V} {node : Nat} (h : splitInternal up t node = some t1)
    {x : Nat} {ks : List K} {par : Ptr} {vs : List V} {nx : Ptr}
    (hx : t.heap[x]? = some (Node.leaf ks par vs nx)) :
    ∃ q, t1.heap[x]? = some (Node.leaf ks q vs nx) := by
  unfold splitInternal at h
  split at h
  · rename_i ks0 par0 cs0 hnode
    simp only at h
    split at h
    · exact absurd h (by simp)
    · rename_i midKey hmid
      split at h
      · split at h
        · exact absurd h (by simp)
        · rename_i heap2 hsp
          split at h
          · rename_i ks2 par2 cs2 hnode2
            have hxl : x < t.heap.length := (List.getElem?_eq_some_iff.mp hx).1
            have h1 : (t.heap ++ [Node.internal (ks0.drop (ks0.length / 2 + 1)) none
                (cs0.drop (ks0.length / 2 + 1))])[x]? = some (Node.leaf ks par vs nx) := by
              rw [get_append_old _ hxl, hx]
            obtain ⟨q, hq⟩ := setParents_leaf _ _ hsp h1
            have hxn : x ≠ node := by
              rintro rfl
              rw [hq] at hnode2
              simp at hnode2
            obtain ⟨q1, hq1⟩ := hup _ _ _ _ _ h x ks q vs nx (by
              show (heap2.set node _)[x]? = _
              rw [get_set_ne _ hxn, hq])
            exact ⟨q1, hq1⟩
          · exact absurd h (by simp)
      · exact absurd h (by simp)
  · exact absurd h (by simp)

section
variable [LinearOrder K]

/-- Method `insertIntoParent` changes no leaf but for its `parent` field. -/
theorem insertIntoParent_leaf (fuel : Nat) : ∀ {t t1 : BPlusTree K V} {l r : Nat} {k : K},
    insertIntoParent fuel t l k r = some t1 →
    ∀ (x : Nat) (ks : List K) (par : Ptr) (vs : List V) (nx : Ptr),
      t.heap[x]? = some (Node.leaf ks par vs nx) →
        ∃ q, t1.heap[x]? = some (Node.leaf ks q vs nx) := by
  induction fuel with
  | zero =>
    intro t t1 l r k h
    simp [insertIntoParent] at h
  | succ fuel ih =>
    intro t t1 l r k h x ks par vs nx hx
    have hxl : x < t.heap.length := (List.getElem?_eq_some_iff.mp hx).1
    rw [insertIntoParent] at h
    split at h
    · simp only at h
      split at h
      · exact absurd h (by simp)
      · rename_i heap2 h2
        split at h
        · exact absurd h (by simp)
        · rename_i heap3 h3
          simp only [Option.some.injEq] at h
          subst h
          have h1 : (t.heap ++ [Node.internal [k] none [l, r]])[x]? =
              some (Node.leaf ks par vs nx) := by
            rw [get_append_old _ hxl, hx]
          obtain ⟨q, hq⟩ := setParentAt_leaf h2 h1
          exact setParentAt_leaf h3 hq
    · split at h
      · exact absurd h (by simp)
      · rename_i ln hln
        split at h
        · exact absurd h (by simp)
        · rename_i parent hpar
          split at h
          · rename_i ks0 par0 cs0 hP
            simp only at h
            split at h
            · have hxP : x ≠ parent := by
                rintro rfl
                rw [hx] at hP
                simp at hP
              split at h
              · exact absurd h (by simp)
              · rename_i heap2 h2
                obtain ⟨q, hq⟩ := setParentAt_leaf h2
                  (show (t.heap.set parent _)[x]? = some (Node.leaf ks par vs nx) by
                    rw [get_set_ne _ hxP, hx])
                split at h
                · exact splitInternal_leaf (fun t a k b t1 hh => ih hh) h hq
                · simp only [Option.some.injEq] at h
                  subst h
                  exact ⟨q, hq⟩
            · exact absurd h (by simp)
          · exact absurd h (by simp)

/-- C13 (leaf split shape): `splitLeaf` on a leaf that holds `n = MAX_KEYS + 1` strictly
ascending keys and `n` values computes `mid = ceil(n / 2)`, allocates a new leaf with the
keys and values of the indices `[mid, n)` and the old `next`, truncates the leaf to the
indices `[0, mid)` and links it to the new leaf, so that left and right concatenated are the
original sequences; it then calls `insertIntoParent` with the first key of the new leaf,
which is still in the new leaf, is its smallest key and is greater than every key of the
left leaf; whatever that call returns holds the two leaves with these keys and values. -/
theorem C13_leaf_split (fuel : Nat) (t : BPlusTree K V) (leaf : Nat) (ks : List K)
    (par : Ptr) (vs : List V) (nx : Ptr)
    (hleaf : t.heap[leaf]? = some (Node.leaf ks par vs nx))
    (hn : ks.length = MAX_KEYS + 1) (hv : vs.length = ks.length)
    (hs : ks.Pairwise (· < ·)) :
    ∃ mid s heap2, ks.length ≤ 2 * mid ∧ 2 * mid < ks.length + 2 ∧
      splitLeaf fuel t leaf = insertIntoParent fuel ⟨t.root, heap2⟩ leaf s t.heap.length ∧
      heap2.length = t.heap.length + 1 ∧
      heap2[leaf]? = some (Node.leaf (ks.take mid) par (vs.take mid) (some t.heap.length)) ∧
      heap2[t.heap.length]? = some (Node.leaf (ks.drop mid) none (vs.drop mid) nx) ∧
      (∀ x, x ≠ leaf → x < t.heap.length → heap2[x]? = t.heap[x]?) ∧
      ks.take mid ++ ks.drop mid = ks ∧ vs.take mid ++ vs.drop mid = vs ∧
      (ks.take mid).length = mid ∧ (vs.take mid).length = mid ∧
      (ks.drop mid).length = ks.length - mid ∧ (vs.drop mid).length = ks.length - mid ∧
      (ks.drop mid)[0]? = some s ∧ s ∈ ks.drop mid ∧ (∀ x ∈ ks.drop mid, s ≤ x) ∧
      (∀ x ∈ ks.take mid, x < s) ∧
      ∀ t1, splitLeaf fuel t leaf = some t1 →
        (∃ q, t1.heap[leaf]? =
          some (Node.leaf (ks.take mid) q (vs.take mid) (some t.heap.length))) ∧
        ∃ q, t1.heap[t.heap.length]? = some (Node.leaf (ks.drop mid) q (vs.drop mid) nx) := by
  have hll : leaf < t.heap.length := (List.getElem?_eq_some_iff.mp hleaf).1
  obtain ⟨k0, k1, k2, k3, rfl⟩ := exists_of_length_four hn
  obtain ⟨v0, v1, v2, v3, rfl⟩ := exists_of_length_four (hv.trans hn)
  have hlt : k0 < k1 ∧ k1 < k2 ∧ k2 < k3 := by
    simp only [List.pairwise_cons, List.mem_cons, List.mem_singleton, forall_eq_or_imp,
      forall_eq] at hs
    exact ⟨hs.1.1, hs.2.1.1, hs.2.2.1.1⟩
  have hcall : splitLeaf fuel t leaf = insertIntoParent fuel
      ⟨t.root, (t.heap ++ [Node.leaf [k2, k3] none [v2, v3] nx]).set leaf
        (Node.leaf [k0, k1] par [v0, v1] (some t.heap.length))⟩ leaf k2 t.heap.length := by
    simp [splitLeaf, hleaf]
  have hcl : ((t.heap ++ [Node.leaf [k2, k3] none [v2, v3] nx]).set leaf
      (Node.leaf [k0, k1] par [v0, v1] (some t.heap.length)))[leaf]? =
        some (Node.leaf [k0, k1] par [v0, v1] (some t.heap.length)) :=
    get_set_self _ (by simp; omega)
  have hcr : ((t.heap ++ [Node.leaf [k2, k3] none [v2, v3] nx]).set leaf
      (Node.leaf [k0, k1] par [v0, v1] (some t.heap.length)))[t.heap.length]? =
        some (Node.leaf [k2, k3] none [v2, v3] nx) := by
    rw [get_set_ne _ (by omega), get_append_new]
  refine ⟨2, k2, _, by simp, by simp, hcall, by simp, hcl, hcr, ?_, rfl, rfl, rfl, rfl, rfl,
    rfl, rfl, by simp, ?_, ?_, ?_⟩
  · intro x hx hxl
    rw [get_set_ne _ hx, get_append_old _ hxl]
  · intro x hx
    simp only [List.drop_succ_cons, List.drop_zero, List.mem_cons, List.mem_singleton,
      List.not_mem_nil, or_false] at hx
    rcases hx with rfl | rfl
    · exact le_rfl
    · exact hlt.2.2.le
  · intro x hx
    simp only [List.take_succ_cons, List.take_zero, List.mem_cons, List.mem_singleton,
      List.not_mem_nil, or_false] at hx
    rcases hx with rfl | rfl
    · exact hlt.1.trans hlt.2.1
    · exact hlt.2.1
  · intro t1 ht1
    rw [hcall] at ht1
    exact ⟨insertIntoParent_leaf fuel ht1 _ _ _ _ _ hcl, insertIntoParent_leaf fuel ht1 _ _ _ _ _ hcr⟩

/-- The leaf split of the scenario: the root leaf `[5, 6, 10, 20]` is split into `[5, 6]` and
`[10, 20]`. -/
theorem C13_leaf_split_witness :
    overfullLeaf.heap[0]? = some (Node.leaf [5, 6, 10, 20] none [3, 4, 1, 2] none) ∧
      ([5, 6, 10, 20] : List Int).length = MAX_KEYS + 1 ∧
      ([3, 4, 1, 2] : List Nat).length = ([5, 6, 10, 20] : List Int).length ∧
      ([5, 6, 10, 20] : List Int).Pairwise (· < ·) ∧
      ∃ mid s heap2, ([5, 6, 10, 20] : List Int).length ≤ 2 * mid ∧
        2 * mid < ([5, 6, 10, 20] : List Int).length + 2 ∧
        splitLeaf 1 overfullLeaf 0 =
          insertIntoParent 1 ⟨overfullLeaf.root, heap2⟩ 0 s overfullLeaf.heap.length ∧
        heap2.length = overfullLeaf.heap.length + 1 ∧
        heap2[0]? = some (Node.leaf (([5, 6, 10, 20] : List Int).take mid) none
          (([3, 4, 1, 2] : List Nat).take mid) (some overfullLeaf.heap.length)) ∧
        heap2[overfullLeaf.heap.length]? =
          some (Node.leaf (([5, 6, 10, 20] : List Int).drop mid) none
            (([3, 4, 1, 2] : List Nat).drop mid) none) ∧
        (∀ x, x ≠ 0 → x < overfullLeaf.heap.length → heap2[x]? = overfullLeaf.heap[x]?) ∧
        ([5, 6, 10, 20] : List Int).take mid ++ ([5, 6, 10, 20] : List Int).drop mid =
          [5, 6, 10, 20] ∧
        ([3, 4, 1, 2] : List Nat).take mid ++ ([3, 4, 1, 2] : List Nat).drop mid = [3, 4, 1, 2] ∧
        (([5, 6, 10, 20] : List Int).take mid).length = mid ∧
        (([3, 4, 1, 2] : List Nat).take mid).length = mid ∧
        (([5, 6, 10, 20] : List Int).drop mid).length = ([5, 6, 10, 20] : List Int).length - mid ∧
        (([3, 4, 1, 2] : List Nat).drop mid).length = ([5, 6, 10, 20] : List Int).length - mid ∧
        (([5, 6, 10, 20] : List Int).drop mid)[0]? = some s ∧
        s ∈ ([5, 6, 10, 20] : List Int).drop mid ∧
        (∀ x ∈ ([5, 6, 10, 20] : List Int).drop mid, s ≤ x) ∧
        (∀ x ∈ ([5, 6, 10, 20] : List Int).take mid, x < s) ∧
        ∀ t1, splitLeaf 1 overfullLeaf 0 = some t1 →
          (∃ q, t1.heap[0]? = some (Node.leaf (([5, 6, 10, 20] : List Int).take mid) q
            (([3, 4, 1, 2] : List Nat).take mid) (some overfullLeaf.heap.length))) ∧
          ∃ q, t1.heap[overfullLeaf.heap.length]? =
            some (Node.leaf (([5, 6, 10, 20] : List Int).drop mid) q
              (([3, 4, 1, 2] : List Nat).drop mid) none) :=
  ⟨by simp [overfullLeaf], rfl, rfl, by decide,
    C13_leaf_split 1 overfullLeaf 0 [5, 6, 10, 20] none [3, 4, 1, 2] none
      (by simp [overfullLeaf]) rfl rfl (by decide)⟩

/-- C14 (internal split shape): `splitInternal` on an internal node that holds
`n = MAX_KEYS + 1` keys and `n + 1` allocated children computes `mid = n / 2`, allocates a
new node with the keys of the indices `(mid, n)` and the children of the indices
`[mid + 1, n]`, sets the `parent` of these children to the new node, truncates the node to
the keys `[0, mid)` and the children `[0, mid]`, and calls `insertIntoParent` with the key
of index `mid`; the keys of left, the promoted key and the keys of right concatenated are the
original keys, the children of left and right concatenated are the original children, and
the promoted key is a key of neither node when the keys are strictly ascending. -/
theorem C14_internal_split (up : BPlusTree K V → Nat → K → Nat → Option (BPlusTree K V))
    (t : BPlusTree K V) (node : Nat) (ks : List K) (par : Ptr) (cs : List Nat)
    (hnode : t.heap[node]? = some (Node.internal ks par cs))
    (hn : ks.length = MAX_KEYS + 1) (hc : cs.length = ks.length + 1)
    (hcs : ∀ c ∈ cs, c < t.heap.length) :
    ∃ mid s heap3 par2, mid = ks.length / 2 ∧ ks[mid]? = some s ∧
      splitInternal up t node = up ⟨t.root, heap3⟩ node s t.heap.length ∧
      heap3.length = t.heap.length + 1 ∧
      heap3[node]? = some (Node.internal (ks.take mid) par2 (cs.take (mid + 1))) ∧
      (node ∉ cs → par2 = par) ∧
      heap3[t.heap.length]? =
        some (Node.internal (ks.drop (mid + 1)) none (cs.drop (mid + 1))) ∧
      (∀ c ∈ cs.drop (mid + 1), parentAt heap3 c = some (some t.heap.length)) ∧
      (∀ x, x ≠ node → x < t.heap.length → SameMod t.heap heap3 x) ∧
      (∀ x, x ≠ node → x ∉ cs.drop (mid + 1) → x < t.heap.length → heap3[x]? = t.heap[x]?) ∧
      ks.take mid ++ s :: ks.drop (mid + 1) = ks ∧
      cs.take (mid + 1) ++ cs.drop (mid + 1) = cs ∧
      (ks.take mid).length = mid ∧ (cs.take (mid + 1)).length = mid + 1 ∧
      (ks.drop (mid + 1)).length = ks.length - mid - 1 ∧
      (cs.drop (mid + 1)).length = ks.length - mid ∧
      (ks.Pairwise (· < ·) → s ∉ ks.take mid ∧ s ∉ ks.drop (mid + 1)) := by
  have hnl : node < t.heap.length := (List.getElem?_eq_some_iff.mp hnode).1
  obtain ⟨k0, k1, k2, k3, rfl⟩ := exists_of_length_four hn
  obtain ⟨c0, c1, c2, c3, c4, rfl⟩ : ∃ c0 c1 c2 c3 c4, cs = [c0, c1, c2, c3, c4] := by
    match cs, hc with
    | [c0, c1, c2, c3, c4], _ => exact ⟨c0, c1, c2, c3, c4, rfl⟩
  obtain ⟨H2, e1, e2, e3, e4, e5⟩ := setParents_spec (some t.heap.length) [c3, c4]
    (t.heap ++ [Node.internal [k3] none [c3, c4]]) (fun x hx => by
      have := hcs x (by
        simp only [List.mem_cons, List.mem_singleton, List.not_mem_nil, or_false] at hx ⊢
        tauto)
      simp only [List.length_append, List.length_singleton]
      omega)
  have hsm : SameMod (t.heap ++ [Node.internal [k3] none [c3, c4]]) H2 node := e3 node
  have hold : (t.heap ++ [Node.internal [k3] none [c3, c4]])[node]? =
      some (Node.internal [k0, k1, k2, k3] par [c0, c1, c2, c3, c4]) := by
    rw [get_append_old _ hnl, hnode]
  obtain ⟨par2, hp2⟩ : ∃ par2, H2[node]? =
      some (Node.internal [k0, k1, k2, k3] par2 [c0, c1, c2, c3, c4]) := by
    unfold SameMod at hsm
    rw [hold] at hsm
    cases hh : H2[node]? with
    | none => rw [hh] at hsm; simp at hsm
    | some n =>
      rw [hh] at hsm
      cases n with
      | leaf a b c d => simp [Node.setParent] at hsm
      | internal a b c =>
        simp only [Option.map_some', Node.setParent, Option.some.injEq,
          Node.internal.injEq, true_and] at hsm
        obtain ⟨rfl, rfl⟩ := hsm
        exact ⟨b, rfl⟩
  have hnl2 : node < H2.length := by
    rw [e2]
    simp only [List.length_append, List.length_singleton]
    omega
  have hcall : splitInternal up t node =
      up ⟨t.root, H2.set node (Node.internal [k0, k1] par2 [c0, c1, c2])⟩ node k2
        t.heap.length := by
    simp only [splitInternal, hnode]
    simp [e1, hp2]
  refine ⟨2, k2, _, par2, by simp, by simp, hcall, ?_, get_set_self _ hnl2, ?_, ?_, ?_, ?_, ?_,
    rfl, rfl, rfl, rfl, rfl, rfl, ?_⟩
  · simp [e2]
  · intro hnc
    have := e4 node (by
      intro hmem
      apply hnc
      simp only [List.mem_cons, List.mem_singleton, List.not_mem_nil, or_false] at hmem ⊢
      tauto)
    rw [hp2, hold] at this
    simp only [Option.some.injEq, Node.internal.injEq, true_and, and_true] at this
    exact this
  · rw [get_set_ne _ (by omega), e4 _ (by
      intro hmem
      have := hcs t.heap.length (by
        simp only [List.mem_cons, List.mem_singleton, List.not_mem_nil, or_false] at hmem ⊢
        tauto)
      omega), get_append_new]
    rfl
  · intro c hc
    have hc1 : c ∈ [c3, c4] := by simpa using hc
    by_cases hcn : c = node
    · subst hcn
      have := e5 c hc1
      rw [parentAt, hp2] at this
      simp only [Option.map_some', Node.parent, Option.some.injEq] at this
      subst this
      simp [parentAt, get_set_self _ hnl2, Node.parent]
    · rw [parentAt, get_set_ne _ hcn]
      exact e5 c hc1
  · intro x hx hxl
    unfold SameMod
    rw [get_set_ne _ hx]
    have := e3 x
    unfold SameMod at this
    rw [this, get_append_old _ hxl]
  · intro x hx hxc hxl
    rw [get_set_ne _ hx, e4 x (by simpa using hxc), get_append_old _ hxl]
  · intro hs
    simp only [List.pairwise_cons, List.mem_cons, List.mem_singleton, forall_eq_or_imp,
      forall_eq] at hs
    have h01 := hs.1.1
    have h12 := hs.2.1.1
    have h23 := hs.2.2.1.1
    simp only [List.take_succ_cons, List.take_zero, List.drop_succ_cons, List.drop_zero,
      List.mem_cons, List.mem_singleton, List.not_mem_nil, or_false, not_or]
    exact ⟨⟨ne_of_gt (h01.trans h12), ne_of_gt h12⟩, ne_of_lt h23⟩

/-- The internal split of the root `[3, 5, 7, 9]` with five children: the key 7 is promoted,
the root keeps `[3, 5]`, the new node gets `[9]`. -/
theorem C14_internal_split_witness :
    overfullInternal.heap[2]? = some (Node.internal [3, 5, 7, 9] none [0, 1, 3, 4, 5]) ∧
      ([3, 5, 7, 9] : List Int).length = MAX_KEYS + 1 ∧
      ([0, 1, 3, 4, 5] : List Nat).length = ([3, 5, 7, 9] : List Int).length + 1 ∧
      (∀ c ∈ ([0, 1, 3, 4, 5] : List Nat), c < overfullInternal.heap.length) ∧
      ∃ mid s heap3 par2, mid = ([3, 5, 7, 9] : List Int).length / 2 ∧
        ([3, 5, 7, 9] : List Int)[mid]? = some s ∧
        splitInternal (fun t _ _ _ => some t) overfullInternal 2 =
          (fun t _ _ _ => some t) (⟨overfullInternal.root, heap3⟩ : BPlusTree Int Nat) 2 s
            overfullInternal.heap.length ∧
        heap3.length = overfullInternal.heap.length + 1 ∧
        heap3[2]? = some (Node.internal (([3, 5, 7, 9] : List Int).take mid) par2
          (([0, 1, 3, 4, 5] : List Nat).take (mid + 1))) ∧
        (2 ∉ ([0, 1, 3, 4, 5] : List Nat) → par2 = none) ∧
        heap3[overfullInternal.heap.length]? =
          some (Node.internal (([3, 5, 7, 9] : List Int).drop (mid + 1)) none
            (([0, 1, 3, 4, 5] : List Nat).drop (mid + 1))) ∧
        (∀ c ∈ ([0, 1, 3, 4, 5] : List Nat).drop (mid + 1),
          parentAt heap3 c = some (some overfullInternal.heap.length)) ∧
        (∀ x, x ≠ 2 → x < overfullInternal.heap.length →
          SameMod overfullInternal.heap heap3 x) ∧
        (∀ x, x ≠ 2 → x ∉ ([0, 1, 3, 4, 5] : List Nat).drop (mid + 1) →
          x < overfullInternal.heap.length → heap3[x]? = overfullInternal.heap[x]?) ∧
        ([3, 5, 7, 9] : List Int).take mid ++ s :: ([3, 5, 7, 9] : List Int).drop (mid + 1) =
          [3, 5, 7, 9] ∧
        ([0, 1, 3, 4, 5] : List Nat).take (mid + 1) ++ ([0, 1, 3, 4, 5] : List Nat).drop (mid + 1) =
          [0, 1, 3, 4, 5] ∧
        (([3, 5, 7, 9] : List Int).take mid).length = mid ∧
        (([0, 1, 3, 4, 5] : List Nat).take (mid + 1)).length = mid + 1 ∧
        (([3, 5, 7, 9] : List Int).drop (mid + 1)).length =
          ([3, 5, 7, 9] : List Int).length - mid - 1 ∧
        (([0, 1, 3, 4, 5] : List Nat).drop (mid + 1)).length =
          ([3, 5, 7, 9] : List Int).length - mid ∧
        (([3, 5, 7, 9] : List Int).Pairwise (· < ·) →
          s ∉ ([3, 5, 7, 9] : List Int).take mid ∧ s ∉ ([3, 5, 7, 9] : List Int).drop (mid + 1)) :=
  ⟨by simp [overfullInternal], rfl, rfl, by simp [overfullInternal],
    C14_internal_split (fun t _ _ _ => some t) overfullInternal 2 [3, 5, 7, 9] none
      [0, 1, 3, 4, 5] (by simp [overfullInternal]) rfl rfl (by simp [overfullInternal])⟩

end

/-! ## The insert of a stored key -/

section
variable [LinearOrder K]

/-- C15 (duplicate insert): on every tree built by inserts that holds the key `k`,
`insert(k, v)` returns a tree with the same root and the same store, cell by cell, except
for the leaf that `findLeaf` reaches for `k`: that leaf keeps its keys, its `parent` and its
`next`, and its values are the same except that the value at the position of `k` is `v`. No
node is allocated. -/
theorem C15_duplicate_insert (ops : List (K × V)) (k : K) (v : V)
    (hk : k ∈ ops.map Prod.fst) :
    ∃ t t1 leaf ks par vs nx, ∃ pos : Nat, build ops = some t ∧ insert t k v = some t1 ∧
      findLeaf t k = some (some leaf) ∧ t.heap[leaf]? = some (Node.leaf ks par vs nx) ∧
      ks[pos]? = some k ∧ t1.root = t.root ∧ t1.heap.length = t.heap.length ∧
      (∀ x, x ≠ leaf → t1.heap[x]? = t.heap[x]?) ∧
      ∃ vs1, t1.heap[leaf]? = some (Node.leaf ks par vs1 nx) ∧ vs1.length = vs.length ∧
        vs1[pos]? = some v ∧ ∀ i, i ≠ pos → vs1[i]? = vs[i]? := by
  obtain ⟨t, h1, h2, h3, h4⟩ := build_spec ops
  obtain ⟨h, r, hr⟩ := h4 (by rintro rfl; simp at hk)
  have hmem : k ∈ (toList t).map Prod.fst := by
    rw [h3, mem_keys_foldl]
    exact Or.inl hk
  obtain ⟨root, H⟩ := t
  have hroot : root = some r := hr.root
  subst hroot
  have hlt : h < H.length := hr.ht
  have hwf : WF H h 1 r none none := hr.wf
  have hrT : toList (⟨some r, H⟩ : BPlusTree K V) = entries H h r := hr.toList_eq
  obtain ⟨leaf, ks, par, vs, nx, f1, f2, f3, f4, f5⟩ := findLeaf_spec k hwf trivial trivial
  have hfind : findLeaf ⟨some r, H⟩ k = some (some leaf) := by
    simp only [findLeaf]
    rw [show H.length = h + 1 + (H.length - h - 1) by omega, f1]
    rfl
  have hne : lookup k (ks.zip vs) ≠ none := by
    rw [← f5, ← hrT, Ne, lookup_eq_none_iff]
    exact fun hh => hh hmem
  have hpos : ks[lowerBound k ks]? = some k := by
    by_contra hc
    have := search_leaf k ks vs f3 f4
    rw [if_neg hc] at this
    simp only [Option.some.injEq] at this
    exact hne this.symm
  have hpl : lowerBound k ks < ks.length := (List.getElem?_eq_some_iff.mp hpos).1
  have hll : leaf < H.length := (List.getElem?_eq_some_iff.mp f2).1
  refine ⟨⟨some r, H⟩, ⟨some r, H.set leaf (Node.leaf ks par (vs.set (lowerBound k ks) v) nx)⟩,
    leaf, ks, par, vs, nx, lowerBound k ks, h1, ?_, hfind, f2, hpos, rfl, by simp,
    fun x hx => get_set_ne _ hx, _, get_set_self _ hll, by simp, ?_, ?_⟩
  · simp only [insert, hfind, insertIntoLeaf, f2, hpos, if_true]
    rw [if_pos (by omega)]
  · simp [List.getElem?_set]
    omega
  · intro i hi
    simp [List.getElem?_set, Ne.symm hi]

/-- The insert of the key 6, stored in a tree of three leaves, with a new value. -/
theorem C15_duplicate_insert_witness :
    (6 : Int) ∈ ([(10, 1), (20, 2), (5, 3), (6, 4), (8, 5), (1, 6), (7, 7)] :
        List (Int × Nat)).map Prod.fst ∧
      ∃ t t1 leaf ks par vs nx, ∃ pos : Nat,
        build ([(10, 1), (20, 2), (5, 3), (6, 4), (8, 5), (1, 6), (7, 7)] : List (Int × Nat)) =
          some t ∧ insert t 6 9 = some t1 ∧
        findLeaf t 6 = some (some leaf) ∧ t.heap[leaf]? = some (Node.leaf ks par vs nx) ∧
        ks[pos]? = some 6 ∧ t1.root = t.root ∧ t1.heap.length = t.heap.length ∧
        (∀ x, x ≠ leaf → t1.heap[x]? = t.heap[x]?) ∧
        ∃ vs1, t1.heap[leaf]? = some (Node.leaf ks par vs1 nx) ∧ vs1.length = vs.length ∧
          vs1[pos]? = some 9 ∧ ∀ i, i ≠ pos → vs1[i]? = vs[i]? :=
  ⟨by decide, C15_duplicate_insert _ 6 9 (by decide)⟩

end

/-! ## Routing keys and the height -/

section
variable [LinearOrder K]

/-- The keys met at the leaves below a well-formed node, whatever fuel above the height is
given to the walk, are the keys of the entries below it. -/
theorem WF.leafKeys_eq {H : List (Node K V)} {h m a : Nat} {lo hi : Option K}
    (hw : WF H h m a lo hi) (hm : 1 ≤ m) (e : Nat) :
    (leavesFrom H (h + 1 + e) a).flatMap (keysAt H) = (entries H h a).map Prod.fst := by
  rw [hw.leavesFrom_eq, entries_eq_flatMap, map_fst_flatMap]
  refine flatMap_congr_mem fun l hl => ?_
  obtain ⟨m1, l1, u1, _, hw1⟩ := hw.leaf_of_mem_leavesOf hm hl
  exact hw1.keysAt_leaf

/-- The first key at the leaf level of a well-formed subtree whose window has a lower bound
is that bound. -/
theorem WF.head_entries {H : List (Node K V)} {h m a : Nat} {l : K} {hi : Option K}
    (hw : WF H h m a (some l) hi) (hm : 1 ≤ m) :
    ((entries H h a).map Prod.fst).head? = some l := by
  induction h generalizing m a hi with
  | zero =>
    obtain ⟨ks, par, vs, nx, ha, hlen, _, _, _, _, hh⟩ := hw
    simp only [entries, entriesAt, ha]
    rw [List.map_fst_zip _ _ (le_of_eq hlen.symm)]
    exact hh l rfl
  | succ h ih =>
    have hw0 := hw
    obtain ⟨ks, par, cs, ha, _, _, _, hc⟩ := hw
    rw [entries_succ h ha]
    match ks, cs, hc with
    | [], [c], hc =>
      have hc1 : WF H h 2 c (some l) hi := hc
      simp only [List.flatMap_cons, List.flatMap_nil, List.append_nil]
      exact ih hc1 (by omega)
    | k :: ks, c :: cs, hc =>
      have hc1 : WF H h 2 c (some l) (some k) := hc.2.2.1
      have hne := hc1.entries_ne_nil (by omega)
      have := ih hc1 (by omega)
      simp only [List.flatMap_cons, List.map_append]
      rw [List.head?_append_of_ne_nil _ (by simpa using hne)]
      exact this

/-- The entries below a node reached from the root of a well-formed subtree are entries of
the subtree. -/
theorem WF.entries_of_reach {H : List (Node K V)} {a d b : Nat} (hr : Reach H a d b) :
    ∀ {h m : Nat} {lo hi : Option K}, WF H h m a lo hi →
      ∀ e ∈ entries H (h - d) b, e ∈ entries H h a := by
  induction hr with
  | refl a =>
    intro h m lo hi _ e he
    exact he
  | @step a c b d ks par cs ha hc _ ih =>
    intro h m lo hi hw e he
    cases h with
    | zero =>
      obtain ⟨ks1, par1, vs1, nx1, ha1, _⟩ := hw
      rw [ha] at ha1
      simp at ha1
    | succ h =>
      obtain ⟨ks1, par1, cs1, ha1, _, _, _, hch⟩ := hw
      rw [ha] at ha1
      simp only [Option.some.injEq, Node.internal.injEq] at ha1
      obtain ⟨rfl, rfl, rfl⟩ := ha1
      obtain ⟨l, u, hwc, _, _⟩ := hch.forall_mem c hc
      rw [show h + 1 - (d + 1) = h - d by omega] at he
      rw [entries_succ h ha]
      exact List.mem_flatMap.mpr ⟨c, hc, ih hwc e he⟩

/-- C18 (routing keys are leaf minima): on the tree built by a sequence of inserts, for every
internal node and every index `i` of its keys, `keys[i]` is a key stored at the leaf level of
the subtree of `children[i + 1]` and no key stored there is smaller; so it is one of the keys
stored at the leaf level of the tree. -/
theorem C18_routing_keys (ops : List (K × V)) :
    ∃ t, build ops = some t ∧
      ∀ d a ks par cs, InTree t d a → t.heap[a]? = some (Node.internal ks par cs) →
        ∀ (i : Nat) (k : K), ks[i]? = some k → ∃ c, cs[i + 1]? = some c ∧
          k ∈ (leavesFrom t.heap t.heap.length c).flatMap (keysAt t.heap) ∧
          (∀ x ∈ (leavesFrom t.heap t.heap.length c).flatMap (keysAt t.heap), k ≤ x) ∧
          k ∈ (toList t).map Prod.fst := by
  obtain ⟨t, h1, h2, _, _⟩ := build_spec ops
  refine ⟨t, h1, ?_⟩
  rcases h2 with ⟨hroot, _⟩ | ⟨h, r, hr⟩
  · rintro d a ks par cs ⟨r, hr, _⟩
    rw [hroot] at hr
    simp at hr
  · rintro d a ks par cs ⟨r1, hr1, hreach⟩ ha i k hk
    rw [hr.root] at hr1
    simp only [Option.some.injEq] at hr1
    subst hr1
    have hlt := hr.ht
    obtain ⟨m1, l1, u1, hd, hm1, hw, _, _⟩ := WF.reach hreach hr.wf le_rfl
    have hsub := WF.entries_of_reach hreach hr.wf
    generalize hh0 : h - d = h0 at hw hsub
    cases h0 with
    | zero =>
      obtain ⟨ks1, par1, vs1, nx1, ha1, _⟩ := hw
      rw [ha] at ha1
      simp at ha1
    | succ h0 =>
      have hw0 := hw
      obtain ⟨ks1, par1, cs1, ha1, _, _, _, hch⟩ := hw
      rw [ha] at ha1
      simp only [Option.some.injEq, Node.internal.injEq] at ha1
      obtain ⟨rfl, rfl, rfl⟩ := ha1
      obtain ⟨c, c', l, u, hc, hc', hwc, hwc'⟩ := hch.sides i k hk
      have hkeys : (leavesFrom t.heap t.heap.length c').flatMap (keysAt t.heap) =
          (entries t.heap h0 c').map Prod.fst := by
        rw [show t.heap.length = h0 + 1 + (t.heap.length - h0 - 1) by omega]
        exact hwc'.leafKeys_eq (by omega) _
      have hhead := hwc'.head_entries (by omega)
      have hmem : k ∈ (entries t.heap h0 c').map Prod.fst := List.mem_of_mem_head? hhead
      refine ⟨c', hc', by rw [hkeys]; exact hmem, ?_, ?_⟩
      · intro x hx
        rw [hkeys] at hx
        exact (hwc'.entries_sorted.2 x hx).1
      · rw [hr.toList_eq]
        obtain ⟨e, he, rfl⟩ := List.mem_map.mp hmem
        refine List.mem_map.mpr ⟨e, hsub e ?_, rfl⟩
        rw [entries_succ h0 ha]
        obtain ⟨hlt', hget⟩ := List.getElem?_eq_some_iff.mp hc'
        exact List.mem_flatMap.mpr ⟨c', hget ▸ List.getElem_mem hlt', he⟩

theorem length_flatMap_ge {α β : Type} (cs : List α) (f : α → List β) (n : Nat)
    (h : ∀ c ∈ cs, n ≤ (f c).length) : cs.length * n ≤ (cs.flatMap f).length := by
  induction cs with
  | nil => simp
  | cons c cs ih =>
    have h1 := h c (List.mem_cons_self _ _)
    have h2 := ih fun x hx => h x (List.mem_cons_of_mem _ hx)
    simp only [List.length_cons, List.flatMap_cons, List.length_append]
    rw [Nat.add_mul]
    omega

/-- Following `children[0]` from the root of a well-formed subtree of height `h` reaches a
leaf in `h` steps, whatever fuel above `h` is given. -/
theorem WF.heightFrom_eq {H : List (Node K V)} {h m a : Nat} {lo hi : Option K}
    (hw : WF H h m a lo hi) (e : Nat) : heightFrom H (h + 1 + e) a = h := by
  induction h generalizing m a lo hi with
  | zero =>
    obtain ⟨ks, par, vs, nx, ha, _⟩ := hw
    rw [show 0 + 1 + e = e + 1 by omega]
    simp [heightFrom, ha]
  | succ h ih =>
    obtain ⟨ks, par, cs, ha, _, _, _, hc⟩ := hw
    rw [show h + 1 + 1 + e = (h + 1 + e) + 1 by omega]
    cases cs with
    | nil => have := hc.length_eq; simp at this
    | cons c cs =>
      obtain ⟨l, u, hwc, _⟩ := hc.forall_mem c (List.mem_cons_self _ _)
      simp only [heightFrom, ha]
      rw [ih hwc]

theorem Rep.height_eq {t : BPlusTree K V} {h r : Nat} (hr : Rep t h r) : height t = h := by
  have hlt := hr.ht
  simp only [height, hr.root]
  rw [show t.heap.length = h + 1 + (t.heap.length - h - 1) by omega]
  exact hr.wf.heightFrom_eq _

/-- A well-formed subtree of height `h` holds at least `2 ^ h` entries, and twice as many when
it is not the whole tree. -/
theorem WF.pow_le {H : List (Node K V)} {h m a : Nat} {lo hi : Option K}
    (hw : WF H h m a lo hi) : min m 2 * 2 ^ h ≤ (entries H h a).length := by
  induction h generalizing m a lo hi with
  | zero =>
    obtain ⟨ks, par, vs, nx, ha, hlen, _, _, hm, _⟩ := hw
    simp only [entries, entriesAt, ha, List.length_zip, hlen, pow_zero, mul_one, min_self]
    omega
  | succ h ih =>
    obtain ⟨ks, par, cs, ha, h1, _, _, hc⟩ := hw
    rw [entries_succ h ha]
    have hlen := hc.length_eq
    have := length_flatMap_ge cs (entries H h) (2 * 2 ^ h) fun c hcm => by
      obtain ⟨l, u, hwc, _⟩ := hc.forall_mem c hcm
      simpa using ih hwc
    have h2 : 2 * (2 * 2 ^ h) ≤ cs.length * (2 * 2 ^ h) := Nat.mul_le_mul_right _ (by omega)
    have h3 : min m 2 * 2 ^ (h + 1) ≤ 2 * 2 ^ (h + 1) := Nat.mul_le_mul_right _ (min_le_right _ _)
    rw [pow_succ] at h3 ⊢
    omega

/-- The depth of every leaf of a tree that satisfies the invariant is `height`. -/
theorem Rep.depth_eq {t : BPlusTree K V} {h r : Nat} (hr : Rep t h r) {d l : Nat}
    {n : Node K V} (hin : InTree t d l) (hn : t.heap[l]? = some n) (hl : n.isLeaf = true) :
    d = height t := by
  obtain ⟨r1, hr1, hreach⟩ := hin
  rw [hr.root] at hr1
  simp only [Option.some.injEq] at hr1
  subst hr1
  obtain ⟨m1, l1, u1, hd, hm1, hw, _, _⟩ := WF.reach hreach hr.wf le_rfl
  have := ((hw.node_facts hm1 hn).2.2.2.2.1).mp hl
  rw [hr.height_eq]
  omega

/-- A node reached in one step or more from the root of a well-formed subtree is the root of
a well-formed subtree that is not the whole tree: its leaves hold two keys at least. -/
theorem WF.reach_pos {H : List (Node K V)} {a d b : Nat} (hr : Reach H a d b) :
    ∀ {h m : Nat} {lo hi : Option K}, WF H h m a lo hi → 0 < d →
      ∃ l u, WF H (h - d) 2 b l u := by
  cases hr with
  | refl a =>
    intro h m lo hi _ hd
    exact absurd hd (lt_irrefl _)
  | @step a c b d ks par cs ha hc hcb =>
    intro h m lo hi hw _
    cases h with
    | zero =>
      obtain ⟨ks1, par1, vs1, nx1, ha1, _⟩ := hw
      rw [ha] at ha1
      simp at ha1
    | succ h =>
      obtain ⟨ks1, par1, cs1, ha1, _, _, _, hch⟩ := hw
      rw [ha] at ha1
      simp only [Option.some.injEq, Node.internal.injEq] at ha1
      obtain ⟨rfl, rfl, rfl⟩ := ha1
      obtain ⟨l, u, hwc, _, _⟩ := hch.forall_mem c hc
      rw [show h + 1 - (d + 1) = h - d by omega]
      by_cases hd0 : d = 0
      · subst hd0
        cases hcb
        exact ⟨l, u, hwc⟩
      · exact WF.reach_pos hcb hwc (by omega)
termination_by d

/-- C20 (logarithmic height): on the tree built by one insert or more, all the leaves are at
depth `height`, the number of entries stored at the leaf level is the number of distinct keys
inserted, and 2 to the power `height` is at most that number; every leaf other than the root
holds 2 keys at least and every internal node has 2 children at least. -/
theorem C20_log_height (op : K × V) (ops : List (K × V)) :
    ∃ t, build (op :: ops) = some t ∧
      (∀ d l n, InTree t d l → t.heap[l]? = some n → n.isLeaf = true → d = height t) ∧
      (toList t).length = ((op :: ops).map Prod.fst).toFinset.card ∧
      2 ^ height t ≤ ((op :: ops).map Prod.fst).toFinset.card ∧
      (∀ d a ks par vs nx, InTree t d a → t.root ≠ some a →
        t.heap[a]? = some (Node.leaf ks par vs nx) → 2 ≤ ks.length) ∧
      (∀ d a ks par cs, InTree t d a → t.heap[a]? = some (Node.internal ks par cs) →
        2 ≤ cs.length) := by
  obtain ⟨t, h1, h2, h3, h4⟩ := build_spec (op :: ops)
  obtain ⟨h, r, hr⟩ := h4 (by simp)
  have hcard : (toList t).length = ((op :: ops).map Prod.fst).toFinset.card := by
    have hnd : ((toList t).map Prod.fst).Nodup := h2.sorted.imp ne_of_lt
    rw [← List.length_map (toList t) Prod.fst, ← List.toFinset_card_of_nodup hnd]
    congr 1
    ext k
    simp only [List.mem_toFinset]
    rw [h3, mem_keys_foldl]
    simp
  refine ⟨t, h1, fun d l n => hr.depth_eq, hcard, ?_, ?_, ?_⟩
  · rw [← hcard, hr.height_eq, hr.toList_eq]
    simpa using hr.wf.pow_le
  · rintro d a ks par vs nx ⟨r1, hr1, hreach⟩ hne ha
    rw [hr.root] at hr1 hne
    simp only [Option.some.injEq] at hr1
    subst hr1
    have hd : 0 < d := by
      rcases Nat.eq_zero_or_pos d with rfl | hd
      · cases hreach
        exact absurd rfl hne
      · exact hd
    obtain ⟨l, u, hw⟩ := WF.reach_pos hreach hr.wf hd
    generalize h - d = h0 at hw
    cases h0 with
    | zero =>
      obtain ⟨ks1, par1, vs1, nx1, ha1, _, _, _, hm, _⟩ := hw
      rw [ha] at ha1
      simp only [Option.some.injEq, Node.leaf.injEq] at ha1
      obtain ⟨rfl, _, _, _⟩ := ha1
      exact hm
    | succ h0 =>
      obtain ⟨ks1, par1, cs1, ha1, _⟩ := hw
      rw [ha] at ha1
      simp at ha1
  · rintro d a ks par cs ⟨r1, hr1, hreach⟩ ha
    rw [hr.root] at hr1
    simp only [Option.some.injEq] at hr1
    subst hr1
    obtain ⟨m1, l1, u1, hd, hm1, hw, _, _⟩ := WF.reach hreach hr.wf le_rfl
    obtain ⟨_, _, g1, _, _, g3⟩ := hw.node_facts hm1 ha
    have := g3 ks par cs rfl
    simp only [Node.keys] at g1
    omega

end

/-! ## Growth of the depth -/

section
variable [LinearOrder K]

end

/-! ## Safety of the accesses -/

section
variable [LinearOrder K]

/-- A node reached in one step or more from the root of a well-formed subtree is a child of
an internal node, and its `parent` field is the address of that node. -/
theorem WF.parent_of_reach {H : List (Node K V)} {a d b : Nat} (hr : Reach H a d b) :
    ∀ {h m : Nat} {lo hi : Option K}, WF H h m a lo hi → 0 < d →
      ∃ P ks par cs, H[P]? = some (Node.internal ks par cs) ∧ b ∈ cs ∧
        parentAt H b = some (some P) := by
  cases hr with
  | refl a =>
    intro h m lo hi _ hd
    exact absurd hd (lt_irrefl _)
  | @step a c b d ks par cs ha hc hcb =>
    intro h m lo hi hw _
    cases h with
    | zero =>
      obtain ⟨ks1, par1, vs1, nx1, ha1, _⟩ := hw
      rw [ha] at ha1
      simp at ha1
    | succ h =>
      obtain ⟨ks1, par1, cs1, ha1, _, _, hp, hch⟩ := hw
      rw [ha] at ha1
      simp only [Option.some.injEq, Node.internal.injEq] at ha1
      obtain ⟨rfl, rfl, rfl⟩ := ha1
      obtain ⟨l, u, hwc, _, _⟩ := hch.forall_mem c hc
      by_cases hd0 : d = 0
      · subst hd0
        cases hcb
        exact ⟨a, ks, par, cs, ha, hc, hp _ hc⟩
      · exact WF.parent_of_reach hcb hwc (by omega)
termination_by d

/-- C19 (index and pointer safety): on every tree built by inserts, `insert` and `search`
return, which in this model they do only when every access they make is in bounds and every
pointer they follow is allocated.  In particular, at every internal node of the tree the
child index chosen by `findLeaf` for any key is less than the number of children, and the
position computed by `lower_bound` for any key is less than the number of children; every
leaf has as many values as keys, so the position computed by `lower_bound` is in bounds for
the insertion of a value, and for a read or write of a value when the key is found there;
every node other than the root has a parent reference that is the address of an internal
node; and in a node with more than `MAX_KEYS` keys, the only ones that are split, the part
from `ceil(n / 2)` on is not empty and `n / 2` is the index of a key. -/
theorem C19_safety (ops : List (K × V)) (k : K) (v : V) :
    ∃ t t1 res, build ops = some t ∧ insert t k v = some t1 ∧ search t k = some res ∧
      (∀ d a ks par cs, InTree t d a → t.heap[a]? = some (Node.internal ks par cs) →
        ∀ key : K, findChild key ks < cs.length ∧ lowerBound key ks + 1 ≤ cs.length) ∧
      (∀ d a ks par vs nx, InTree t d a → t.heap[a]? = some (Node.leaf ks par vs nx) →
        vs.length = ks.length ∧ ∀ key : K, lowerBound key ks ≤ vs.length ∧
          (ks[lowerBound key ks]? = some key → lowerBound key ks < vs.length)) ∧
      (∀ d a, InTree t d a → t.root ≠ some a →
        ∃ P ks par cs, parentAt t.heap a = some (some P) ∧
          t.heap[P]? = some (Node.internal ks par cs) ∧ a ∈ cs) ∧
      (∀ ks : List K, MAX_KEYS < ks.length →
        (∃ s, (ks.drop ((ks.length + 1) / 2))[0]? = some s) ∧ ∃ s, ks[ks.length / 2]? = some s) := by
  obtain ⟨t, h1, h2, _, _⟩ := build_spec ops
  obtain ⟨t1, a1, _, _⟩ := insert_inv h2 k v
  refine ⟨t, t1, _, h1, a1, search_spec h2 k, ?_, ?_, ?_, ?_⟩
  · rcases h2 with ⟨hroot, _⟩ | ⟨h, r, hr⟩
    · rintro d a ks par cs ⟨r, hr, _⟩
      rw [hroot] at hr
      simp at hr
    · rintro d a ks par cs ⟨r1, hr1, hreach⟩ hn key
      rw [hr.root] at hr1
      simp only [Option.some.injEq] at hr1
      subst hr1
      obtain ⟨m1, l1, u1, hd, hm1, hw, _, _⟩ := WF.reach hreach hr.wf le_rfl
      obtain ⟨_, _, _, _, _, g3⟩ := hw.node_facts hm1 hn
      have := g3 ks par cs rfl
      have := findChild_le key ks
      have := lowerBound_le key ks
      omega
  · rcases h2 with ⟨hroot, _⟩ | ⟨h, r, hr⟩
    · rintro d a ks par vs nx ⟨r, hr, _⟩
      rw [hroot] at hr
      simp at hr
    · rintro d a ks par vs nx ⟨r1, hr1, hreach⟩ hn
      rw [hr.root] at hr1
      simp only [Option.some.injEq] at hr1
      subst hr1
      obtain ⟨m1, l1, u1, hd, hm1, hw, _, _⟩ := WF.reach hreach hr.wf le_rfl
      generalize h - d = h0 at hw
      cases h0 with
      | zero =>
        obtain ⟨ks1, par1, vs1, nx1, ha1, hlen, _⟩ := hw
        rw [hn] at ha1
        simp only [Option.some.injEq, Node.leaf.injEq] at ha1
        obtain ⟨rfl, _, rfl, _⟩ := ha1
        refine ⟨hlen, fun key => ⟨by rw [hlen]; exact lowerBound_le key ks, fun hk => ?_⟩⟩
        rw [hlen]
        exact (List.getElem?_eq_some_iff.mp hk).1
      | succ h0 =>
        obtain ⟨ks1, par1, cs1, ha1, _⟩ := hw
        rw [hn] at ha1
        simp at ha1
  · rcases h2 with ⟨hroot, _⟩ | ⟨h, r, hr⟩
    · rintro d a ⟨r, hr, _⟩
      rw [hroot] at hr
      simp at hr
    · rintro d a ⟨r1, hr1, hreach⟩ hne
      rw [hr.root] at hr1 hne
      simp only [Option.some.injEq] at hr1
      subst hr1
      have hd : 0 < d := by
        rcases Nat.eq_zero_or_pos d with rfl | hd
        · cases hreach
          exact absurd rfl hne
        · exact hd
      obtain ⟨P, ks, par, cs, p1, p2, p3⟩ := WF.parent_of_reach hreach hr.wf hd
      exact ⟨P, ks, par, cs, p3, p1, p2⟩
  · intro ks hks
    simp only [MAX_KEYS, ORDER] at hks
    have h1 : (ks.length + 1) / 2 < ks.length := by omega
    have h2 : ks.length / 2 < ks.length := by omega
    refine ⟨⟨_, List.getElem?_eq_getElem (by simp; omega)⟩, ⟨_, List.getElem?_eq_getElem h2⟩⟩

end

/-- The two example states are states of real runs: finishing the split from them gives the
trees that `insert` gives, for the keys 10, 20, 5, 6 and for the keys 1 to 10. -/
theorem overfull_scenario :
    splitLeaf 1 overfullLeaf 0 = build [(10, 1), (20, 2), (5, 3), (6, 4)] ∧
      splitInternal (insertIntoParent 1) overfullInternal 2 =
        build [(1, 0), (2, 0), (3, 0), (4, 0), (5, 0), (6, 0), (7, 0), (8, 0), (9, 0), (10, 0)] :=
  ⟨rfl, rfl⟩

/-! ## The record of the promotions -/

/-- The tree computed by `splitInternalLog` is the tree computed by `splitInternal`, when the
calls that end them agree. -/
theorem splitInternalLog_fst
    {up : BPlusTree K V → Nat → K → Nat → Option (BPlusTree K V)}
    {upL : BPlusTree K V → Nat → K → Nat → Option (BPlusTree K V × List (Promotion K))}
    (h : ∀ t a k b, (upL t a k b).map Prod.fst = up t a k b) (t : BPlusTree K V) (node : Nat) :
    (splitInternalLog upL t node).map Prod.fst = splitInternal up t node := by
  unfold splitInternalLog splitInternal
  cases t.heap[node]? with
  | none => rfl
  | some n =>
    cases n with
    | leaf _ _ _ _ => rfl
    | internal ks par cs =>
      simp only
      cases ks[ks.length / 2]? with
      | none => rfl
      | some midKey =>
        simp only
        split
        · cases setParents (some t.heap.length) (cs.drop (ks.length / 2 + 1))
            (t.heap ++ [Node.internal (ks.drop (ks.length / 2 + 1)) none
              (cs.drop (ks.length / 2 + 1))]) with
          | none => rfl
          | some heap2 =>
            simp only
            cases heap2[node]? with
            | none => rfl
            | some n2 =>
              cases n2 with
              | leaf _ _ _ _ => rfl
              | internal ks2 par2 cs2 => exact h _ _ _ _
        · rfl

theorem setParentAt_length {H G : List (Node K V)} {a : Nat} {p : Ptr}
    (h : setParentAt H a p = some G) : G.length = H.length := by
  simp only [setParentAt, Option.map_eq_some'] at h
  obtain ⟨n, _, rfl⟩ := h
  simp

theorem setParents_length (p : Ptr) (L : List Nat) : ∀ {H G : List (Node K V)},
    setParents p L H = some G → G.length = H.length := by
  induction L with
  | nil =>
    intro H G h
    simp only [setParents, Option.some.injEq] at h
    rw [h]
  | cons c L ih =>
    intro H G h
    simp only [setParents, Option.bind_eq_some] at h
    obtain ⟨H0, h0, h1⟩ := h
    rw [ih h1, setParentAt_length h0]

/-- Method `splitInternal` allocates one node before the call that ends it. -/
theorem splitInternal_length {T T3 : BPlusTree K V} {P r : Nat} {s : K}
    (h : ∀ up : BPlusTree K V → Nat → K → Nat → Option (BPlusTree K V),
      splitInternal up T P = up T3 P s r) : T3.heap.length = T.heap.length + 1 := by
  have h1 := h fun t _ _ _ => some t
  unfold splitInternal at h1
  cases hn : T.heap[P]? with
  | none => simp [hn] at h1
  | some n =>
    cases n with
    | leaf _ _ _ _ => simp [hn] at h1
    | internal ks par cs =>
      simp only [hn] at h1
      cases hk : ks[ks.length / 2]? with
      | none => simp [hk] at h1
      | some midKey =>
        simp only [hk] at h1
        by_cases hg : ks.length / 2 + 1 ≤ cs.length
        · simp only [hg, if_true] at h1
          cases hsp : setParents (some T.heap.length) (cs.drop (ks.length / 2 + 1))
            (T.heap ++ [Node.internal (ks.drop (ks.length / 2 + 1)) none
              (cs.drop (ks.length / 2 + 1))]) with
          | none => simp [hsp] at h1
          | some heap2 =>
            simp only [hsp] at h1
            cases hn2 : heap2[P]? with
            | none => simp [hn2] at h1
            | some n2 =>
              cases n2 with
              | leaf _ _ _ _ => simp [hn2] at h1
              | internal ks2 par2 cs2 =>
                simp only [hn2, Option.some.injEq] at h1
                subst h1
                simp [setParents_length _ _ hsp]
        · simp [hg] at h1

/-- What `splitInternal` passes to the call that ends it, `splitInternalLog` passes to
its own. -/
theorem splitInternalLog_eq {T T3 : BPlusTree K V} {P r : Nat} {s : K}
    (h : ∀ up : BPlusTree K V → Nat → K → Nat → Option (BPlusTree K V),
      splitInternal up T P = up T3 P s r)
    (upL : BPlusTree K V → Nat → K → Nat → Option (BPlusTree K V × List (Promotion K))) :
    splitInternalLog upL T P = upL T3 P s r := by
  have h1 := h fun t _ _ _ => some t
  have h2 := h fun _ _ k _ => some ⟨none, [Node.internal [k] none []]⟩
  have h3 := h fun _ _ _ b => some ⟨some b, []⟩
  unfold splitInternal at h1 h2 h3
  unfold splitInternalLog
  cases hn : T.heap[P]? with
  | none => simp [hn] at h1
  | some n =>
    cases n with
    | leaf _ _ _ _ => simp [hn] at h1
    | internal ks par cs =>
      simp only [hn] at h1 h2 h3 ⊢
      cases hk : ks[ks.length / 2]? with
      | none => simp [hk] at h1
      | some midKey =>
        simp only [hk] at h1 h2 h3 ⊢
        by_cases hg : ks.length / 2 + 1 ≤ cs.length
        · simp only [hg, if_true] at h1 h2 h3 ⊢
          cases hsp : setParents (some T.heap.length) (cs.drop (ks.length / 2 + 1))
            (T.heap ++ [Node.internal (ks.drop (ks.length / 2 + 1)) none
              (cs.drop (ks.length / 2 + 1))]) with
          | none => simp [hsp] at h1
          | some heap2 =>
            simp only [hsp] at h1 h2 h3 ⊢
            cases hn2 : heap2[P]? with
            | none => simp [hn2] at h1
            | some n2 =>
              cases n2 with
              | leaf _ _ _ _ => simp [hn2] at h1
              | internal ks2 par2 cs2 =>
                simp only [hn2, Option.some.injEq, BPlusTree.mk.injEq, List.cons.injEq,
                  Node.internal.injEq, and_true, true_and] at h1 h2 h3 ⊢
                subst h1 h2 h3
                rfl
        · simp [hg] at h1


section
variable [LinearOrder K]

/-- The step of `insertIntoLeafLog` at a leaf: the step of `insertIntoLeaf`, with an empty
record; a node is allocated when the leaf is split, the right leaf, and only then. -/
theorem leaf_step_log {H : List (Node K V)} {m a : Nat} {lo hi : Option K} (rt : Nat) (key : K)
    (v : V) (hw : WF H 0 m a lo hi) (hlo : LoLe lo key) (hhi : HiGt key hi) :
    (∃ H1, (∀ f, insertIntoLeafLog f ⟨some rt, H⟩ a key v = some (⟨some rt, H1⟩, [])) ∧
        H1.length = H.length ∧ StepA H H1 0 m a lo hi key v) ∨
      (∃ H1 s r, (∀ f, insertIntoLeafLog f ⟨some rt, H⟩ a key v =
          insertIntoParentLog f ⟨some rt, H1⟩ a s r []) ∧
        H1.length = H.length + 1 ∧ r = H.length ∧ StepB H H1 0 a lo hi key v s r) := by
  obtain ⟨ks, par, vs, nx, ha, hlen, hs, hb, hm, hmax, hhead⟩ := hw
  have halt : a < H.length := (List.getElem?_eq_some_iff.mp ha).1
  by_cases hk : ks[lowerBound key ks]? = some key
  · -- the key is present: overwrite
    obtain ⟨hpos, hzip⟩ := zip_set_lowerBound key v ks vs hlen hk
    refine Or.inl ⟨H.set a (Node.leaf ks par (vs.set (lowerBound key ks) v) nx), ?_, by simp,
      ?_⟩
    · intro f
      simp [insertIntoLeafLog, ha, hk, hpos]
    · refine ⟨⟨ks, par, _, nx, get_set_self _ halt, by simpa using hlen, hs, hb, hm, hmax,
        hhead⟩,
        ?_, ⟨by simp, fun x _ hx => get_set_ne _ (by simpa [nodesOf] using hx)⟩, ?_, ?_, ?_, rfl⟩
      · simp only [entries, entriesAt, get_set_self _ halt, ha]
        exact hzip
      · simp [parentAt, get_set_self _ halt, ha, Node.parent]
      · simp [nodesOf]
      · intro last
        simp [leavesOf, Linked, nextAt, get_set_self _ halt, ha, Node.next]
  · have hpos : lowerBound key ks ≤ vs.length := hlen ▸ lowerBound_le key ks
    have hzip := zip_insertAt_lowerBound key v ks vs hlen hk
    have hs' := pairwise_insertAt_lowerBound key ks hs hk
    have hlk : (insertAt ks (lowerBound key ks) key).length = ks.length + 1 :=
      length_insertAt _ _ _ (lowerBound_le key ks)
    have hlv : (insertAt vs (lowerBound key ks) v).length = ks.length + 1 := by
      rw [length_insertAt _ _ _ hpos, hlen]
    have hb' : ∀ k ∈ insertAt ks (lowerBound key ks) key, LoLe lo k ∧ HiGt k hi := by
      intro k hkm
      rcases mem_insertAt hkm with rfl | hkm
      · exact ⟨hlo, hhi⟩
      · exact hb k hkm
    have hhead' := head?_insertAt_lowerBound key ks hlo hhead hk
    by_cases hfull : ks.length + 1 > MAX_KEYS
    · -- the leaf overflows: split
      have h4 : ks.length + 1 = 4 := by simp only [MAX_KEYS, ORDER] at hfull hmax; omega
      obtain ⟨a0, a1, a2, a3, hks'⟩ := exists_of_length_four (hlk.trans h4)
      obtain ⟨b0, b1, b2, b3, hvs'⟩ := exists_of_length_four (hlv.trans h4)
      rw [hks'] at hs' hb' hzip hlk hhead'
      rw [hvs'] at hzip
      refine Or.inr ⟨(H.set a (Node.leaf [a0, a1, a2, a3] par [b0, b1, b2, b3] nx) ++
        [Node.leaf [a2, a3] none [b2, b3] nx]).set a
          (Node.leaf [a0, a1] par [b0, b1] (some H.length)), a2, H.length, ?_, by simp, rfl,
        ?_⟩
      · intro f
        simp [insertIntoLeafLog, ha, hk, hpos, hks', hvs', splitLeafLog, MAX_KEYS, ORDER,
          get_set_self _ halt]
      · have hne : H.length ≠ a := Nat.ne_of_gt halt
        have gl : ((H.set a (Node.leaf [a0, a1, a2, a3] par [b0, b1, b2, b3] nx) ++
            [Node.leaf [a2, a3] none [b2, b3] nx]).set a
              (Node.leaf [a0, a1] par [b0, b1] (some H.length)))[a]? =
            some (Node.leaf [a0, a1] par [b0, b1] (some H.length)) :=
          get_set_self _ (by simp; omega)
        have gr : ((H.set a (Node.leaf [a0, a1, a2, a3] par [b0, b1, b2, b3] nx) ++
            [Node.leaf [a2, a3] none [b2, b3] nx]).set a
              (Node.leaf [a0, a1] par [b0, b1] (some H.length)))[H.length]? =
            some (Node.leaf [a2, a3] none [b2, b3] nx) := by
          rw [get_set_ne _ hne]
          have := get_append_new (H.set a (Node.leaf [a0, a1, a2, a3] par [b0, b1, b2, b3] nx))
            (Node.leaf [a2, a3] none [b2, b3] nx)
          rwa [List.length_set] at this
        simp only [List.pairwise_cons, List.mem_cons, List.mem_singleton, forall_eq_or_imp,
          forall_eq, List.not_mem_nil, false_implies, implies_true, List.Pairwise.nil,
          and_true] at hs' hb'
        obtain ⟨⟨h01, h02, h03⟩, ⟨h12, h13⟩, h23⟩ := hs'
        obtain ⟨hb0, hb1, hb2, hb3⟩ := hb'
        refine ⟨⟨_, par, _, _, gl, rfl, by simp [h01], ?_, by simp, by simp [MAX_KEYS, ORDER],
            hhead'⟩,
          ⟨_, none, _, nx, gr, rfl, by simp [h23], ?_, by simp, by simp [MAX_KEYS, ORDER],
            by simp⟩,
          hb0.1.widen_lt h02, hb2.2, ?_, ⟨by simp, fun x hx hxa => ?_⟩, ?_, le_rfl, ?_, ?_, rfl⟩
        · intro k hk
          simp only [List.mem_cons, List.mem_singleton, List.not_mem_nil, or_false] at hk
          rcases hk with rfl | rfl
          · exact ⟨hb0.1, h02⟩
          · exact ⟨hb1.1, h12⟩
        · intro k hk
          simp only [List.mem_cons, List.mem_singleton, List.not_mem_nil, or_false] at hk
          rcases hk with rfl | rfl
          · exact ⟨le_rfl, hb2.2⟩
          · exact ⟨le_of_lt h23, hb3.2⟩
        · simp only [entries, entriesAt, gl, gr, ha]
          rw [← hzip]
          rfl
        · have hxa' : x ≠ a := by simpa [nodesOf] using hxa
          rw [get_set_ne _ hxa', get_append_old _ (by simpa using hx), get_set_ne _ hxa']
        · simp [parentAt, gl, ha, Node.parent]
        · simp [nodesOf]
        · intro last
          simp [leavesOf, Linked, nextAt, gl, gr, ha, Node.next]
    · -- room left in the leaf
      refine Or.inl ⟨H.set a (Node.leaf (insertAt ks (lowerBound key ks) key) par
        (insertAt vs (lowerBound key ks) v) nx), ?_, by simp, ?_⟩
      · intro f
        simp [insertIntoLeafLog, ha, hk, hpos, hlk, hfull]
      · refine ⟨⟨_, par, _, nx, get_set_self _ halt, by rw [hlv, hlk], hs', hb', by omega,
          by omega, hhead'⟩,
          ?_, ⟨by simp, fun x _ hx => get_set_ne _ (by simpa [nodesOf] using hx)⟩, ?_, ?_, ?_, rfl⟩
        · simp only [entries, entriesAt, get_set_self _ halt, ha]
          exact hzip
        · simp [parentAt, get_set_self _ halt, ha, Node.parent]
        · simp [nodesOf]
        · intro last
          simp [leavesOf, Linked, nextAt, get_set_self _ halt, ha, Node.next]

/-- The children of a well-formed internal node are pairwise distinct. -/
theorem Chain.nodup {H : List (Node K V)} {h : Nat} {lo hi : Option K} {ks : List K}
    {cs : List Nat} (hc : Chain (fun c l u => WF H h 2 c l u) lo ks cs hi) : cs.Nodup := by
  refine hc.pairwise.imp ?_
  rintro x y ⟨lx, ux, ly, uy, hx, hy, hle⟩ hxy
  subst hxy
  exact WF.disjoint hx hy (by omega) (by omega)
    (fun k _ h2 h3 _ => absurd (lt_of_lt_of_le h2 (le_trans hle h3)) (lt_irrefl _))
    (mem_nodesOf_self _ _ _) (mem_nodesOf_self _ _ _)

/-- The promotion of the separator `s` of a split of the child `c` that `findLeaf` chose:
`lower_bound` finds the index of `c`, so `s` goes to the key index of `c` and the right node
right after `c`. -/
theorem Found.afterLeft {Q : Nat → Option K → Option K → Prop} {lo hi l u : Option K}
    {ks : List K} {cs pre post : List Nat} {c : Nat} {key : K}
    (hf : Found Q lo hi ks cs key pre c post l u) (hnd : cs.Nodup) {s : K} (hls : LoLt l s)
    (hsu : HiGt s u) (P r : Nat) :
    Promotion.AfterLeft ⟨P, ks, cs, c, s, r, lowerBound s ks, insertAt ks (lowerBound s ks) s,
      insertAt cs (lowerBound s ks + 1) r⟩ := by
  obtain ⟨hlb, _⟩ := hf.insert (fun _ _ _ => True) s r (fun _ _ _ _ _ => trivial) trivial
    trivial hls hsu
  have hsplit := hf.split
  have hle := lowerBound_le s ks
  have hidx : cs[pre.length]? = some c := by
    rw [hsplit, List.getElem?_append_right (le_refl _)]
    simp
  refine ⟨⟨pre.length, hidx⟩, fun j hj => ?_⟩
  simp only at hj ⊢
  have hjp : j = pre.length := (List.getElem?_inj (List.getElem?_eq_some_iff.mp hj).1 hnd
    (hj.trans hidx.symm))
  subst hjp
  rw [hlb] at hle ⊢
  refine ⟨rfl, ?_, ?_, ?_⟩
  · have hlen : (ks.take pre.length).length = pre.length := by simp [hle]
    rw [insertAt, List.getElem?_append_right (le_of_eq hlen), hlen]
    simp
  · have : insertAt cs (pre.length + 1) r = (pre ++ [c]) ++ r :: post := by
      have := insertAt_append (pre ++ [c]) post r
      simpa [hsplit] using this
    rw [this, List.append_assoc, List.getElem?_append_right (le_refl _)]
    simp
  · have : insertAt cs (pre.length + 1) r = (pre ++ [c]) ++ r :: post := by
      have := insertAt_append (pre ++ [c]) post r
      simpa [hsplit] using this
    rw [this, List.getElem?_append_right (by simp)]
    simp

/-- The tree computed by `insertIntoParentLog` is the tree computed by `insertIntoParent`. -/
theorem insertIntoParentLog_fst (fuel : Nat) :
    ∀ (t : BPlusTree K V) (l : Nat) (k : K) (r : Nat) (log : List (Promotion K)),
      (insertIntoParentLog fuel t l k r log).map Prod.fst = insertIntoParent fuel t l k r := by
  induction fuel with
  | zero => intro t l k r log; rfl
  | succ fuel ih =>
    intro t l k r log
    rw [insertIntoParentLog, insertIntoParent]
    split
    · simp only
      cases setParentAt (t.heap ++ [Node.internal [k] none [l, r]]) l (some t.heap.length) with
      | none => rfl
      | some heap2 =>
        simp only
        cases setParentAt heap2 r (some t.heap.length) with
        | none => rfl
        | some heap3 => rfl
    · cases t.heap[l]? with
      | none => rfl
      | some n =>
        simp only
        cases n.parent with
        | none => rfl
        | some parent =>
          simp only
          cases t.heap[parent]? with
          | none => rfl
          | some pn =>
            cases pn with
            | leaf _ _ _ _ => rfl
            | internal ks par cs =>
              simp only
              split
              · cases setParentAt (t.heap.set parent (Node.internal
                  (insertAt ks (lowerBound k ks) k) par
                  (insertAt cs (lowerBound k ks + 1) r))) r (some parent) with
                | none => rfl
                | some heap2 =>
                  simp only
                  split
                  · exact splitInternalLog_fst (fun t1 a k1 b => ih t1 a k1 b _) _ _
                  · rfl
              · rfl

/-- The tree computed by `splitLeafLog` is the tree computed by `splitLeaf`. -/
theorem splitLeafLog_fst (fuel : Nat) (t : BPlusTree K V) (leaf : Nat) :
    (splitLeafLog fuel t leaf).map Prod.fst = splitLeaf fuel t leaf := by
  unfold splitLeafLog splitLeaf
  cases t.heap[leaf]? with
  | none => rfl
  | some n =>
    cases n with
    | internal _ _ _ => rfl
    | leaf ks par vs nx =>
      simp only
      split
      · cases (ks.drop ((ks.length + 1) / 2))[0]? with
        | none => rfl
        | some newKey => exact insertIntoParentLog_fst _ _ _ _ _ _
      · rfl

/-- The tree computed by `insertIntoLeafLog` is the tree computed by `insertIntoLeaf`. -/
theorem insertIntoLeafLog_fst (fuel : Nat) (t : BPlusTree K V) (leaf : Nat) (key : K)
    (v : V) : (insertIntoLeafLog fuel t leaf key v).map Prod.fst =
      insertIntoLeaf fuel t leaf key v := by
  unfold insertIntoLeafLog insertIntoLeaf
  cases t.heap[leaf]? with
  | none => rfl
  | some n =>
    cases n with
    | internal _ _ _ => rfl
    | leaf ks par vs nx =>
      simp only
      split
      · split <;> rfl
      · split
        · split
          · exact splitLeafLog_fst _ _ _
          · rfl
        · rfl

/-- The tree computed by `insertLog` is the tree computed by `insert`. -/
theorem insertLog_fst (t : BPlusTree K V) (key : K) (v : V) :
    (insertLog t key v).map Prod.fst = insert t key v := by
  unfold insertLog insert
  cases t.root with
  | none => rfl
  | some r =>
    simp only
    cases findLeaf t key with
    | none => rfl
    | some p =>
      cases p with
      | none => rfl
      | some leaf => exact insertIntoLeafLog_fst _ _ _ _ _

/-- Method `insertIntoParentLog` on the root: the record is left as it is. -/
theorem insertIntoParentLog_root (f : Nat) (t : BPlusTree K V) (l : Nat) (k : K) (r : Nat)
    (log : List (Promotion K)) (hl : some l = t.root) :
    insertIntoParentLog (f + 1) t l k r log =
      (insertIntoParent (f + 1) t l k r).map fun t1 => (t1, log) := by
  rw [insertIntoParentLog, insertIntoParent, if_pos hl, if_pos hl]
  simp only
  cases setParentAt (t.heap ++ [Node.internal [k] none [l, r]]) l (some t.heap.length) with
  | none => rfl
  | some heap2 =>
    simp only
    cases setParentAt heap2 r (some t.heap.length) with
    | none => rfl
    | some heap3 => rfl

/-- Method `insertIntoParentLog` when the left node is not the root: up to the overflow
check. -/
theorem insertIntoParentLog_nonroot {H1 G : List (Node K V)} {c P rt r : Nat} {s : K}
    {ks : List K} {par : Ptr} {cs : List Nat} (f : Nat) (log : List (Promotion K))
    (hne : c ≠ rt)
    (hc : parentAt H1 c = some (some P)) (hP : H1[P]? = some (Node.internal ks par cs))
    (hpos : lowerBound s ks + 1 ≤ cs.length)
    (hG : setParentAt (H1.set P (Node.internal (insertAt ks (lowerBound s ks) s) par
      (insertAt cs (lowerBound s ks + 1) r))) r (some P) = some G) :
    insertIntoParentLog (f + 1) ⟨some rt, H1⟩ c s r log =
      if (insertAt ks (lowerBound s ks) s).length > MAX_KEYS then
        splitInternalLog (fun t1 a k b => insertIntoParentLog f t1 a k b
          (log ++ [⟨P, ks, cs, c, s, r, lowerBound s ks, keysAt G P, childrenAt G P⟩]))
          ⟨some rt, G⟩ P
      else some (⟨some rt, G⟩, log ++ [⟨P, ks, cs, c, s, r, lowerBound s ks, keysAt G P,
        childrenAt G P⟩]) := by
  unfold parentAt at hc
  cases hn : H1[c]? with
  | none => simp [hn] at hc
  | some n =>
    simp only [hn, Option.map_some', Option.some.injEq] at hc
    simp only [insertIntoParentLog, Option.some.injEq, hne, if_false, hn, hc, hP, hpos,
      if_true, hG]

/-- The insertion of `key` below the node `a` of height `h`, with the record of the
promotions: as `cascade`, and the record is sound and complete.  Every promotion recorded is
made at a node of the store as it was before the insertion, puts the separator and the right
node right after the left node, and its right node is allocated by the insertion; every node
allocated by the insertion is the right node of a recorded promotion, but for the right node
of a split of `a` itself; and when `a` is not split the parent of the last promotion holds in
the end the keys and children recorded. -/
theorem cascade_log (h : Nat) : ∀ {H : List (Node K V)} {m a : Nat} {lo hi : Option K}
    (rt : Nat) (key : K) (v : V), WF H h m a lo hi → LoLe lo key → HiGt key hi →
    (∀ x ∈ nodesOf H h a, x = rt → x = a) →
    ∃ leaf, (∀ e, findLeafLoop H key (h + 1 + e) a = some leaf) ∧
      ((∃ H1 log, (∀ f, insertIntoLeafLog (f + h) ⟨some rt, H⟩ leaf key v =
            some (⟨some rt, H1⟩, log)) ∧
          (∀ p ∈ log, Promotion.From H p ∧ p.AfterLeft ∧ H.length ≤ p.right ∧
            p.right < H1.length) ∧
          (∀ x, H.length ≤ x → x < H1.length → ∃ p ∈ log, p.right = x) ∧
          (∀ p, log.getLast? = some p →
            ∃ par, H1[p.parent]? = some (Node.internal p.keysAfter par p.childrenAfter)) ∧
          StepA H H1 h m a lo hi key v) ∨
        (∃ H1 s r log, (∀ f, insertIntoLeafLog (f + h) ⟨some rt, H⟩ leaf key v =
            insertIntoParentLog f ⟨some rt, H1⟩ a s r log) ∧
          (∀ p ∈ log, Promotion.From H p ∧ p.AfterLeft ∧ H.length ≤ p.right ∧
            p.right < H1.length) ∧
          (∀ x, H.length ≤ x → x < H1.length → x = r ∨ ∃ p ∈ log, p.right = x) ∧
          StepB H H1 h a lo hi key v s r)) := by
  induction h with
  | zero =>
    intro H m a lo hi rt key v hw hlo hhi _
    refine ⟨a, fun e => ?_, ?_⟩
    · obtain ⟨ks, par, vs, nx, ha, _⟩ := hw
      rw [show 0 + 1 + e = e + 1 by omega]
      simp [findLeafLoop, ha]
    · rcases leaf_step_log rt key v hw hlo hhi with ⟨H1, h1, hl, h2⟩ | ⟨H1, s, r, h1, hl, hr, h2⟩
      · exact Or.inl ⟨H1, [], fun f => h1 _, by simp, fun x hx hx1 => by omega, by simp, h2⟩
      · exact Or.inr ⟨H1, s, r, [], fun f => h1 _, by simp,
          fun x hx hx1 => Or.inl (by omega), h2⟩
  | succ h ih =>
    intro H m P lo hi rt key v hw hlo hhi hrt
    have hw0 := hw
    obtain ⟨ks, par, cs, hP, hk1, hk3, hpar, hc⟩ := hw
    obtain ⟨pre, c, post, l, u, hf⟩ := hc.found key hlo hhi
    have hcm : c ∈ cs := by rw [hf.split]; simp
    have hPc : P ∉ nodesOf H h c :=
      WF.not_mem_of_higher hf.here (by omega) hw0 (Nat.lt_succ_self h)
    have hcP : ∀ x ∈ nodesOf H h c, x ∈ nodesOf H (h + 1) P := fun x hx =>
      mem_nodesOf_child (by rw [WF.children_mem hP]; exact hcm) hx
    have hrtc : ∀ x ∈ nodesOf H h c, x ≠ rt := fun x hx hxr =>
      hPc (hrt x (hcP x hx) hxr ▸ hx)
    obtain ⟨leaf, hfl, hstep⟩ := ih rt key v hf.here hf.inl hf.inu
      (fun x hx hxr => absurd hxr (hrtc x hx))
    have hget : cs[findChild key ks]? = some c := by
      rw [← hf.idx, hf.split, List.getElem?_append_right (le_refl _)]; simp
    refine ⟨leaf, fun e => ?_, ?_⟩
    · rw [show h + 1 + 1 + e = (h + 1 + e) + 1 by omega]
      simp only [findLeafLoop, hP, hget]
      exact hfl e
    · rcases hstep with ⟨H1, log, h1, hlog, hall, hlast, h2⟩ |
        ⟨H1, s, r, log, h1, hlog, hall, h2⟩
      · refine Or.inl ⟨H1, log, fun f => ?_, hlog, hall, hlast,
          parent_keep hP hk1 hk3 hpar hf h2⟩
        rw [show f + (h + 1) = (f + 1) + h by omega]
        exact h1 _
      · obtain ⟨G, g1, g2, g3, g4, g5, g6, g7, g8⟩ := parent_insert hP hk1 hk3 hpar hf h2
        have hcrt : c ≠ rt := hrtc c (mem_nodesOf_self _ _ _)
        have hGl : G.length = H1.length := by
          rw [setParentAt_length g4]
          simp
        have hrl : r < H1.length := h2.wfr.root_lt_length
        have hkA : keysAt G P = insertAt ks (lowerBound s ks) s := by
          simp [keysAt, g7, Node.keys]
        have hcA : childrenAt G P = insertAt cs (lowerBound s ks + 1) r := by
          simp [childrenAt, g7]
        have hlog1 : ∀ p ∈ log ++ [(⟨P, ks, cs, c, s, r, lowerBound s ks, keysAt G P,
            childrenAt G P⟩ : Promotion K)],
            Promotion.From H p ∧ p.AfterLeft ∧ H.length ≤ p.right ∧ p.right < G.length := by
          intro p hp
          rcases List.mem_append.mp hp with hp | hp
          · obtain ⟨q1, q2, q3, q4⟩ := hlog p hp
            exact ⟨q1, q2, q3, by omega⟩
          · simp only [List.mem_singleton] at hp
            subst hp
            refine ⟨⟨⟨par, hP⟩, hpar c hcm, rfl, hkA, hcA⟩, ?_, h2.fresh, by
              simp only
              omega⟩
            rw [hkA, hcA]
            exact hf.afterLeft hc.nodup h2.los h2.his P r
        have hall1 : ∀ x, H.length ≤ x → x < G.length →
            ∃ p ∈ log ++ [(⟨P, ks, cs, c, s, r, lowerBound s ks, keysAt G P,
              childrenAt G P⟩ : Promotion K)], p.right = x := by
          intro x hx hx1
          rcases hall x hx (by omega) with hxr | ⟨p, hp, hpx⟩
          · exact ⟨_, List.mem_append_right _ (List.mem_singleton_self _), hxr.symm⟩
          · exact ⟨p, List.mem_append_left _ hp, hpx⟩
        by_cases hfull : (insertAt ks (lowerBound s ks) s).length > MAX_KEYS
        · obtain ⟨G3, s1, e1, e2⟩ := split_internal g7 (by omega) g6
          have hG3 : (⟨some rt, G3⟩ : BPlusTree K V).heap.length =
              (⟨some rt, G⟩ : BPlusTree K V).heap.length + 1 :=
            splitInternal_length (fun up => e1 up (some rt))
          simp only at hG3
          refine Or.inr ⟨G3, s1, G.length, log ++ [⟨P, ks, cs, c, s, r, lowerBound s ks,
            keysAt G P, childrenAt G P⟩], fun f => ?_, fun p hp => ?_, fun x hx hx1 => ?_,
            StepB.of_split g8 e2⟩
          · rw [show f + (h + 1) = (f + 1) + h by omega, h1,
              insertIntoParentLog_nonroot f log hcrt g2 g1 g3 g4, if_pos hfull,
              splitInternalLog_eq (fun up => e1 up (some rt))]
          · obtain ⟨q1, q2, q3, q4⟩ := hlog1 p hp
            exact ⟨q1, q2, q3, by omega⟩
          · by_cases hxG : x = G.length
            · exact Or.inl hxG
            · exact Or.inr (hall1 x hx (by omega))
        · refine Or.inl ⟨G, log ++ [⟨P, ks, cs, c, s, r, lowerBound s ks, keysAt G P,
            childrenAt G P⟩], fun f => ?_, hlog1, hall1, fun p hp => ?_, ?_, g8⟩
          · rw [show f + (h + 1) = (f + 1) + h by omega, h1,
              insertIntoParentLog_nonroot f log hcrt g2 g1 g3 g4, if_neg hfull]
          · simp only [List.getLast?_append, List.getLast?_singleton, Option.or,
              Option.some.injEq] at hp
            subst hp
            exact ⟨par, by rw [hkA, hcA]; exact g7⟩
          · obtain ⟨ks2, par2, cs2, q1, q2, _, q4, q5⟩ := g6
            rw [g7] at q1
            simp only [Option.some.injEq, Node.internal.injEq] at q1
            obtain ⟨rfl, rfl, rfl⟩ := q1
            exact ⟨_, _, _, g7, q2, by omega, q4, q5⟩

/-- Method `insertLog` on a tree that satisfies the invariant returns the tree that `insert`
returns, with a record that is sound and complete: every promotion recorded is made at a node
of the tree as it was before, puts the separator and the right node right after the left
node, and has a right node allocated by the call; every node allocated by the call is the new
root, the right child of the new root, or the right node of a recorded promotion; and when
the root is kept, the parent of the last promotion holds the keys and children recorded. -/
theorem insertLog_spec {t : BPlusTree K V} (hi : Inv t) (key : K) (v : V) :
    ∃ t1 log, insertLog t key v = some (t1, log) ∧ insert t key v = some t1 ∧
      (∀ p ∈ log, Promotion.From t.heap p ∧ p.AfterLeft ∧ t.heap.length ≤ p.right ∧
        p.right < t1.heap.length) ∧
      (∀ x, t.heap.length ≤ x → x < t1.heap.length →
        t1.root = some x ∨
        (∃ N s r, t1.root = some N ∧ t.root = some r ∧ t.heap.length ≤ N ∧
          t1.heap[N]? = some (Node.internal [s] none [r, x])) ∨
        ∃ p ∈ log, p.right = x) ∧
      (∀ p, log.getLast? = some p → t1.root = t.root →
        ∃ par, t1.heap[p.parent]? = some (Node.internal p.keysAfter par p.childrenAfter)) := by
  have key1 : ∀ t1 log, insertLog t key v = some (t1, log) → insert t key v = some t1 := by
    intro t1 log hh
    rw [← insertLog_fst, hh]
    rfl
  obtain ⟨root, H⟩ := t
  rcases hi with ⟨h1, h2⟩ | ⟨h, r, hr⟩
  · simp only at h1 h2
    subst h1 h2
    refine ⟨_, [], rfl, rfl, by simp, fun x _ hx => Or.inl ?_, by simp⟩
    have : x = 0 := by
      simp only [List.nil_append, List.length_singleton] at hx
      omega
    subst this
    rfl
  · have hroot : root = some r := hr.root
    subst hroot
    have hlt : h < H.length := hr.ht
    have hwf : WF H h 1 r none none := hr.wf
    have hrl : r < H.length := hwf.root_lt_length
    obtain ⟨leaf, hfl, hstep⟩ := cascade_log h r key v hwf trivial trivial (fun _ _ hh => hh)
    have hfind : findLeaf ⟨some r, H⟩ key = some (some leaf) := by
      simp only [findLeaf]
      rw [show H.length = h + 1 + (H.length - h - 1) by omega, hfl]
      rfl
    have hins : insertLog ⟨some r, H⟩ key v =
        insertIntoLeafLog ((H.length - h - 1 + 1) + h) ⟨some r, H⟩ leaf key v := by
      simp only [insertLog, hfind]
      rw [show H.length - h - 1 + 1 + h = H.length by omega]
    rcases hstep with ⟨H1, log, e1, hlog, hall, hlast, _⟩ | ⟨H1, s, r1, log, e1, hlog, hall, hb⟩
    · have e2 : insertLog ⟨some r, H⟩ key v = some (⟨some r, H1⟩, log) := by rw [hins, e1]
      exact ⟨_, log, e2, key1 _ _ e2, hlog, fun x hx hx1 => Or.inr (Or.inr (hall x hx hx1)),
        fun p hp _ => hlast p hp⟩
    · obtain ⟨G, g1, g2, g3, _⟩ := root_split hb
      have hfr := hb.frame.1
      have e2 : insertLog ⟨some r, H⟩ key v = some (⟨some H1.length, G⟩, log) := by
        rw [hins, e1, insertIntoParentLog_root _ _ _ _ _ _ rfl, g1]
        rfl
      refine ⟨_, log, e2, key1 _ _ e2, fun p hp => ?_, fun x hx hx1 => ?_, fun p _ hrt => ?_⟩
      · obtain ⟨q1, q2, q3, q4⟩ := hlog p hp
        refine ⟨q1, q2, q3, ?_⟩
        show p.right < G.length
        omega
      · have hx2 : x < H1.length + 1 := by
          have : x < G.length := hx1
          omega
        by_cases hxN : x = H1.length
        · exact Or.inl (by rw [hxN])
        · rcases hall x hx (by omega) with hxr | hp
          · subst hxr
            exact Or.inr (Or.inl ⟨H1.length, s, r, rfl, rfl, hfr, g3⟩)
          · exact Or.inr (Or.inr hp)
      · simp only [Option.some.injEq] at hrt
        omega

/-- C12 (promote-to-parent position): on every tree `t` built by inserts, `insert` returns,
and so does `insertLog`, with the same tree and the record of the calls of
`insertIntoParent` on a left node that is not the root.  For every such call, with left node
`L`, separator `s` and right node `R`: the parent `P` of `L` is an internal node of `t` and
`L` is one of its children, at one index `j` only; the position `pos` computed by
`lower_bound` on the keys of `P` is `j`; and in the keys and children of `P` read back from
the store after the call has written them, the key of index `j` is `s`, the child of index
`j` is still `L` and the child of index `j + 1` is `R`, a node allocated by this insert.
No split is left out: every node allocated by this insert is the new root, the right child of
the new root, or the right node `R` of one of these calls.  And when the root is kept, the
parent of the last call holds, in the tree returned, the keys and children read back. -/
theorem C12_promotion_position (ops : List (K × V)) (key : K) (v : V) :
    ∃ t t1 log, build ops = some t ∧ insertLog t key v = some (t1, log) ∧
      insert t key v = some t1 ∧
      (∀ p ∈ log, Promotion.From t.heap p ∧ p.AfterLeft ∧ t.heap.length ≤ p.right ∧
        p.right < t1.heap.length) ∧
      (∀ x, t.heap.length ≤ x → x < t1.heap.length →
        t1.root = some x ∨
        (∃ N s r, t1.root = some N ∧ t.root = some r ∧ t.heap.length ≤ N ∧
          t1.heap[N]? = some (Node.internal [s] none [r, x])) ∨
        ∃ p ∈ log, p.right = x) ∧
      (∀ p, log.getLast? = some p → t1.root = t.root →
        ∃ par, t1.heap[p.parent]? = some (Node.internal p.keysAfter par p.childrenAfter)) := by
  obtain ⟨t, h1, h2, _, _⟩ := build_spec ops
  obtain ⟨t1, log, a1, a2, a3, a4, a5⟩ := insertLog_spec h2 key v
  exact ⟨t, t1, log, h1, a1, a2, a3, a4, a5⟩

/-- A run with two splits: after the keys 1 to 9 in ascending order the root holds
`[3, 5, 7]` over four leaves, and the insert of 10 splits the last leaf, at child index 3,
with separator 9, which goes to key index 3 and overfills the root; the split of the root
makes a new root and no further promotion on a node that is not the root. -/
theorem promotion_scenario :
    ((build ([(1, 0), (2, 0), (3, 0), (4, 0), (5, 0), (6, 0), (7, 0), (8, 0), (9, 0)] :
        List (Int × Nat))).bind fun t => insertLog t 10 0).map (fun r => (r.1.root, r.2)) =
      some (some 7, [⟨2, [3, 5, 7], [0, 1, 3, 4], 4, 9, 5, 3, [3, 5, 7, 9], [0, 1, 3, 4, 5]⟩]) :=
  rfl

/-- A run with a promotion and no split of the root: after the keys 10, 20, 5, 6, 8 the root
holds `[10]` over the leaves `[5, 6, 8]` and `[10, 20]`, and the insert of 7 splits the first
leaf, at child index 0, with separator 7, which goes to key index 0, and the new leaf to
child index 1. -/
theorem promotion_kept_root :
    ((build ([(10, 1), (20, 2), (5, 3), (6, 4), (8, 5)] : List (Int × Nat))).bind
        fun t => insertLog t 7 9).map (fun r => (r.1.root, r.2, keysAt r.1.heap 2,
          childrenAt r.1.heap 2)) =
      some (some 2, [⟨2, [10], [0, 1], 0, 7, 3, 0, [7, 10], [0, 3, 1]⟩], [7, 10], [0, 3, 1]) :=
  rfl

end

end BPlusTree
